import Mathlib

/-! # SMT register allocator: a shallow embedding

This development embeds `src/src/smt_register_allocator.{h,cpp}` and proves
properties of the allocator's public operations.

Modelling conventions.

* `int` quantities (register counts, thread ids, the configuration) are
  unbounded integers.  The constructor's assertions bound every intermediate
  value by `total_registers`, so for a configuration whose total fits an `int`
  no `int` operation of the source overflows; the range of `int` appears in
  `Reachable` as the hypothesis `total_registers < 2 ^ 31`.
* The `uint64_t` cycle counter is a natural number reduced modulo `2 ^ 64` where
  the source increments it.
* `double` values are modelled by the exact rational they denote.  Every
  arithmetic operation is the exact operation followed by `rnd`, IEEE 754
  binary64 round-to-nearest, ties-to-even (53-bit significand, gradual
  underflow at `2 ^ (-1074)`).  Overflow to infinity is not modelled: every
  value the allocator computes from `uint64_t` counters lies far below
  `2 ^ 1024`.  Division by zero (which the source guards against) yields `0` as
  in Mathlib.
* `std::vector<std::unique_ptr<ThreadMetrics>>` is a list of records;
  `std::unordered_map<int, int>` is an association list with unique keys.
* `std::sort` leaves the relative order of elements with equal keys
  unspecified.  The model uses insertion sort with the source's comparator,
  which keeps elements with equal scores in index order; this is what the
  insertion-sort phase of the common standard-library implementations does on
  short ranges.
-/

namespace SMT

/-! ## binary64 arithmetic -/

/-- Helper for `natLog2`: floor of the base-2 logarithm by repeated halving. -/
def log2Fuel : Nat → Nat → Nat
  | 0, _ => 0
  | fuel + 1, n => if n < 2 then 0 else log2Fuel fuel (n / 2) + 1

/-- Floor of the base-2 logarithm of a natural number (`0` for `0`). -/
def natLog2 (n : Nat) : Nat := log2Fuel n n

/-- The rational `2 ^ e` for an integer exponent. -/
def pow2 (e : Int) : ℚ :=
  if 0 ≤ e then ((2 ^ e.toNat : Nat) : ℚ) else 1 / ((2 ^ (-e).toNat : Nat) : ℚ)

/-- For `q > 0`: the integer `E` with `2 ^ E ≤ q < 2 ^ (E + 1)`. -/
def ilog2 (q : ℚ) : Int :=
  let k : Int := (natLog2 q.num.toNat : Int) - (natLog2 q.den : Int)
  if pow2 k ≤ q then k else k - 1

/-- Round a rational to the nearest integer, ties to the even neighbour. -/
def roundHalfEven (x : ℚ) : Int :=
  let f := ⌊x⌋
  let r := x - f
  if r < 1 / 2 then f
  else if 1 / 2 < r then f + 1
  else if f % 2 = 0 then f else f + 1

/-- Round a positive rational to binary64: the significand has 53 bits, the
exponent of the last place is at least `-1074`. -/
def rndPos (q : ℚ) : ℚ :=
  let e := max (ilog2 q - 52) (-1074)
  (roundHalfEven (q / pow2 e) : ℚ) * pow2 e

/-- IEEE 754 binary64 round-to-nearest, ties-to-even, on exact rationals. -/
def rnd (q : ℚ) : ℚ :=
  if q = 0 then 0 else if 0 < q then rndPos q else - rndPos (-q)

/-- Addition of two doubles. -/
def fadd (a b : ℚ) : ℚ := rnd (a + b)

/-- Division of two doubles. -/
def fdiv (a b : ℚ) : ℚ := rnd (a / b)

/-- Multiplication of two doubles. -/
def fmul (a b : ℚ) : ℚ := rnd (a * b)

/-- Conversion `uint64_t → double`. -/
def ofUInt64 (n : Nat) : ℚ := rnd (n : ℚ)

/-- Conversion `int → double`; exact, since an `int` has at most 31 value bits. -/
def ofInt32 (n : Int) : ℚ := (n : ℚ)

/-- The conversion `static_cast<int>(double)`: truncation toward zero. -/
def truncToInt (x : ℚ) : Int := if 0 ≤ x then ⌊x⌋ else ⌈x⌉

/-- The literal `1e-10`: the double nearest to `10 ^ (-10)`. -/
def epsilon : ℚ := rnd (1 / 10000000000)

/-! ## Data model -/

/-- The record `struct ThreadMetrics`. -/
structure ThreadMetrics where
  l2_misses : Nat
  instructions : Nat
  miss_rate : ℚ
  allocated_registers : Int
  thread_id : Int
  deriving DecidableEq

/-- The constructor `ThreadMetrics(int id)`. -/
def ThreadMetrics.init (id : Int) : ThreadMetrics :=
  { l2_misses := 0, instructions := 0, miss_rate := 0, allocated_registers := 0, thread_id := id }

/-- The private state of `class SMTRegisterAllocator`. -/
structure SMTRegisterAllocator where
  total_registers_ : Int
  min_registers_per_thread_ : Int
  max_threads_ : Int
  threads_ : List ThreadMetrics
  thread_id_to_index_ : List (Int × Nat)
  allocation_cycles_ : Nat
  reallocation_interval_ : Nat
  deriving DecidableEq

/-- The call `map.find(k)`: the index stored for `k`, if any. -/
def mapFind (m : List (Int × Nat)) (k : Int) : Option Nat := m.lookup k

/-- The assignment `map[k] = v`: overwrite the entry for `k` or insert one. -/
def mapSet (m : List (Int × Nat)) (k : Int) (v : Nat) : List (Int × Nat) :=
  if (mapFind m k).isSome then m.map (fun p => if p.1 = k then (k, v) else p)
  else m ++ [(k, v)]

/-- The call `map.erase(it)` for the iterator found for key `k`. -/
def mapErase (m : List (Int × Nat)) (k : Int) : List (Int × Nat) :=
  m.filter (fun p => p.1 ≠ k)

/-- The statement `threads_[idx]->allocated_registers += extra`. -/
def addRegisters (ts : List ThreadMetrics) (idx : Nat) (extra : Int) : List ThreadMetrics :=
  match ts[idx]? with
  | some t => ts.set idx { t with allocated_registers := t.allocated_registers + extra }
  | none => ts

/-! ## The redistribution algorithm -/

/-- The comparator handed to `std::sort`: `a.first > b.first`. -/
def perfGt (a b : ℚ × Nat) : Bool := decide (b.1 < a.1)

/-- Insert `x` in front of the first element it is strictly greater than. -/
def insertDesc (x : ℚ × Nat) : List (ℚ × Nat) → List (ℚ × Nat)
  | [] => [x]
  | y :: ys => if perfGt x y then x :: y :: ys else y :: insertDesc x ys

/-- The call `std::sort(begin, end, perfGt)`, as insertion sort from the left. -/
def sortDesc (l : List (ℚ × Nat)) : List (ℚ × Nat) :=
  l.foldl (fun acc x => insertDesc x acc) []

/-- The score `1.0 / (miss_rate + 1e-10)`. -/
def performance (t : ThreadMetrics) : ℚ := fdiv 1 (fadd t.miss_rate epsilon)

/-- The vector `thread_performance` before sorting: `(score, index)` pairs. -/
def threadPerformance (ts : List ThreadMetrics) : List (ℚ × Nat) :=
  ts.enum.map (fun p => (performance p.2, p.1))

/-- The accumulation `total_performance += perf.first`, starting from `0.0`. -/
def totalPerformance (perfs : List (ℚ × Nat)) : ℚ :=
  perfs.foldl (fun acc p => fadd acc p.1) 0

/-- One iteration of the proportional loop: the state is the pair of the records
and the running `available_registers`. -/
def distributeStep (total_performance : ℚ) (st : List ThreadMetrics × Int) (perf : ℚ × Nat) :
    List ThreadMetrics × Int :=
  let thread_idx := perf.2
  let performance_ratio := fdiv perf.1 total_performance
  let extra_registers := truncToInt (fmul (ofInt32 st.2) performance_ratio)
  (addRegisters st.1 thread_idx extra_registers, st.2 - extra_registers)

/-- The proportional loop over the sorted scores. -/
def distribute (total_performance : ℚ) (perfs : List (ℚ × Nat)) (ts : List ThreadMetrics)
    (available_registers : Int) : List ThreadMetrics × Int :=
  perfs.foldl (distributeStep total_performance) (ts, available_registers)

/-- The branch `total_performance > 0` of `reallocateRegisters`. -/
def proportionalShare (perfs : List (ℚ × Nat)) (ts : List ThreadMetrics)
    (available_registers : Int) : List ThreadMetrics :=
  let r := distribute (totalPerformance perfs) perfs ts available_registers
  match perfs with
  | best :: _ => if 0 < r.2 then addRegisters r.1 best.2 r.2 else r.1
  | [] => r.1

/-- The `else` branch of `reallocateRegisters`: equal split, remainder to the
first records. -/
def equalShare (ts : List ThreadMetrics) (available_registers : Int) : List ThreadMetrics :=
  let extra_per_thread := available_registers / (ts.length : Int)
  let remainder := available_registers % (ts.length : Int)
  ts.enum.map (fun p =>
    { p.2 with allocated_registers :=
        p.2.allocated_registers + extra_per_thread + (if (p.1 : Int) < remainder then 1 else 0) })

/-- The method `SMTRegisterAllocator::reallocateRegisters`. -/
def reallocateRegisters (s : SMTRegisterAllocator) : SMTRegisterAllocator :=
  if s.threads_.isEmpty then s
  else
    let reserved_registers : Int := (s.threads_.length : Int) * s.min_registers_per_thread_
    let available_registers : Int := s.total_registers_ - reserved_registers
    let ts := s.threads_.map
      (fun t => { t with allocated_registers := s.min_registers_per_thread_ })
    if available_registers ≤ 0 then { s with threads_ := ts }
    else
      let thread_performance := sortDesc (threadPerformance ts)
      if 0 < totalPerformance thread_performance then
        { s with threads_ := proportionalShare thread_performance ts available_registers }
      else
        { s with threads_ := equalShare ts available_registers }

/-- The method `SMTRegisterAllocator::calculateMissRates`, whose body is empty. -/
def calculateMissRates (s : SMTRegisterAllocator) : SMTRegisterAllocator := s

/-- The method `SMTRegisterAllocator::isReallocationNeeded`. -/
def isReallocationNeeded (s : SMTRegisterAllocator) : Bool :=
  decide (s.reallocation_interval_ ≤ s.allocation_cycles_)

/-! ## Public operations -/

/-- The constructor; a failed `assert` is the result `none`. -/
def construct (total_registers min_registers_per_thread max_threads : Int)
    (reallocation_interval : Nat) : Option SMTRegisterAllocator :=
  if 0 < total_registers ∧ 0 < min_registers_per_thread ∧ 0 < max_threads ∧
      min_registers_per_thread * max_threads ≤ total_registers then
    some { total_registers_ := total_registers
           min_registers_per_thread_ := min_registers_per_thread
           max_threads_ := max_threads
           threads_ := []
           thread_id_to_index_ := []
           allocation_cycles_ := 0
           reallocation_interval_ := reallocation_interval }
  else none

/-- The method `SMTRegisterAllocator::addThread`. -/
def addThread (s : SMTRegisterAllocator) (thread_id : Int) : Bool × SMTRegisterAllocator :=
  if (mapFind s.thread_id_to_index_ thread_id).isSome then (false, s)
  else if s.max_threads_ ≤ (s.threads_.length : Int) then (false, s)
  else
    let new_thread : ThreadMetrics :=
      { ThreadMetrics.init thread_id with allocated_registers := s.min_registers_per_thread_ }
    (true, reallocateRegisters
      { s with thread_id_to_index_ := mapSet s.thread_id_to_index_ thread_id s.threads_.length
               threads_ := s.threads_ ++ [new_thread] })

/-- The tail of `removeThread`: `if (!threads_.empty()) reallocateRegisters();`. -/
def finishRemove (s : SMTRegisterAllocator) : SMTRegisterAllocator :=
  if s.threads_.isEmpty then s else reallocateRegisters s

/-- The method `SMTRegisterAllocator::removeThread`. -/
def removeThread (s : SMTRegisterAllocator) (thread_id : Int) : Bool × SMTRegisterAllocator :=
  match mapFind s.thread_id_to_index_ thread_id with
  | none => (false, s)
  | some index =>
    let swapped : List ThreadMetrics × List (Int × Nat) :=
      if (index : Int) < (s.threads_.length : Int) - 1 then
        match s.threads_[index]?, s.threads_.getLast? with
        | some removed, some last =>
          ((s.threads_.set index last).set (s.threads_.length - 1) removed,
            mapSet s.thread_id_to_index_ last.thread_id index)
        | _, _ => (s.threads_, s.thread_id_to_index_)
      else (s.threads_, s.thread_id_to_index_)
    let s1 : SMTRegisterAllocator :=
      { s with threads_ := swapped.1.dropLast
               thread_id_to_index_ := mapErase swapped.2 thread_id }
    (true, finishRemove s1)

/-- The assignments of `updateThreadMetrics` to the record it found. -/
def recordMetrics (thread : ThreadMetrics) (l2_misses instructions : Nat) : ThreadMetrics :=
  { thread with
    l2_misses := l2_misses
    instructions := instructions
    miss_rate :=
      if 0 < instructions then fdiv (ofUInt64 l2_misses) (ofUInt64 instructions) else 0 }

/-- The method `SMTRegisterAllocator::updateThreadMetrics`. -/
def updateThreadMetrics (s : SMTRegisterAllocator) (thread_id : Int)
    (l2_misses instructions : Nat) : SMTRegisterAllocator :=
  match mapFind s.thread_id_to_index_ thread_id with
  | none => s
  | some index =>
    match s.threads_[index]? with
    | none => s
    | some thread =>
      { s with threads_ := s.threads_.set index (recordMetrics thread l2_misses instructions) }

/-- The method `SMTRegisterAllocator::getThreadAllocation`. -/
def getThreadAllocation (s : SMTRegisterAllocator) (thread_id : Int) : Int :=
  match mapFind s.thread_id_to_index_ thread_id with
  | none => -1
  | some index =>
    match s.threads_[index]? with
    | some thread => thread.allocated_registers
    | none => 0

/-- The method `SMTRegisterAllocator::forceReallocation`. -/
def forceReallocation (s : SMTRegisterAllocator) : SMTRegisterAllocator :=
  { reallocateRegisters (calculateMissRates s) with allocation_cycles_ := 0 }

/-- The method `SMTRegisterAllocator::advanceCycle`. -/
def advanceCycle (s : SMTRegisterAllocator) : SMTRegisterAllocator :=
  let s1 : SMTRegisterAllocator :=
    { s with allocation_cycles_ := (s.allocation_cycles_ + 1) % 2 ^ 64 }
  if isReallocationNeeded s1 then
    { reallocateRegisters (calculateMissRates s1) with allocation_cycles_ := 0 }
  else s1

/-- The method `SMTRegisterAllocator::getActiveThreadCount`. -/
def getActiveThreadCount (s : SMTRegisterAllocator) : Int := (s.threads_.length : Int)

/-- The method `SMTRegisterAllocator::getUtilizationStats`. -/
def getUtilizationStats (s : SMTRegisterAllocator) : Int × Int :=
  (s.threads_.foldl (fun allocated t => allocated + t.allocated_registers) 0, s.total_registers_)

/-- The method `SMTRegisterAllocator::validateMinimumCaps`. -/
def validateMinimumCaps (s : SMTRegisterAllocator) : Bool :=
  s.threads_.all (fun t => !decide (t.allocated_registers < s.min_registers_per_thread_))

/-- The method `SMTRegisterAllocator::getThreadMetrics`: a copy of the records. -/
def getThreadMetrics (s : SMTRegisterAllocator) : List ThreadMetrics := s.threads_

/-! ## Sequences of public operations -/

/-- A call of one of the state-changing public methods. -/
inductive Op where
  | addThread (thread_id : Int)
  | removeThread (thread_id : Int)
  | updateThreadMetrics (thread_id : Int) (l2_misses instructions : Nat)
  | advanceCycle
  | forceReallocation
  deriving DecidableEq

/-- The arguments of the call fit their C++ types (`int`, `uint64_t`). -/
def Op.WellTyped : Op → Prop
  | Op.addThread id => -2 ^ 31 ≤ id ∧ id < 2 ^ 31
  | Op.removeThread id => -2 ^ 31 ≤ id ∧ id < 2 ^ 31
  | Op.updateThreadMetrics id m n => (-2 ^ 31 ≤ id ∧ id < 2 ^ 31) ∧ m < 2 ^ 64 ∧ n < 2 ^ 64
  | Op.advanceCycle => True
  | Op.forceReallocation => True

/-- The state after one call. -/
def step (s : SMTRegisterAllocator) : Op → SMTRegisterAllocator
  | Op.addThread id => (addThread s id).2
  | Op.removeThread id => (removeThread s id).2
  | Op.updateThreadMetrics id m n => updateThreadMetrics s id m n
  | Op.advanceCycle => advanceCycle s
  | Op.forceReallocation => forceReallocation s

/-- The state after a sequence of calls. -/
def run (s : SMTRegisterAllocator) (ops : List Op) : SMTRegisterAllocator :=
  ops.foldl step s

/-- The states reachable from a freshly constructed allocator by well-typed
calls of the public methods. -/
inductive Reachable : SMTRegisterAllocator → Prop where
  | init (total mn mx : Int) (interval : Nat) (s : SMTRegisterAllocator)
      (hint : total < 2 ^ 31) (hiv : interval < 2 ^ 64)
      (h : construct total mn mx interval = some s) : Reachable s
  | step (s : SMTRegisterAllocator) (op : Op) (hs : Reachable s) (hop : op.WellTyped) :
      Reachable (step s op)

/-- The context `thread_id` is active: some record carries this id. -/
def IsActive (s : SMTRegisterAllocator) (thread_id : Int) : Prop :=
  ∃ t ∈ s.threads_, t.thread_id = thread_id

/-- The sum of `allocated_registers` over the records. -/
def allocatedSum (ts : List ThreadMetrics) : Int :=
  (ts.map (fun t => t.allocated_registers)).sum

/-! ## Predicates used in the statements -/

/-- A finite non-negative binary64 value: `m * 2 ^ e` with a 53-bit significand. -/
def IsDbl (y : ℚ) : Prop :=
  ∃ (m : Nat) (e : Int), -1074 ≤ e ∧ m < 2 ^ 53 ∧ y = (m : ℚ) * (2 : ℚ) ^ e

/-- The fields of a record that redistribution never writes. -/
def ThreadMetrics.frame (t : ThreadMetrics) : ThreadMetrics :=
  { t with allocated_registers := 0 }

/-- The ids of the records, in vector order. -/
def threadIds (s : SMTRegisterAllocator) : List Int :=
  s.threads_.map (fun t => t.thread_id)

/-- The construction-time assertions hold and the total fits an `int`. -/
def ValidConfig (s : SMTRegisterAllocator) : Prop :=
  0 < s.total_registers_ ∧ 0 < s.min_registers_per_thread_ ∧ 0 < s.max_threads_ ∧
    s.min_registers_per_thread_ * s.max_threads_ ≤ s.total_registers_ ∧
    s.total_registers_ < 2 ^ 31

/-- The id-to-index map and the record vector agree. -/
structure IndexConsistent (s : SMTRegisterAllocator) : Prop where
  keys_nodup : (s.thread_id_to_index_.map Prod.fst).Nodup
  entry_ok : ∀ k i, (k, i) ∈ s.thread_id_to_index_ → (threadIds s)[i]? = some k
  record_ok : ∀ i k, (threadIds s)[i]? = some k → (k, i) ∈ s.thread_id_to_index_

/-- The allocation of the record at position `i` (`0` past the end). -/
def allocAt (ts : List ThreadMetrics) (i : Nat) : Int :=
  match ts[i]? with
  | some t => t.allocated_registers
  | none => 0

/-- The invariant of the reachable states. -/
structure WellFormed (s : SMTRegisterAllocator) : Prop where
  config : ValidConfig s
  capacity : (s.threads_.length : Int) ≤ s.max_threads_
  miss_dbl : ∀ t ∈ s.threads_, IsDbl t.miss_rate
  caps : ∀ t ∈ s.threads_, s.min_registers_per_thread_ ≤ t.allocated_registers
  conserved : s.threads_ ≠ [] → allocatedSum s.threads_ = s.total_registers_
  index : IndexConsistent s

/-- Well-typedness of a call is decidable. -/
instance Op.decWellTyped (op : Op) : Decidable op.WellTyped := by
  cases op <;> unfold Op.WellTyped <;> infer_instance

/-- The `miss_rate` stored for `thread_id` (`0` when the id is unknown). -/
def missRateOf (s : SMTRegisterAllocator) (thread_id : Int) : ℚ :=
  match mapFind s.thread_id_to_index_ thread_id with
  | none => 0
  | some index =>
    match s.threads_[index]? with
    | some thread => thread.miss_rate
    | none => 0

/-- The allocator of the test suite: 64 registers, at least 8 per thread, at
most 4 threads, redistribution every 1000 cycles. -/
def testAllocator : SMTRegisterAllocator :=
  { total_registers_ := 64
    min_registers_per_thread_ := 8
    max_threads_ := 4
    threads_ := []
    thread_id_to_index_ := []
    allocation_cycles_ := 0
    reallocation_interval_ := 1000 }

/-- Scenario D of the test suite (`testStarvationPrevention`): 32 registers, a
minimum of 4, four contexts with miss counts 1, 10, 100 and 5000 per 10000
instructions, then a forced redistribution. -/
def scenarioD : SMTRegisterAllocator :=
  run { total_registers_ := 32
        min_registers_per_thread_ := 4
        max_threads_ := 4
        threads_ := []
        thread_id_to_index_ := []
        allocation_cycles_ := 0
        reallocation_interval_ := 1000 }
    [Op.addThread 1, Op.addThread 2, Op.addThread 3, Op.addThread 4,
      Op.updateThreadMetrics 1 1 10000, Op.updateThreadMetrics 2 10 10000,
      Op.updateThreadMetrics 3 100 10000, Op.updateThreadMetrics 4 5000 10000,
      Op.forceReallocation]

/-- The first steps of `testBasicAllocation`: two registered contexts. -/
def twoThreads : SMTRegisterAllocator :=
  run testAllocator [Op.addThread 1, Op.addThread 2]

/-- The state of a successful `removeThread` just before its final
redistribution: the lookup found `index`, the last record of the vector is
`last`; the last record has been moved into the vacated slot (when the slot is
not the last one), the vector shortened and the map updated. -/
def removeThreadPre (s : SMTRegisterAllocator) (thread_id : Int) (index : Nat)
    (last : ThreadMetrics) : SMTRegisterAllocator :=
  { s with
    threads_ := (if index + 1 < s.threads_.length then s.threads_.set index last
      else s.threads_).dropLast
    thread_id_to_index_ := mapErase (if index + 1 < s.threads_.length
      then mapSet s.thread_id_to_index_ last.thread_id index
      else s.thread_id_to_index_) thread_id }

/-- The score `1.0 / (miss_rate + 1e-10)` that redistribution computes for the
context `thread_id`. -/
def scoreOf (s : SMTRegisterAllocator) (thread_id : Int) : ℚ :=
  fdiv 1 (fadd (missRateOf s thread_id) epsilon)

/-- Scenario A of the test suite (`testPerformanceBasedAllocation`), before the
forced redistribution: three contexts with miss rates 1%, 5% and 10%. -/
def scenarioA : SMTRegisterAllocator :=
  run testAllocator
    [Op.addThread 1, Op.addThread 2, Op.addThread 3,
      Op.updateThreadMetrics 1 100 10000, Op.updateThreadMetrics 2 500 10000,
      Op.updateThreadMetrics 3 1000 10000]

/-- Two contexts whose miss rates, `1 / (2 ^ 64 - 2048)` for context 1 and
`1 / (2 ^ 64 - 1)` for context 2, differ by less than the rounding error of the
addition of `1e-10`. -/
def nearTie : SMTRegisterAllocator :=
  run testAllocator
    [Op.addThread 1, Op.addThread 2,
      Op.updateThreadMetrics 1 1 18446744073709549568,
      Op.updateThreadMetrics 2 1 18446744073709551615]

/-- The call `op` in state `s` runs `reallocateRegisters`. -/
def Redistributes (s : SMTRegisterAllocator) : Op → Prop
  | Op.addThread id => (addThread s id).1 = true
  | Op.removeThread id => (removeThread s id).1 = true
  | Op.updateThreadMetrics _ _ _ => False
  | Op.advanceCycle =>
      isReallocationNeeded
        { s with allocation_cycles_ := (s.allocation_cycles_ + 1) % 2 ^ 64 } = true
  | Op.forceReallocation => True

/-- One registered context, one elapsed cycle: the test allocator after
`addThread(1)` and one `advanceCycle()`. -/
def oneTick : SMTRegisterAllocator :=
  run testAllocator [Op.addThread 1, Op.advanceCycle]

/-- The value a 32-bit two's-complement machine computes for an `int`
expression whose mathematical value is `x`. -/
def wrapInt32 (x : Int) : Int := (x + 2 ^ 31) % 2 ^ 32 - 2 ^ 31

/-- The constructor as compiled for a two's-complement target: the product
`min_registers_per_thread * max_threads` of the last assertion is an `int`
multiplication and wraps when it leaves the range of `int` (the C++ standard
leaves that case undefined). It agrees with `construct` whenever the product
fits an `int`. -/
def constructCompiled (total_registers min_registers_per_thread max_threads : Int)
    (reallocation_interval : Nat) : Option SMTRegisterAllocator :=
  if 0 < total_registers ∧ 0 < min_registers_per_thread ∧ 0 < max_threads ∧
      wrapInt32 (min_registers_per_thread * max_threads) ≤ total_registers then
    some { total_registers_ := total_registers
           min_registers_per_thread_ := min_registers_per_thread
           max_threads_ := max_threads
           threads_ := []
           thread_id_to_index_ := []
           allocation_cycles_ := 0
           reallocation_interval_ := reallocation_interval }
  else none

/-- The records after the first loop of `reallocateRegisters`: every allocation
reset to the minimum. -/
def resetToMinimum (s : SMTRegisterAllocator) : List ThreadMetrics :=
  s.threads_.map (fun t => { t with allocated_registers := s.min_registers_per_thread_ })

/-- The value of `available_registers` before the proportional loop. -/
def availableRegisters (s : SMTRegisterAllocator) : Int :=
  s.total_registers_ - (s.threads_.length : Int) * s.min_registers_per_thread_

/-- The vector `thread_performance` after `std::sort`. -/
def sortedPerformance (s : SMTRegisterAllocator) : List (ℚ × Nat) :=
  sortDesc (threadPerformance (resetToMinimum s))

/-- The records and the value of `available_registers` when the proportional
loop of `reallocateRegisters` ends, before the remainder is awarded. -/
def proportionalPass (s : SMTRegisterAllocator) : List ThreadMetrics × Int :=
  distribute (totalPerformance (sortedPerformance s)) (sortedPerformance s)
    (resetToMinimum s) (availableRegisters s)

/-- The share of the specification's formula for a record:
`floor(available * score / total_score)` with `available` the value before the
loop. -/
def formulaShare (s : SMTRegisterAllocator) (t : ThreadMetrics) : Int :=
  truncToInt (fmul (ofInt32 (availableRegisters s))
    (fdiv (performance t) (totalPerformance (sortedPerformance s))))

/-- The call is an `advanceCycle` or an `updateThreadMetrics`. -/
def Op.IsTickOrReport : Op → Prop
  | Op.updateThreadMetrics _ _ _ => True
  | Op.advanceCycle => True
  | _ => False

/-- Being an `advanceCycle` or an `updateThreadMetrics` is decidable. -/
instance Op.decIsTickOrReport (op : Op) : Decidable op.IsTickOrReport := by
  cases op <;> unfold Op.IsTickOrReport <;> infer_instance

/-- The number of `advanceCycle` calls in a sequence of calls. -/
def tickCount : List Op → Nat
  | [] => 0
  | Op.advanceCycle :: ops => tickCount ops + 1
  | _ :: ops => tickCount ops

/-- The allocator of `testCycleBasedReallocation` (64 registers, at least 8 per
thread, at most 4 threads, redistribution every 10 cycles) after
`addThread(1)` and `addThread(2)`. -/
def scenarioC : SMTRegisterAllocator :=
  run { total_registers_ := 64
        min_registers_per_thread_ := 8
        max_threads_ := 4
        threads_ := []
        thread_id_to_index_ := []
        allocation_cycles_ := 0
        reallocation_interval_ := 10 }
    [Op.addThread 1, Op.addThread 2]

/-- The reports of `testCycleBasedReallocation` (1% and 10% misses) followed
by nine calls of `advanceCycle`. -/
def scenarioCOps : List Op :=
  [Op.updateThreadMetrics 1 100 10000, Op.updateThreadMetrics 2 1000 10000,
    Op.advanceCycle, Op.advanceCycle, Op.advanceCycle, Op.advanceCycle, Op.advanceCycle,
    Op.advanceCycle, Op.advanceCycle, Op.advanceCycle, Op.advanceCycle]

/-- Nine calls of `advanceCycle` interleaved with two reports whose miss
rates, `1 / (2 ^ 64 - 2048)` for context 1 and `1 / (2 ^ 64 - 1)` for context
2, differ by less than the rounding error of the addition of `1e-10`. -/
def nearTieOps : List Op :=
  [Op.advanceCycle, Op.updateThreadMetrics 1 1 18446744073709549568,
    Op.advanceCycle, Op.advanceCycle, Op.advanceCycle,
    Op.updateThreadMetrics 2 1 18446744073709551615,
    Op.advanceCycle, Op.advanceCycle, Op.advanceCycle, Op.advanceCycle, Op.advanceCycle]

/-- An allocator whose pool is exhausted by the minimum caps: 16 registers, at
least 8 per thread, at most 2 threads; two registered contexts with miss rates
1% and 50%. -/
def fullPool : SMTRegisterAllocator :=
  run { total_registers_ := 16
        min_registers_per_thread_ := 8
        max_threads_ := 2
        threads_ := []
        thread_id_to_index_ := []
        allocation_cycles_ := 0
        reallocation_interval_ := 1000 }
    [Op.addThread 1, Op.addThread 2,
      Op.updateThreadMetrics 1 100 10000, Op.updateThreadMetrics 2 5000 10000]

/-- Two registered contexts whose miss rates are both 0 again after a
history: context 2 reported 50% misses before a forced redistribution, then
reported `(0, 0)`, and one cycle elapsed. -/
def staleAllocation : SMTRegisterAllocator :=
  run testAllocator
    [Op.addThread 1, Op.addThread 2, Op.updateThreadMetrics 2 5000 10000,
      Op.forceReallocation, Op.updateThreadMetrics 2 0 0, Op.advanceCycle]

/-- The state on which the call `op` in state `s` invokes
`reallocateRegisters` (`none` when the call returns without invoking it):
`addThread` after it has pushed the new record, `removeThread` after it has
compacted the vector (unless the vector is now empty), `advanceCycle` after the
increment when the interval is reached, `forceReallocation` at once. -/
def reallocationInput (s : SMTRegisterAllocator) : Op → Option SMTRegisterAllocator
  | Op.addThread thread_id =>
    if (mapFind s.thread_id_to_index_ thread_id).isSome then none
    else if s.max_threads_ ≤ (s.threads_.length : Int) then none
    else
      let new_thread : ThreadMetrics :=
        { ThreadMetrics.init thread_id with allocated_registers := s.min_registers_per_thread_ }
      some { s with thread_id_to_index_ := mapSet s.thread_id_to_index_ thread_id s.threads_.length
                    threads_ := s.threads_ ++ [new_thread] }
  | Op.removeThread thread_id =>
    match mapFind s.thread_id_to_index_ thread_id, s.threads_.getLast? with
    | some index, some last =>
      if (removeThreadPre s thread_id index last).threads_.isEmpty then none
      else some (removeThreadPre s thread_id index last)
    | _, _ => none
  | Op.updateThreadMetrics _ _ _ => none
  | Op.advanceCycle =>
    let s1 : SMTRegisterAllocator :=
      { s with allocation_cycles_ := (s.allocation_cycles_ + 1) % 2 ^ 64 }
    if isReallocationNeeded s1 then some (calculateMissRates s1) else none
  | Op.forceReallocation => some (calculateMissRates s)

/-! ## Properties of the binary64 model -/

namespace Float64

theorem log2Fuel_spec : ∀ (fuel n : Nat), 0 < n → n ≤ fuel →
    2 ^ log2Fuel fuel n ≤ n ∧ n < 2 ^ (log2Fuel fuel n + 1) := by
  intro fuel
  induction fuel with
  | zero => intro n h1 h2; omega
  | succ fuel ih =>
    intro n h1 h2
    unfold log2Fuel
    by_cases hn : n < 2
    · simp only [hn, if_true]
      constructor <;> simp <;> omega
    · simp only [hn, if_false]
      have h3 := ih (n / 2) (by omega) (by omega)
      obtain ⟨h4, h5⟩ := h3
      constructor
      · rw [pow_succ]; omega
      · rw [pow_succ]; omega

theorem natLog2_spec (n : Nat) (h : 0 < n) :
    2 ^ natLog2 n ≤ n ∧ n < 2 ^ (natLog2 n + 1) :=
  log2Fuel_spec n n h (le_refl n)

theorem pow2_eq (e : Int) : pow2 e = (2 : ℚ) ^ e := by
  unfold pow2
  by_cases h : 0 ≤ e
  · simp only [h, if_true]
    obtain ⟨n, rfl⟩ := Int.eq_ofNat_of_zero_le h
    simp
  · simp only [h, if_false]
    have h1 : 0 ≤ -e := by omega
    obtain ⟨n, hn⟩ := Int.eq_ofNat_of_zero_le h1
    have h2 : e = -(n : Int) := by omega
    subst h2
    simp

theorem pow2_pos (e : Int) : 0 < pow2 e := by
  rw [pow2_eq]; positivity

theorem ilog2_core (a b la lb : Nat) (ha0 : 0 < a) (hb0 : 0 < b)
    (la1 : 2 ^ la ≤ a) (la2 : a < 2 ^ (la + 1)) (lb1 : 2 ^ lb ≤ b) (lb2 : b < 2 ^ (lb + 1)) :
    ((a : ℚ) / (b : ℚ) < (2 : ℚ) ^ ((la : Int) - (lb : Int) + 1)) ∧
    ((2 : ℚ) ^ ((la : Int) - (lb : Int) - 1) ≤ (a : ℚ) / (b : ℚ)) := by
  have la1q : (2 : ℚ) ^ la ≤ (a : ℚ) := by exact_mod_cast la1
  have la2q : (a : ℚ) < (2 : ℚ) ^ (la + 1) := by exact_mod_cast la2
  have lb1q : (2 : ℚ) ^ lb ≤ (b : ℚ) := by exact_mod_cast lb1
  have lb2q : (b : ℚ) < (2 : ℚ) ^ (lb + 1) := by exact_mod_cast lb2
  have hbq : (0 : ℚ) < (b : ℚ) := by exact_mod_cast hb0
  have haq : (0 : ℚ) < (a : ℚ) := by exact_mod_cast ha0
  have hpa : (0 : ℚ) < (2 : ℚ) ^ la := by positivity
  have hpb : (0 : ℚ) < (2 : ℚ) ^ lb := by positivity
  have e1 : (2 : ℚ) ^ ((la : Int) - (lb : Int) + 1) = (2 : ℚ) ^ (la + 1) / (2 : ℚ) ^ lb := by
    rw [zpow_add₀ (two_ne_zero), zpow_sub₀ (two_ne_zero), zpow_natCast, zpow_natCast, pow_succ]
    norm_num
    ring
  have e2 : (2 : ℚ) ^ ((la : Int) - (lb : Int) - 1) = (2 : ℚ) ^ la / (2 : ℚ) ^ (lb + 1) := by
    rw [zpow_sub₀ (two_ne_zero), zpow_sub₀ (two_ne_zero), zpow_natCast, zpow_natCast, pow_succ]
    norm_num
    ring
  constructor
  · rw [e1, div_lt_div_iff₀ hbq hpb]
    calc (a : ℚ) * 2 ^ lb ≤ (a : ℚ) * (b : ℚ) :=
          mul_le_mul_of_nonneg_left lb1q (le_of_lt haq)
      _ < 2 ^ (la + 1) * (b : ℚ) := mul_lt_mul_of_pos_right la2q hbq
  · rw [e2, div_le_div_iff₀ (by positivity) hbq]
    calc (2 : ℚ) ^ la * (b : ℚ) ≤ (a : ℚ) * (b : ℚ) :=
          mul_le_mul_of_nonneg_right la1q (le_of_lt hbq)
      _ ≤ (a : ℚ) * 2 ^ (lb + 1) := mul_le_mul_of_nonneg_left (le_of_lt lb2q) (le_of_lt haq)

theorem ilog2_spec (q : ℚ) (hq : 0 < q) :
    (2 : ℚ) ^ (ilog2 q) ≤ q ∧ q < (2 : ℚ) ^ (ilog2 q + 1) := by
  have hnum : 0 < q.num := Rat.num_pos.mpr hq
  obtain ⟨a, ha⟩ := Int.eq_ofNat_of_zero_le (le_of_lt hnum)
  have ha0 : 0 < a := by omega
  have hb0 : 0 < q.den := q.den_pos
  have hqeq : (a : ℚ) / (q.den : ℚ) = q := by
    have := Rat.num_div_den q
    rw [ha] at this
    simpa using this
  obtain ⟨la1, la2⟩ := natLog2_spec a ha0
  obtain ⟨lb1, lb2⟩ := natLog2_spec q.den hb0
  have hnumNat : q.num.toNat = a := by omega
  obtain ⟨c1, c2⟩ := ilog2_core a q.den _ _ ha0 hb0 la1 la2 lb1 lb2
  rw [hqeq] at c1 c2
  unfold ilog2
  simp only [hnumNat, pow2_eq]
  split_ifs with hc
  · exact ⟨hc, c1⟩
  · push_neg at hc
    refine ⟨c2, ?_⟩
    rw [show (natLog2 a : Int) - (natLog2 q.den : Int) - 1 + 1
            = (natLog2 a : Int) - (natLog2 q.den : Int) by ring]
    exact hc

theorem zpow_natAdd (d : Nat) (e : Int) :
    (2 : ℚ) ^ ((d : Int) + e) = (2 : ℚ) ^ d * (2 : ℚ) ^ e := by
  rw [zpow_add₀ (two_ne_zero), zpow_natCast]

theorem natpow_cast (d : Nat) : (((2 ^ d : Nat) : Int) : ℚ) = (2 : ℚ) ^ d := by
  push_cast
  rfl

theorem floor_le_roundHalfEven (x : ℚ) : ⌊x⌋ ≤ roundHalfEven x := by
  unfold roundHalfEven
  simp only
  split_ifs <;> omega

theorem roundHalfEven_le_floor_succ (x : ℚ) : roundHalfEven x ≤ ⌊x⌋ + 1 := by
  unfold roundHalfEven
  simp only
  split_ifs <;> omega

theorem roundHalfEven_intCast (n : Int) : roundHalfEven (n : ℚ) = n := by
  unfold roundHalfEven
  simp

theorem roundHalfEven_mono {x y : ℚ} (h : x ≤ y) : roundHalfEven x ≤ roundHalfEven y := by
  have hf : ⌊x⌋ ≤ ⌊y⌋ := Int.floor_mono h
  rcases lt_or_eq_of_le hf with hlt | heq
  · have h1 := roundHalfEven_le_floor_succ x
    have h2 := floor_le_roundHalfEven y
    omega
  · unfold roundHalfEven
    simp only
    rw [heq]
    split_ifs <;> first | omega | (exfalso; linarith)

theorem roundHalfEven_le_of_le_intCast {x : ℚ} {n : Int} (h : x ≤ (n : ℚ)) :
    roundHalfEven x ≤ n := by
  have := roundHalfEven_mono h
  rwa [roundHalfEven_intCast] at this

theorem le_roundHalfEven_of_intCast_le {x : ℚ} {n : Int} (h : (n : ℚ) ≤ x) :
    n ≤ roundHalfEven x := by
  have := roundHalfEven_mono h
  rwa [roundHalfEven_intCast] at this

theorem ilog2_mono {x y : ℚ} (hx : 0 < x) (h : x ≤ y) : ilog2 x ≤ ilog2 y := by
  have h1 := (ilog2_spec x hx).1
  have h2 := (ilog2_spec y (lt_of_lt_of_le hx h)).2
  have h3 : (2 : ℚ) ^ ilog2 x < (2 : ℚ) ^ (ilog2 y + 1) := lt_of_le_of_lt (le_trans h1 h) h2
  have h4 := (zpow_lt_zpow_iff_right₀ (by norm_num : (1 : ℚ) < 2)).mp h3
  omega

theorem rndPos_eq (q : ℚ) :
    rndPos q = (roundHalfEven (q / (2 : ℚ) ^ (max (ilog2 q - 52) (-1074))) : ℚ)
      * (2 : ℚ) ^ (max (ilog2 q - 52) (-1074)) := by
  unfold rndPos
  simp only [pow2_eq]

theorem rndPos_nonneg {q : ℚ} (hq : 0 ≤ q) : 0 ≤ rndPos q := by
  rw [rndPos_eq]
  have h1 : (0 : ℚ) ≤ q / (2 : ℚ) ^ (max (ilog2 q - 52) (-1074)) := by positivity
  have h2 : (0 : Int) ≤ roundHalfEven (q / (2 : ℚ) ^ (max (ilog2 q - 52) (-1074))) :=
    le_roundHalfEven_of_intCast_le (by simpa using h1)
  have h3 : (0 : ℚ) ≤ (roundHalfEven (q / (2 : ℚ) ^ (max (ilog2 q - 52) (-1074))) : ℚ) := by
    exact_mod_cast h2
  positivity

/-- The scaled value lies below `2 ^ 53`. -/
theorem scaled_lt {q : ℚ} (hq : 0 < q) :
    q / (2 : ℚ) ^ (max (ilog2 q - 52) (-1074)) < (2 : ℚ) ^ (53 : Nat) := by
  have h2 := (ilog2_spec q hq).2
  rw [div_lt_iff₀ (by positivity), ← zpow_natAdd]
  refine lt_of_lt_of_le h2 (zpow_le_zpow_right₀ (by norm_num) ?_)
  have : ((53 : Nat) : Int) = 53 := rfl
  omega

theorem isDbl_rndPos {q : ℚ} (hq : 0 < q) : IsDbl (rndPos q) := by
  rw [rndPos_eq]
  set e := max (ilog2 q - 52) (-1074) with he
  set M := roundHalfEven (q / (2 : ℚ) ^ e) with hM
  have h1 : M ≤ ((2 ^ 53 : Nat) : Int) := by
    apply roundHalfEven_le_of_le_intCast
    rw [natpow_cast]
    exact le_of_lt (scaled_lt hq)
  have h0 : 0 ≤ M := by
    apply le_roundHalfEven_of_intCast_le
    have : (0 : ℚ) ≤ q / (2 : ℚ) ^ e := by positivity
    simpa using this
  obtain ⟨m, hm⟩ := Int.eq_ofNat_of_zero_le h0
  rcases lt_or_eq_of_le h1 with hlt | heq
  · refine ⟨m, e, by omega, by omega, ?_⟩
    rw [hm]; simp
  · refine ⟨2 ^ 52, e + 1, by omega, by norm_num, ?_⟩
    rw [heq, natpow_cast, add_comm e 1, zpow_add₀ (two_ne_zero)]
    push_cast
    ring

/-- The exponent of a representable value is at least the rounding exponent. -/
theorem exp_le_of_isDbl {y : ℚ} (hy : 0 < y) (m : Nat) (e : Int) (he : -1074 ≤ e)
    (hm : m < 2 ^ 53) (hye : y = (m : ℚ) * (2 : ℚ) ^ e) :
    max (ilog2 y - 52) (-1074) ≤ e := by
  have h1 := (ilog2_spec y hy).1
  have hmq : (m : ℚ) < (2 : ℚ) ^ (53 : Nat) := by exact_mod_cast hm
  have h2 : y < (2 : ℚ) ^ (((53 : Nat) : Int) + e) := by
    rw [zpow_natAdd, hye]
    exact mul_lt_mul_of_pos_right hmq (by positivity)
  have h3 := (zpow_lt_zpow_iff_right₀ (by norm_num : (1 : ℚ) < 2)).mp (lt_of_le_of_lt h1 h2)
  have : ((53 : Nat) : Int) = 53 := rfl
  omega

theorem rndPos_of_isDbl {y : ℚ} (hy : 0 < y) (h : IsDbl y) : rndPos y = y := by
  obtain ⟨m, e, he, hm, hye⟩ := h
  have hle := exp_le_of_isDbl hy m e he hm hye
  rw [rndPos_eq]
  set e0 := max (ilog2 y - 52) (-1074) with he0
  obtain ⟨d, hd⟩ := Int.eq_ofNat_of_zero_le (by omega : 0 ≤ e - e0)
  have hsplit : (2 : ℚ) ^ e = (2 : ℚ) ^ d * (2 : ℚ) ^ e0 := by
    rw [← zpow_natAdd]
    congr 1; omega
  have hscaled : y / (2 : ℚ) ^ e0 = (((m * 2 ^ d : Nat) : Int) : ℚ) := by
    rw [hye, hsplit, div_eq_iff (by positivity)]
    push_cast
    ring
  rw [hscaled, roundHalfEven_intCast, hye, hsplit]
  push_cast
  ring

theorem rndPos_mono {x y : ℚ} (hx : 0 < x) (h : x ≤ y) : rndPos x ≤ rndPos y := by
  have hy : 0 < y := lt_of_lt_of_le hx h
  have hE := ilog2_mono hx h
  rw [rndPos_eq x, rndPos_eq y]
  set ex := max (ilog2 x - 52) (-1074) with hex
  set ey := max (ilog2 y - 52) (-1074) with hey
  have hle : ex ≤ ey := by omega
  rcases lt_or_eq_of_le hle with hlt | heq
  · -- the two values round at different exponents; `2 ^ ilog2 y` separates them
    have hElt : ilog2 x + 1 ≤ ilog2 y := by omega
    obtain ⟨d, hd⟩ := Int.eq_ofNat_of_zero_le (by omega : 0 ≤ ilog2 y - ex)
    have hsplit : (2 : ℚ) ^ (ilog2 y) = (2 : ℚ) ^ d * (2 : ℚ) ^ ex := by
      rw [← zpow_natAdd]
      congr 1; omega
    have hmid : (2 : ℚ) ^ (ilog2 y) = (2 : ℚ) ^ (52 : Nat) * (2 : ℚ) ^ ey := by
      rw [← zpow_natAdd]
      congr 1
      have : ((52 : Nat) : Int) = 52 := rfl
      omega
    have hxlt : x ≤ (2 : ℚ) ^ (ilog2 y) :=
      le_trans (le_of_lt (ilog2_spec x hx).2) (zpow_le_zpow_right₀ (by norm_num) hElt)
    have h1 : roundHalfEven (x / (2 : ℚ) ^ ex) ≤ ((2 ^ d : Nat) : Int) := by
      apply roundHalfEven_le_of_le_intCast
      rw [div_le_iff₀ (by positivity), natpow_cast, ← hsplit]
      exact hxlt
    have h2 : ((2 ^ 52 : Nat) : Int) ≤ roundHalfEven (y / (2 : ℚ) ^ ey) := by
      apply le_roundHalfEven_of_intCast_le
      rw [le_div_iff₀ (by positivity), natpow_cast, ← hmid]
      exact (ilog2_spec y hy).1
    have h1q : (roundHalfEven (x / (2 : ℚ) ^ ex) : ℚ) ≤ (2 : ℚ) ^ d := by
      rw [← natpow_cast]
      exact_mod_cast h1
    have h2q : (2 : ℚ) ^ (52 : Nat) ≤ (roundHalfEven (y / (2 : ℚ) ^ ey) : ℚ) := by
      rw [← natpow_cast]
      exact_mod_cast h2
    calc (roundHalfEven (x / (2 : ℚ) ^ ex) : ℚ) * (2 : ℚ) ^ ex
        ≤ (2 : ℚ) ^ d * (2 : ℚ) ^ ex := mul_le_mul_of_nonneg_right h1q (by positivity)
      _ = (2 : ℚ) ^ (52 : Nat) * (2 : ℚ) ^ ey := by rw [← hsplit, hmid]
      _ ≤ (roundHalfEven (y / (2 : ℚ) ^ ey) : ℚ) * (2 : ℚ) ^ ey :=
          mul_le_mul_of_nonneg_right h2q (by positivity)
  · rw [← heq]
    have h1 : x / (2 : ℚ) ^ ex ≤ y / (2 : ℚ) ^ ex :=
      div_le_div_of_nonneg_right h (by positivity)
    have h2 := roundHalfEven_mono h1
    have h3 : (roundHalfEven (x / (2 : ℚ) ^ ex) : ℚ) ≤ (roundHalfEven (y / (2 : ℚ) ^ ex) : ℚ) := by
      exact_mod_cast h2
    exact mul_le_mul_of_nonneg_right h3 (by positivity)

theorem rnd_zero : rnd 0 = 0 := by simp [rnd]

theorem rnd_of_pos {q : ℚ} (hq : 0 < q) : rnd q = rndPos q := by
  unfold rnd
  simp [hq, ne_of_gt hq]

theorem rnd_nonneg {q : ℚ} (hq : 0 ≤ q) : 0 ≤ rnd q := by
  rcases lt_or_eq_of_le hq with h | h
  · rw [rnd_of_pos h]; exact rndPos_nonneg hq
  · rw [← h, rnd_zero]

theorem rnd_mono {x y : ℚ} (hx : 0 ≤ x) (h : x ≤ y) : rnd x ≤ rnd y := by
  rcases lt_or_eq_of_le hx with hpos | h0
  · rw [rnd_of_pos hpos, rnd_of_pos (lt_of_lt_of_le hpos h)]
    exact rndPos_mono hpos h
  · rw [← h0, rnd_zero]
    exact rnd_nonneg (le_trans hx h)

theorem isDbl_zero : IsDbl 0 := ⟨0, 0, by norm_num, by norm_num, by simp⟩

theorem isDbl_rnd {q : ℚ} (hq : 0 ≤ q) : IsDbl (rnd q) := by
  rcases lt_or_eq_of_le hq with h | h
  · rw [rnd_of_pos h]; exact isDbl_rndPos h
  · rw [← h, rnd_zero]; exact isDbl_zero

theorem isDbl_nonneg {y : ℚ} (h : IsDbl y) : 0 ≤ y := by
  obtain ⟨m, e, _, _, rfl⟩ := h
  positivity

theorem rnd_of_isDbl {y : ℚ} (h : IsDbl y) : rnd y = y := by
  rcases lt_or_eq_of_le (isDbl_nonneg h) with hpos | h0
  · rw [rnd_of_pos hpos]; exact rndPos_of_isDbl hpos h
  · rw [← h0, rnd_zero]

theorem isDbl_natCast {n : Nat} (h : n < 2 ^ 53) : IsDbl (n : ℚ) :=
  ⟨n, 0, by norm_num, h, by simp⟩

theorem rnd_idem {q : ℚ} (hq : 0 ≤ q) : rnd (rnd q) = rnd q := rnd_of_isDbl (isDbl_rnd hq)

end Float64

open Float64

/-! ## Consequences for the operations of the allocator -/

theorem epsilon_nonneg : 0 ≤ epsilon := rnd_nonneg (by norm_num)

theorem isDbl_one : IsDbl 1 := ⟨1, 0, by norm_num, by norm_num, by simp⟩

theorem fadd_nonneg {a b : ℚ} (ha : 0 ≤ a) (hb : 0 ≤ b) : 0 ≤ fadd a b :=
  rnd_nonneg (add_nonneg ha hb)

theorem fdiv_nonneg {a b : ℚ} (ha : 0 ≤ a) (hb : 0 ≤ b) : 0 ≤ fdiv a b :=
  rnd_nonneg (div_nonneg ha hb)

theorem isDbl_fdiv {a b : ℚ} (ha : 0 ≤ a) (hb : 0 ≤ b) : IsDbl (fdiv a b) :=
  isDbl_rnd (div_nonneg ha hb)

theorem performance_nonneg (t : ThreadMetrics) (h : 0 ≤ t.miss_rate) : 0 ≤ performance t :=
  fdiv_nonneg (by norm_num) (fadd_nonneg h epsilon_nonneg)

theorem isDbl_performance (t : ThreadMetrics) (h : 0 ≤ t.miss_rate) : IsDbl (performance t) :=
  isDbl_fdiv (by norm_num) (fadd_nonneg h epsilon_nonneg)

theorem fdiv_le_one {p T : ℚ} (hp : 0 ≤ p) (hT : 0 < T) (hpT : p ≤ T) : fdiv p T ≤ 1 := by
  have h1 : p / T ≤ 1 := (div_le_one hT).mpr hpT
  have h2 := rnd_mono (div_nonneg hp (le_of_lt hT)) h1
  rwa [rnd_of_isDbl isDbl_one] at h2

theorem fdiv_mono_left {p q T : ℚ} (hp : 0 ≤ p) (hT : 0 < T) (hpq : p ≤ q) :
    fdiv p T ≤ fdiv q T :=
  rnd_mono (div_nonneg hp (le_of_lt hT)) (div_le_div_of_nonneg_right hpq (le_of_lt hT))

theorem truncToInt_of_nonneg {x : ℚ} (h : 0 ≤ x) : truncToInt x = ⌊x⌋ := by
  simp [truncToInt, h]

theorem isDbl_intCast {a : Int} (h0 : 0 ≤ a) (h1 : a < 2 ^ 53) : IsDbl (a : ℚ) := by
  obtain ⟨n, rfl⟩ := Int.eq_ofNat_of_zero_le h0
  have : n < 2 ^ 53 := by exact_mod_cast h1
  simpa using isDbl_natCast this

/-- The number of extra registers granted in one iteration. -/
theorem extra_nonneg {a : Int} {r : ℚ} (ha : 0 ≤ a) (hr : 0 ≤ r) :
    0 ≤ truncToInt (fmul (ofInt32 a) r) := by
  have h1 : (0 : ℚ) ≤ (a : ℚ) * r := mul_nonneg (by exact_mod_cast ha) hr
  have h2 : 0 ≤ fmul (ofInt32 a) r := rnd_nonneg h1
  rw [truncToInt_of_nonneg h2]
  exact Int.floor_nonneg.mpr h2

theorem extra_mono {a b : Int} {r q : ℚ} (ha : 0 ≤ a) (hab : a ≤ b) (hr : 0 ≤ r) (hrq : r ≤ q) :
    truncToInt (fmul (ofInt32 a) r) ≤ truncToInt (fmul (ofInt32 b) q) := by
  have haq : (0 : ℚ) ≤ (a : ℚ) := by exact_mod_cast ha
  have habq : (a : ℚ) ≤ (b : ℚ) := by exact_mod_cast hab
  have h1 : (0 : ℚ) ≤ (a : ℚ) * r := mul_nonneg haq hr
  have h2 : (a : ℚ) * r ≤ (b : ℚ) * q := mul_le_mul habq hrq hr (le_trans haq habq)
  have h3 : fmul (ofInt32 a) r ≤ fmul (ofInt32 b) q := rnd_mono h1 h2
  have h4 : 0 ≤ fmul (ofInt32 a) r := rnd_nonneg h1
  rw [truncToInt_of_nonneg h4, truncToInt_of_nonneg (le_trans h4 h3)]
  exact Int.floor_mono h3

theorem extra_le {a : Int} {r : ℚ} (ha : 0 ≤ a) (ha2 : a < 2 ^ 53) (hr : 0 ≤ r) (hr1 : r ≤ 1) :
    truncToInt (fmul (ofInt32 a) r) ≤ a := by
  have haq : (0 : ℚ) ≤ (a : ℚ) := by exact_mod_cast ha
  have h1 : (0 : ℚ) ≤ (a : ℚ) * r := mul_nonneg haq hr
  have h2 : (a : ℚ) * r ≤ (a : ℚ) := by nlinarith
  have h3 : fmul (ofInt32 a) r ≤ (a : ℚ) := by
    have := rnd_mono h1 h2
    rwa [rnd_of_isDbl (isDbl_intCast ha ha2)] at this
  have h5 : 0 ≤ fmul (ofInt32 a) r := rnd_nonneg h1
  rw [truncToInt_of_nonneg h5]
  have h4 : ⌊fmul (ofInt32 a) r⌋ ≤ ⌊(a : ℚ)⌋ := Int.floor_mono h3
  simpa using h4

/-- The running sum dominates the accumulator and every summand. -/
theorem foldl_fadd_spec (l : List (ℚ × Nat)) : ∀ (acc : ℚ), IsDbl acc →
    (∀ p ∈ l, IsDbl p.1) →
    IsDbl (l.foldl (fun acc p => fadd acc p.1) acc) ∧
    acc ≤ l.foldl (fun acc p => fadd acc p.1) acc ∧
    ∀ p ∈ l, p.1 ≤ l.foldl (fun acc p => fadd acc p.1) acc := by
  induction l with
  | nil => intro acc h _; exact ⟨h, le_refl _, by simp⟩
  | cons x l ih =>
    intro acc hacc hl
    have hx : IsDbl x.1 := hl x (List.mem_cons_self _ _)
    have h0a := isDbl_nonneg hacc
    have h0x := isDbl_nonneg hx
    have hnew : IsDbl (fadd acc x.1) := isDbl_rnd (add_nonneg h0a h0x)
    have h1 : acc ≤ fadd acc x.1 := by
      have := rnd_mono h0a (by linarith : acc ≤ acc + x.1)
      rwa [rnd_of_isDbl hacc] at this
    have h2 : x.1 ≤ fadd acc x.1 := by
      have := rnd_mono h0x (by linarith : x.1 ≤ acc + x.1)
      rwa [rnd_of_isDbl hx] at this
    obtain ⟨i1, i2, i3⟩ := ih (fadd acc x.1) hnew (fun p hp => hl p (List.mem_cons_of_mem _ hp))
    refine ⟨i1, le_trans h1 i2, ?_⟩
    intro p hp
    rcases List.mem_cons.mp hp with rfl | hp
    · exact le_trans h2 i2
    · exact i3 p hp

theorem le_totalPerformance (l : List (ℚ × Nat)) (hl : ∀ p ∈ l, IsDbl p.1) :
    ∀ p ∈ l, p.1 ≤ totalPerformance l :=
  (foldl_fadd_spec l 0 isDbl_zero hl).2.2

/-! ## The record vector under `addRegisters` -/

@[simp] theorem addRegisters_nil (i : Nat) (x : Int) : addRegisters [] i x = [] := by
  simp [addRegisters]

@[simp] theorem addRegisters_cons_zero (t : ThreadMetrics) (ts : List ThreadMetrics) (x : Int) :
    addRegisters (t :: ts) 0 x
      = { t with allocated_registers := t.allocated_registers + x } :: ts := by
  simp [addRegisters]

@[simp] theorem addRegisters_cons_succ (t : ThreadMetrics) (ts : List ThreadMetrics) (i : Nat)
    (x : Int) : addRegisters (t :: ts) (i + 1) x = t :: addRegisters ts i x := by
  unfold addRegisters
  simp only [List.getElem?_cons_succ]
  cases ts[i]? <;> simp

@[simp] theorem length_addRegisters (ts : List ThreadMetrics) (i : Nat) (x : Int) :
    (addRegisters ts i x).length = ts.length := by
  induction ts generalizing i with
  | nil => simp
  | cons t ts ih => cases i <;> simp [ih]

@[simp] theorem map_frame_addRegisters (ts : List ThreadMetrics) (i : Nat) (x : Int) :
    (addRegisters ts i x).map ThreadMetrics.frame = ts.map ThreadMetrics.frame := by
  induction ts generalizing i with
  | nil => simp
  | cons t ts ih => cases i <;> simp [ih, ThreadMetrics.frame]

theorem allocatedSum_cons (t : ThreadMetrics) (ts : List ThreadMetrics) :
    allocatedSum (t :: ts) = t.allocated_registers + allocatedSum ts := by
  simp [allocatedSum]

theorem allocatedSum_addRegisters (ts : List ThreadMetrics) (i : Nat) (x : Int)
    (h : i < ts.length) : allocatedSum (addRegisters ts i x) = allocatedSum ts + x := by
  induction ts generalizing i with
  | nil => simp at h
  | cons t ts ih =>
    cases i with
    | zero => simp [allocatedSum_cons]; ring
    | succ i =>
      have hi : i < ts.length := by simpa using h
      simp [allocatedSum_cons, ih i hi]; ring

@[simp] theorem allocAt_nil (i : Nat) : allocAt [] i = 0 := by simp [allocAt]

@[simp] theorem allocAt_cons_zero (t : ThreadMetrics) (ts : List ThreadMetrics) :
    allocAt (t :: ts) 0 = t.allocated_registers := by simp [allocAt]

@[simp] theorem allocAt_cons_succ (t : ThreadMetrics) (ts : List ThreadMetrics) (i : Nat) :
    allocAt (t :: ts) (i + 1) = allocAt ts i := by simp [allocAt]

theorem allocAt_addRegisters_self (ts : List ThreadMetrics) (i : Nat) (x : Int)
    (h : i < ts.length) : allocAt (addRegisters ts i x) i = allocAt ts i + x := by
  induction ts generalizing i with
  | nil => simp at h
  | cons t ts ih =>
    cases i with
    | zero => simp
    | succ i => simpa using ih i (by simpa using h)

theorem allocAt_addRegisters_ne (ts : List ThreadMetrics) (i j : Nat) (x : Int)
    (h : j ≠ i) : allocAt (addRegisters ts i x) j = allocAt ts j := by
  induction ts generalizing i j with
  | nil => simp
  | cons t ts ih =>
    cases i with
    | zero =>
      cases j with
      | zero => exact absurd rfl h
      | succ j => simp
    | succ i =>
      cases j with
      | zero => simp
      | succ j => simpa using ih i j (by omega)

theorem allocAt_eq_of_getElem? {ts : List ThreadMetrics} {i : Nat} {t : ThreadMetrics}
    (h : ts[i]? = some t) : allocAt ts i = t.allocated_registers := by
  simp [allocAt, h]

/-- Every record of the list satisfies a lower bound iff every position does. -/
theorem forall_mem_iff_allocAt (ts : List ThreadMetrics) (m : Int) :
    (∀ t ∈ ts, m ≤ t.allocated_registers) ↔ ∀ i, i < ts.length → m ≤ allocAt ts i := by
  constructor
  · intro h i hi
    have h1 : ts[i]? = some ts[i] := List.getElem?_eq_getElem hi
    rw [allocAt_eq_of_getElem? h1]
    exact h _ (List.getElem_mem _)
  · intro h t ht
    obtain ⟨i, hi, rfl⟩ := List.getElem_of_mem ht
    have h1 : ts[i]? = some ts[i] := List.getElem?_eq_getElem hi
    have := h i hi
    rwa [allocAt_eq_of_getElem? h1] at this

/-! ## The proportional loop -/

@[simp] theorem distribute_nil (T : ℚ) (ts : List ThreadMetrics) (rem : Int) :
    distribute T [] ts rem = (ts, rem) := rfl

theorem distribute_cons (T : ℚ) (x : ℚ × Nat) (rest : List (ℚ × Nat))
    (ts : List ThreadMetrics) (rem : Int) :
    distribute T (x :: rest) ts rem
      = distribute T rest
          (addRegisters ts x.2 (truncToInt (fmul (ofInt32 rem) (fdiv x.1 T))))
          (rem - truncToInt (fmul (ofInt32 rem) (fdiv x.1 T))) := rfl

theorem map_frame_distribute (T : ℚ) (perfs : List (ℚ × Nat)) :
    ∀ (ts : List ThreadMetrics) (rem : Int),
      (distribute T perfs ts rem).1.map ThreadMetrics.frame = ts.map ThreadMetrics.frame := by
  induction perfs with
  | nil => intro ts rem; rfl
  | cons x rest ih => intro ts rem; rw [distribute_cons, ih]; simp

theorem length_distribute (T : ℚ) (perfs : List (ℚ × Nat)) (ts : List ThreadMetrics)
    (rem : Int) : (distribute T perfs ts rem).1.length = ts.length := by
  have := congrArg List.length (map_frame_distribute T perfs ts rem)
  simpa using this

/-- Conservation and monotonicity along the proportional loop. -/
theorem distribute_spec (T : ℚ) (hT : 0 < T) (perfs : List (ℚ × Nat)) :
    ∀ (ts : List ThreadMetrics) (rem : Int),
      (∀ p ∈ perfs, 0 ≤ p.1 ∧ p.1 ≤ T ∧ p.2 < ts.length) → 0 ≤ rem → rem < 2 ^ 53 →
      0 ≤ (distribute T perfs ts rem).2 ∧ (distribute T perfs ts rem).2 ≤ rem ∧
      allocatedSum (distribute T perfs ts rem).1 + (distribute T perfs ts rem).2
        = allocatedSum ts + rem ∧
      ∀ i, allocAt ts i ≤ allocAt (distribute T perfs ts rem).1 i := by
  induction perfs with
  | nil => intro ts rem _ h0 _; simp [h0]
  | cons x rest ih =>
    intro ts rem hp h0 h53
    obtain ⟨hx0, hxT, hxi⟩ := hp x (List.mem_cons_self _ _)
    have hr0 : 0 ≤ fdiv x.1 T := fdiv_nonneg hx0 (le_of_lt hT)
    have hr1 : fdiv x.1 T ≤ 1 := fdiv_le_one hx0 hT hxT
    have he0 := extra_nonneg (r := fdiv x.1 T) h0 hr0
    have he1 := extra_le h0 h53 hr0 hr1
    rw [distribute_cons]
    set e := truncToInt (fmul (ofInt32 rem) (fdiv x.1 T)) with he
    obtain ⟨i1, i2, i3, i4⟩ := ih (addRegisters ts x.2 e) (rem - e)
      (fun p hp2 => by
        obtain ⟨a, b, c⟩ := hp p (List.mem_cons_of_mem _ hp2)
        exact ⟨a, b, by simpa using c⟩)
      (by omega) (by omega)
    refine ⟨i1, by omega, ?_, ?_⟩
    · rw [i3, allocatedSum_addRegisters ts x.2 e hxi]; ring
    · intro i
      refine le_trans ?_ (i4 i)
      by_cases hi : i = x.2
      · subst hi; rw [allocAt_addRegisters_self ts _ e hxi]; omega
      · rw [allocAt_addRegisters_ne ts x.2 i e hi]

/-! ## Sorting the scores -/

theorem insertDesc_perm (x : ℚ × Nat) (l : List (ℚ × Nat)) : (insertDesc x l).Perm (x :: l) := by
  induction l with
  | nil => simp [insertDesc]
  | cons y ys ih =>
    unfold insertDesc
    split_ifs
    · exact List.Perm.refl _
    · exact (List.Perm.cons y ih).trans (List.Perm.swap x y ys)

theorem foldl_insertDesc_perm (l : List (ℚ × Nat)) : ∀ acc : List (ℚ × Nat),
    (l.foldl (fun acc x => insertDesc x acc) acc).Perm (l ++ acc) := by
  induction l with
  | nil => intro acc; exact List.Perm.refl _
  | cons x l ih =>
    intro acc
    simp only [List.foldl_cons]
    refine (ih (insertDesc x acc)).trans ?_
    refine ((List.Perm.append_left l (insertDesc_perm x acc))).trans ?_
    exact List.perm_middle

theorem sortDesc_perm (l : List (ℚ × Nat)) : (sortDesc l).Perm l := by
  have := foldl_insertDesc_perm l []
  simpa [sortDesc] using this

theorem insertDesc_sorted (x : ℚ × Nat) (l : List (ℚ × Nat))
    (h : l.Pairwise (fun a b => b.1 ≤ a.1)) :
    (insertDesc x l).Pairwise (fun a b => b.1 ≤ a.1) := by
  induction l with
  | nil => simp [insertDesc]
  | cons y ys ih =>
    rw [List.pairwise_cons] at h
    unfold insertDesc
    split_ifs with hc
    · have hxy : y.1 < x.1 := by simpa [perfGt] using hc
      rw [List.pairwise_cons]
      refine ⟨?_, List.pairwise_cons.mpr h⟩
      intro z hz
      rcases List.mem_cons.mp hz with rfl | hz
      · exact le_of_lt hxy
      · exact le_trans (h.1 z hz) (le_of_lt hxy)
    · have hxy : x.1 ≤ y.1 := by simpa [perfGt] using hc
      rw [List.pairwise_cons]
      refine ⟨?_, ih h.2⟩
      intro z hz
      rcases List.mem_cons.mp ((insertDesc_perm x ys).mem_iff.mp hz) with rfl | hz
      · exact hxy
      · exact h.1 z hz

theorem foldl_insertDesc_sorted (l : List (ℚ × Nat)) : ∀ acc : List (ℚ × Nat),
    acc.Pairwise (fun a b => b.1 ≤ a.1) →
    (l.foldl (fun acc x => insertDesc x acc) acc).Pairwise (fun a b => b.1 ≤ a.1) := by
  induction l with
  | nil => intro acc h; exact h
  | cons x l ih => intro acc h; exact ih _ (insertDesc_sorted x acc h)

theorem sortDesc_sorted (l : List (ℚ × Nat)) :
    (sortDesc l).Pairwise (fun a b => b.1 ≤ a.1) :=
  foldl_insertDesc_sorted l [] List.Pairwise.nil

theorem mem_threadPerformance {ts : List ThreadMetrics} {p : ℚ × Nat} :
    p ∈ threadPerformance ts ↔ ∃ t, ts[p.2]? = some t ∧ p.1 = performance t := by
  unfold threadPerformance
  simp only [List.mem_map]
  constructor
  · rintro ⟨⟨i, t⟩, hmem, rfl⟩
    exact ⟨t, List.mem_enum_iff_getElem?.mp hmem, rfl⟩
  · rintro ⟨t, h1, h2⟩
    refine ⟨(p.2, t), List.mem_enum_iff_getElem?.mpr h1, ?_⟩
    ext <;> simp [h2]

theorem map_snd_threadPerformance (ts : List ThreadMetrics) :
    (threadPerformance ts).map Prod.snd = List.range ts.length := by
  unfold threadPerformance
  rw [List.map_map]
  have : (Prod.snd ∘ fun p : Nat × ThreadMetrics => (performance p.2, p.1)) = Prod.fst := by
    funext p; rfl
  rw [this, List.enum_map_fst]

theorem length_threadPerformance (ts : List ThreadMetrics) :
    (threadPerformance ts).length = ts.length := by
  simp [threadPerformance, List.enum_length]

/-! ## The equal-split branch -/

theorem sum_indicator_enumFrom (r : Int) (l : List ThreadMetrics) : ∀ k : Nat,
    ((l.enumFrom k).map (fun p => if (p.1 : Int) < r then (1 : Int) else 0)).sum
      = max 0 (min ((k : Int) + l.length) r - k) := by
  induction l with
  | nil => intro k; simp
  | cons t l ih =>
    intro k
    simp only [List.enumFrom_cons, List.map_cons, List.sum_cons, ih (k + 1), List.length_cons]
    push_cast
    split_ifs <;> omega

theorem allocatedSum_enumFrom_map (q r : Int) (l : List ThreadMetrics) : ∀ k : Nat,
    allocatedSum ((l.enumFrom k).map (fun p =>
      { p.2 with allocated_registers :=
          p.2.allocated_registers + q + (if (p.1 : Int) < r then 1 else 0) }))
      = allocatedSum l + (l.length : Int) * q
        + ((l.enumFrom k).map (fun p => if (p.1 : Int) < r then (1 : Int) else 0)).sum := by
  induction l with
  | nil => intro k; simp [allocatedSum]
  | cons t l ih =>
    intro k
    simp only [List.enumFrom_cons, List.map_cons, allocatedSum_cons, List.sum_cons, ih (k + 1),
      List.length_cons]
    push_cast
    ring

theorem allocatedSum_equalShare (ts : List ThreadMetrics) (avail : Int) (hn : ts ≠ []) : allocatedSum (equalShare ts avail) = allocatedSum ts + avail := by
  unfold equalShare
  simp only [List.enum]
  rw [allocatedSum_enumFrom_map, sum_indicator_enumFrom]
  have hlen : 0 < (ts.length : Int) := by
    have : 0 < ts.length := List.length_pos.mpr hn
    exact_mod_cast this
  have h1 := Int.emod_nonneg avail (ne_of_gt hlen)
  have h2 := Int.emod_lt_of_pos avail hlen
  have h3 := Int.ediv_add_emod avail (ts.length : Int)
  have h4 : max 0 (min (((0 : Nat) : Int) + (ts.length : Int)) (avail % (ts.length : Int))
      - ((0 : Nat) : Int)) = avail % (ts.length : Int) := by
    push_cast
    omega
  rw [h4]
  linarith

theorem map_frame_equalShare (ts : List ThreadMetrics) (avail : Int) :
    (equalShare ts avail).map ThreadMetrics.frame = ts.map ThreadMetrics.frame := by
  unfold equalShare
  rw [List.map_map]
  have : (ThreadMetrics.frame ∘ fun p : Nat × ThreadMetrics =>
      ({ p.2 with allocated_registers := p.2.allocated_registers + avail / (ts.length : Int)
          + (if (p.1 : Int) < avail % (ts.length : Int) then 1 else 0) } : ThreadMetrics))
      = ThreadMetrics.frame ∘ Prod.snd := by
    funext p; rfl
  rw [this, ← List.map_map, List.enum_map_snd]

theorem equalShare_ge (ts : List ThreadMetrics) (avail : Int) (ha : 0 ≤ avail) :
    ∀ t ∈ equalShare ts avail, ∃ u ∈ ts, u.allocated_registers ≤ t.allocated_registers := by
  intro t ht
  unfold equalShare at ht
  simp only [List.mem_map] at ht
  obtain ⟨⟨i, u⟩, hmem, rfl⟩ := ht
  have hu : u ∈ ts := List.getElem?_mem (List.mem_enum_iff_getElem?.mp hmem)
  refine ⟨u, hu, ?_⟩
  have hlen : 0 < (ts.length : Int) := by
    have : 0 < ts.length := List.length_pos.mpr (List.ne_nil_of_mem hu)
    exact_mod_cast this
  have h1 : 0 ≤ avail / (ts.length : Int) := Int.ediv_nonneg ha (le_of_lt hlen)
  simp only
  split_ifs <;> omega

/-! ## `reallocateRegisters` -/

theorem map_frame_proportionalShare (perfs : List (ℚ × Nat)) (ts : List ThreadMetrics)
    (avail : Int) :
    (proportionalShare perfs ts avail).map ThreadMetrics.frame = ts.map ThreadMetrics.frame := by
  unfold proportionalShare
  cases perfs with
  | nil => exact map_frame_distribute _ _ _ _
  | cons best rest =>
    simp only
    split_ifs
    · rw [map_frame_addRegisters]; exact map_frame_distribute _ _ _ _
    · exact map_frame_distribute _ _ _ _

theorem proportionalShare_spec (perfs : List (ℚ × Nat)) (ts : List ThreadMetrics) (avail : Int)
    (hne : perfs ≠ []) (hT : 0 < totalPerformance perfs)
    (hp : ∀ p ∈ perfs, 0 ≤ p.1 ∧ p.1 ≤ totalPerformance perfs ∧ p.2 < ts.length)
    (h0 : 0 ≤ avail) (h53 : avail < 2 ^ 53) :
    allocatedSum (proportionalShare perfs ts avail) = allocatedSum ts + avail ∧
    ∀ i, allocAt ts i ≤ allocAt (proportionalShare perfs ts avail) i := by
  obtain ⟨d1, d2, d3, d4⟩ := distribute_spec (totalPerformance perfs) hT perfs ts avail hp h0 h53
  unfold proportionalShare
  cases perfs with
  | nil => exact absurd rfl hne
  | cons best rest =>
    simp only
    have hb : best.2 < (distribute (totalPerformance (best :: rest)) (best :: rest) ts avail).1.length := by
      rw [length_distribute]
      exact (hp best (List.mem_cons_self _ _)).2.2
    split_ifs with hpos
    · constructor
      · rw [allocatedSum_addRegisters _ _ _ hb]; exact d3
      · intro i
        refine le_trans (d4 i) ?_
        by_cases hi : i = best.2
        · subst hi; rw [allocAt_addRegisters_self _ _ _ hb]; omega
        · rw [allocAt_addRegisters_ne _ _ _ _ hi]
    · constructor
      · have : (distribute (totalPerformance (best :: rest)) (best :: rest) ts avail).2 = 0 := by
          omega
        rw [this] at d3
        simpa using d3
      · exact d4

theorem reallocate_total (s : SMTRegisterAllocator) :
    (reallocateRegisters s).total_registers_ = s.total_registers_ := by
  unfold reallocateRegisters; simp only; split_ifs <;> rfl

theorem reallocate_min (s : SMTRegisterAllocator) :
    (reallocateRegisters s).min_registers_per_thread_ = s.min_registers_per_thread_ := by
  unfold reallocateRegisters; simp only; split_ifs <;> rfl

theorem reallocate_max (s : SMTRegisterAllocator) :
    (reallocateRegisters s).max_threads_ = s.max_threads_ := by
  unfold reallocateRegisters; simp only; split_ifs <;> rfl

theorem reallocate_map (s : SMTRegisterAllocator) :
    (reallocateRegisters s).thread_id_to_index_ = s.thread_id_to_index_ := by
  unfold reallocateRegisters; simp only; split_ifs <;> rfl

theorem reallocate_cycles (s : SMTRegisterAllocator) :
    (reallocateRegisters s).allocation_cycles_ = s.allocation_cycles_ := by
  unfold reallocateRegisters; simp only; split_ifs <;> rfl

theorem reallocate_interval (s : SMTRegisterAllocator) :
    (reallocateRegisters s).reallocation_interval_ = s.reallocation_interval_ := by
  unfold reallocateRegisters; simp only; split_ifs <;> rfl

theorem map_frame_reset (ts : List ThreadMetrics) (m : Int) :
    (ts.map (fun t => ({ t with allocated_registers := m } : ThreadMetrics))).map
      ThreadMetrics.frame = ts.map ThreadMetrics.frame := by
  rw [List.map_map]
  rfl

/-- Redistribution writes nothing but `allocated_registers`. -/
theorem reallocate_frame (s : SMTRegisterAllocator) :
    (reallocateRegisters s).threads_.map ThreadMetrics.frame
      = s.threads_.map ThreadMetrics.frame := by
  unfold reallocateRegisters
  simp only
  split_ifs
  · rfl
  · exact map_frame_reset _ _
  · simp only [map_frame_proportionalShare]; exact map_frame_reset _ _
  · simp only [map_frame_equalShare]; exact map_frame_reset _ _

theorem length_of_map_frame {ts us : List ThreadMetrics}
    (h : ts.map ThreadMetrics.frame = us.map ThreadMetrics.frame) : ts.length = us.length := by
  have := congrArg List.length h
  simpa using this

theorem reallocate_length (s : SMTRegisterAllocator) :
    (reallocateRegisters s).threads_.length = s.threads_.length :=
  length_of_map_frame (reallocate_frame s)

theorem allocatedSum_reset (ts : List ThreadMetrics) (m : Int) :
    allocatedSum (ts.map (fun t => ({ t with allocated_registers := m } : ThreadMetrics)))
      = (ts.length : Int) * m := by
  induction ts with
  | nil => simp [allocatedSum]
  | cons t ts ih =>
    simp only [List.map_cons, allocatedSum_cons, ih, List.length_cons]
    push_cast
    ring

theorem allocAt_reset (ts : List ThreadMetrics) (m : Int) (i : Nat) (hi : i < ts.length) :
    allocAt (ts.map (fun t => ({ t with allocated_registers := m } : ThreadMetrics))) i = m := by
  simp [allocAt, List.getElem?_map, List.getElem?_eq_getElem hi]

/-- The scores of the reset records are non-negative doubles bounded by their sum. -/
theorem sorted_scores_ok (ts : List ThreadMetrics) (hmr : ∀ t ∈ ts, 0 ≤ t.miss_rate) :
    ∀ p ∈ sortDesc (threadPerformance ts),
      0 ≤ p.1 ∧ p.1 ≤ totalPerformance (sortDesc (threadPerformance ts)) ∧ p.2 < ts.length := by
  have hmem : ∀ p ∈ sortDesc (threadPerformance ts),
      ∃ t, ts[p.2]? = some t ∧ p.1 = performance t :=
    fun p hp => mem_threadPerformance.mp ((sortDesc_perm _).mem_iff.mp hp)
  have hdbl : ∀ p ∈ sortDesc (threadPerformance ts), IsDbl p.1 := by
    intro p hp
    obtain ⟨t, h1, h2⟩ := hmem p hp
    rw [h2]
    exact isDbl_performance t (hmr t (List.getElem?_mem h1))
  intro p hp
  obtain ⟨t, h1, h2⟩ := hmem p hp
  refine ⟨isDbl_nonneg (hdbl p hp), le_totalPerformance _ hdbl p hp, ?_⟩
  exact (List.getElem?_eq_some.mp h1).1

/-- Conservation and minimum caps after redistribution. -/
theorem reallocate_spec (s : SMTRegisterAllocator) (hc : ValidConfig s)
    (hlen : (s.threads_.length : Int) ≤ s.max_threads_)
    (hmr : ∀ t ∈ s.threads_, 0 ≤ t.miss_rate) (hne : s.threads_ ≠ []) :
    allocatedSum (reallocateRegisters s).threads_ = s.total_registers_ ∧
    ∀ i, i < s.threads_.length →
      s.min_registers_per_thread_ ≤ allocAt (reallocateRegisters s).threads_ i := by
  obtain ⟨c1, c2, c3, c4, c5⟩ := hc
  have hn : 0 < (s.threads_.length : Int) := by
    have : 0 < s.threads_.length := List.length_pos.mpr hne
    exact_mod_cast this
  have hres : (s.threads_.length : Int) * s.min_registers_per_thread_ ≤ s.total_registers_ := by
    have : (s.threads_.length : Int) * s.min_registers_per_thread_
        ≤ s.max_threads_ * s.min_registers_per_thread_ :=
      mul_le_mul_of_nonneg_right hlen (le_of_lt c2)
    linarith
  have hprod : 0 ≤ (s.threads_.length : Int) * s.min_registers_per_thread_ :=
    mul_nonneg (le_of_lt hn) (le_of_lt c2)
  set ts := s.threads_.map
    (fun t => ({ t with allocated_registers := s.min_registers_per_thread_ } : ThreadMetrics))
    with hts
  have htslen : ts.length = s.threads_.length := by simp [hts]
  have hsum0 : allocatedSum ts = (s.threads_.length : Int) * s.min_registers_per_thread_ :=
    allocatedSum_reset _ _
  have hmr2 : ∀ t ∈ ts, 0 ≤ t.miss_rate := by
    intro t ht
    rw [hts] at ht
    obtain ⟨u, hu, rfl⟩ := List.mem_map.mp ht
    exact hmr u hu
  have hempty : s.threads_.isEmpty = false := by
    cases h : s.threads_ with
    | nil => exact absurd h hne
    | cons _ _ => rfl
  unfold reallocateRegisters
  simp only [hempty, Bool.false_eq_true, if_false, ← hts]
  split_ifs with h1 h2
  · refine ⟨by simp only [hsum0]; omega, ?_⟩
    intro i hi
    simp only [hts, allocAt_reset _ _ i hi, le_refl]
  · have hne2 : sortDesc (threadPerformance ts) ≠ [] := by
      intro h
      have := (sortDesc_perm (threadPerformance ts)).length_eq
      rw [h, length_threadPerformance, htslen] at this
      simp at this
      omega
    obtain ⟨p1, p2⟩ := proportionalShare_spec _ ts
      (s.total_registers_ - (s.threads_.length : Int) * s.min_registers_per_thread_)
      hne2 h2 (sorted_scores_ok ts hmr2) (by omega) (by omega)
    refine ⟨by simp only [p1, hsum0]; ring, ?_⟩
    intro i hi
    refine le_trans ?_ (p2 i)
    simp only [hts, allocAt_reset _ _ i hi, le_refl]
  · have htsne : ts ≠ [] := by
      intro h
      rw [h] at htslen
      simp at htslen
      omega
    refine ⟨by simp only [allocatedSum_equalShare ts _ htsne, hsum0]; ring, ?_⟩
    intro i hi
    have hlen2 : (equalShare ts
        (s.total_registers_ - (s.threads_.length : Int) * s.min_registers_per_thread_)).length
        = ts.length := length_of_map_frame (map_frame_equalShare _ _)
    have := (forall_mem_iff_allocAt (equalShare ts
        (s.total_registers_ - (s.threads_.length : Int) * s.min_registers_per_thread_))
        s.min_registers_per_thread_).mp ?_ i (by omega)
    · exact this
    · intro t ht
      obtain ⟨u, hu, hle⟩ := equalShare_ge ts _ (by omega) t ht
      rw [hts] at hu
      obtain ⟨v, _, rfl⟩ := List.mem_map.mp hu
      exact hle

/-! ## The id-to-index map -/

theorem mapFind_eq_none_iff (m : List (Int × Nat)) (k : Int) :
    mapFind m k = none ↔ k ∉ m.map Prod.fst := by
  unfold mapFind
  rw [List.lookup_eq_none_iff]
  simp only [List.mem_map, not_exists, not_and, bne_iff_ne, ne_eq]
  constructor
  · intro h p hp heq; exact h p hp heq.symm
  · intro h p hp heq; exact h p hp heq.symm

theorem mem_of_mapFind_eq_some {m : List (Int × Nat)} {k : Int} {i : Nat}
    (h : mapFind m k = some i) : (k, i) ∈ m := by
  unfold mapFind at h
  obtain ⟨l1, l2, rfl, _⟩ := List.lookup_eq_some_iff.mp h
  simp

theorem unique_of_nodup_keys {m : List (Int × Nat)} (hk : (m.map Prod.fst).Nodup)
    {k : Int} {i j : Nat} (hi : (k, i) ∈ m) (hj : (k, j) ∈ m) : i = j := by
  induction m with
  | nil => simp at hi
  | cons p m ih =>
    rw [List.map_cons, List.nodup_cons] at hk
    rcases List.mem_cons.mp hi with h1 | h1
    · rcases List.mem_cons.mp hj with h2 | h2
      · rw [← h1] at h2
        exact (Prod.mk.inj h2).2.symm
      · rw [← h1] at hk
        exact absurd (List.mem_map_of_mem Prod.fst h2) hk.1
    · rcases List.mem_cons.mp hj with h2 | h2
      · rw [← h2] at hk
        exact absurd (List.mem_map_of_mem Prod.fst h1) hk.1
      · exact ih hk.2 h1 h2

theorem mapFind_eq_some_of_mem {m : List (Int × Nat)} (hk : (m.map Prod.fst).Nodup)
    {k : Int} {i : Nat} (h : (k, i) ∈ m) : mapFind m k = some i := by
  cases hf : mapFind m k with
  | none =>
    exact absurd (List.mem_map_of_mem Prod.fst h) ((mapFind_eq_none_iff m k).mp hf)
  | some j =>
    rw [unique_of_nodup_keys hk (mem_of_mapFind_eq_some hf) h]

theorem mapSet_of_none {m : List (Int × Nat)} {k : Int} (v : Nat) (h : mapFind m k = none) :
    mapSet m k v = m ++ [(k, v)] := by
  simp [mapSet, h]

theorem keys_mapSet_of_mem {m : List (Int × Nat)} {k : Int} (v : Nat)
    (h : k ∈ m.map Prod.fst) : (mapSet m k v).map Prod.fst = m.map Prod.fst := by
  have hs : (mapFind m k).isSome = true := by
    cases hf : mapFind m k with
    | none => exact absurd h ((mapFind_eq_none_iff m k).mp hf)
    | some j => rfl
  simp only [mapSet, hs, if_true, List.map_map]
  apply List.map_congr_left
  intro p _
  simp only [Function.comp]
  split_ifs with hp
  · exact hp.symm
  · rfl

theorem mem_mapSet_of_mem {m : List (Int × Nat)} {k : Int} (v : Nat)
    (h : k ∈ m.map Prod.fst) (a : Int) (b : Nat) :
    (a, b) ∈ mapSet m k v ↔ (a = k ∧ b = v) ∨ (a ≠ k ∧ (a, b) ∈ m) := by
  have hs : (mapFind m k).isSome = true := by
    cases hf : mapFind m k with
    | none => exact absurd h ((mapFind_eq_none_iff m k).mp hf)
    | some j => rfl
  simp only [mapSet, hs, if_true, List.mem_map]
  constructor
  · rintro ⟨p, hp, heq⟩
    split_ifs at heq with hpk
    · left
      exact ⟨(Prod.mk.inj heq).1.symm, (Prod.mk.inj heq).2.symm⟩
    · right
      subst heq
      exact ⟨hpk, hp⟩
  · rintro (⟨rfl, rfl⟩ | ⟨hne, hmem⟩)
    · obtain ⟨p, hp, hpk⟩ := List.mem_map.mp h
      exact ⟨p, hp, by simp [hpk]⟩
    · exact ⟨(a, b), hmem, by simp [hne]⟩

theorem mem_mapErase (m : List (Int × Nat)) (k : Int) (a : Int) (b : Nat) :
    (a, b) ∈ mapErase m k ↔ (a, b) ∈ m ∧ a ≠ k := by
  simp [mapErase]

theorem keys_mapErase_nodup {m : List (Int × Nat)} (k : Int) (hk : (m.map Prod.fst).Nodup) :
    ((mapErase m k).map Prod.fst).Nodup :=
  hk.sublist ((List.filter_sublist m).map Prod.fst)

theorem not_mem_keys_mapErase (m : List (Int × Nat)) (k : Int) :
    k ∉ (mapErase m k).map Prod.fst := by
  intro h
  obtain ⟨p, hp, hpk⟩ := List.mem_map.mp h
  have := (mem_mapErase m k p.1 p.2).mp hp
  exact this.2 hpk

/-! ## Index consistency on lists of ids -/

/-- Removing the id stored at `index` by moving the last id into its place keeps
the map and the ids consistent. -/
theorem index_remove (m : List (Int × Nat)) (ids : List Int) (id lastid : Int) (index : Nat)
    (hk : (m.map Prod.fst).Nodup)
    (he : ∀ k i, (k, i) ∈ m → ids[i]? = some k)
    (hr : ∀ i k, ids[i]? = some k → (k, i) ∈ m)
    (hfind : (id, index) ∈ m) (hlast : ids[ids.length - 1]? = some lastid) :
    (((mapErase (if index + 1 < ids.length then mapSet m lastid index else m) id).map
        Prod.fst).Nodup) ∧
    (∀ k i, (k, i) ∈ mapErase (if index + 1 < ids.length then mapSet m lastid index else m) id →
      ((if index + 1 < ids.length then ids.set index lastid else ids).dropLast)[i]? = some k) ∧
    (∀ i k, ((if index + 1 < ids.length then ids.set index lastid else ids).dropLast)[i]?
        = some k →
      (k, i) ∈ mapErase (if index + 1 < ids.length then mapSet m lastid index else m) id) := by
  have hidx : ids[index]? = some id := he id index hfind
  have hlt : index < ids.length := (List.getElem?_eq_some.mp hidx).1
  have hlastmem : (lastid, ids.length - 1) ∈ m := hr _ _ hlast
  have huniq : ∀ i j k, ids[i]? = some k → ids[j]? = some k → i = j :=
    fun i j k hi hj => unique_of_nodup_keys hk (hr i k hi) (hr j k hj)
  have hbound : ∀ k i, (k, i) ∈ m → i < ids.length :=
    fun k i h => (List.getElem?_eq_some.mp (he k i h)).1
  by_cases hc : index + 1 < ids.length
  · simp only [hc, if_true]
    have hlastkey : lastid ∈ m.map Prod.fst := List.mem_map_of_mem Prod.fst hlastmem
    have hne : lastid ≠ id := by
      intro h
      rw [h] at hlast
      have := huniq _ _ _ hlast hidx
      omega
    have hget : ∀ j, ((ids.set index lastid).dropLast)[j]?
        = if j < ids.length - 1 then (if j = index then some lastid else ids[j]?) else none := by
      intro j
      rw [List.getElem?_dropLast, List.length_set]
      split_ifs with h1 h2
      · subst h2; simp [hlt]
      · rw [List.getElem?_set_ne (Ne.symm h2)]
      · rfl
    refine ⟨keys_mapErase_nodup id (by rw [keys_mapSet_of_mem index hlastkey]; exact hk), ?_, ?_⟩
    · intro k i hmem
      obtain ⟨h1, h2⟩ := (mem_mapErase _ _ _ _).mp hmem
      rcases (mem_mapSet_of_mem index hlastkey k i).mp h1 with ⟨rfl, rfl⟩ | ⟨h3, h4⟩
      · rw [hget]; simp; omega
      · have hi := he k i h4
        have hib := hbound k i h4
        have hi1 : i ≠ ids.length - 1 := by
          intro h; rw [h] at hi; rw [hi] at hlast; exact h3 (Option.some.inj hlast)
        have hi2 : i ≠ index := by
          intro h; rw [h] at hi; rw [hi] at hidx; exact h2 (Option.some.inj hidx)
        rw [hget, if_pos (by omega), if_neg hi2]
        exact hi
    · intro i k hi
      rw [hget] at hi
      split_ifs at hi with h1 h2
      · subst h2
        have hk2 : k = lastid := (Option.some.inj hi).symm
        subst hk2
        exact (mem_mapErase _ _ _ _).mpr
          ⟨(mem_mapSet_of_mem i hlastkey k i).mpr (Or.inl ⟨rfl, rfl⟩), hne⟩
      · have hk1 : k ≠ lastid := by
          intro h; rw [h] at hi
          have := huniq _ _ _ hi hlast
          omega
        have hk2 : k ≠ id := by
          intro h; rw [h] at hi
          exact h2 (huniq _ _ _ hi hidx)
        exact (mem_mapErase _ _ _ _).mpr
          ⟨(mem_mapSet_of_mem index hlastkey k i).mpr (Or.inr ⟨hk1, hr i k hi⟩), hk2⟩
  · simp only [hc, if_false]
    have hidx2 : index = ids.length - 1 := by omega
    refine ⟨keys_mapErase_nodup id hk, ?_, ?_⟩
    · intro k i hmem
      obtain ⟨h1, h2⟩ := (mem_mapErase _ _ _ _).mp hmem
      have hi := he k i h1
      have hib := hbound k i h1
      have hi2 : i ≠ index := by
        intro h; rw [h] at hi; rw [hi] at hidx; exact h2 (Option.some.inj hidx)
      rw [List.getElem?_dropLast, if_pos (by omega)]
      exact hi
    · intro i k hi
      rw [List.getElem?_dropLast] at hi
      split_ifs at hi with h1
      have hk2 : k ≠ id := by
        intro h; rw [h] at hi
        have := huniq _ _ _ hi hidx
        omega
      exact (mem_mapErase _ _ _ _).mpr ⟨hr i k hi, hk2⟩

/-! ## The invariant of the reachable states -/

theorem threadIds_eq_of_frame {ts us : List ThreadMetrics}
    (h : ts.map ThreadMetrics.frame = us.map ThreadMetrics.frame) :
    ts.map (fun t => t.thread_id) = us.map (fun t => t.thread_id) := by
  have h1 : ∀ l : List ThreadMetrics,
      l.map (fun t => t.thread_id) = (l.map ThreadMetrics.frame).map (fun t => t.thread_id) := by
    intro l; rw [List.map_map]; rfl
  rw [h1 ts, h1 us, h]

theorem mem_of_map_frame {ts us : List ThreadMetrics}
    (h : ts.map ThreadMetrics.frame = us.map ThreadMetrics.frame) {t : ThreadMetrics}
    (ht : t ∈ ts) : ∃ u ∈ us, u.frame = t.frame := by
  have h1 : t.frame ∈ ts.map ThreadMetrics.frame := List.mem_map_of_mem _ ht
  rw [h] at h1
  obtain ⟨u, hu, hfu⟩ := List.mem_map.mp h1
  exact ⟨u, hu, hfu⟩

theorem miss_rate_of_frame {t u : ThreadMetrics} (h : u.frame = t.frame) :
    u.miss_rate = t.miss_rate := by
  have := congrArg ThreadMetrics.miss_rate h
  simpa [ThreadMetrics.frame] using this

theorem threadIds_reallocate (s : SMTRegisterAllocator) :
    threadIds (reallocateRegisters s) = threadIds s :=
  threadIds_eq_of_frame (reallocate_frame s)

theorem indexConsistent_reallocate {s : SMTRegisterAllocator} (h : IndexConsistent s) :
    IndexConsistent (reallocateRegisters s) := by
  obtain ⟨h1, h2, h3⟩ := h
  refine ⟨?_, ?_, ?_⟩
  · rw [reallocate_map]; exact h1
  · rw [reallocate_map, threadIds_reallocate]; exact h2
  · rw [reallocate_map, threadIds_reallocate]; exact h3

theorem validConfig_reallocate {s : SMTRegisterAllocator} (h : ValidConfig s) :
    ValidConfig (reallocateRegisters s) := by
  unfold ValidConfig
  rw [reallocate_total, reallocate_min, reallocate_max]
  exact h

/-- Redistribution establishes the invariant from its allocation-independent part. -/
theorem wellFormed_reallocate {s : SMTRegisterAllocator} (hc : ValidConfig s)
    (hcap : (s.threads_.length : Int) ≤ s.max_threads_)
    (hmr : ∀ t ∈ s.threads_, IsDbl t.miss_rate) (hidx : IndexConsistent s) :
    WellFormed (reallocateRegisters s) := by
  have hmr0 : ∀ t ∈ s.threads_, 0 ≤ t.miss_rate := fun t ht => isDbl_nonneg (hmr t ht)
  refine ⟨validConfig_reallocate hc, ?_, ?_, ?_, ?_, indexConsistent_reallocate hidx⟩
  · rw [reallocate_length, reallocate_max]; exact hcap
  · intro t ht
    obtain ⟨u, hu, hfu⟩ := mem_of_map_frame (reallocate_frame s) ht
    rw [← miss_rate_of_frame hfu]
    exact hmr u hu
  · by_cases hne : s.threads_ = []
    · intro t ht
      have : (reallocateRegisters s).threads_.length = 0 := by
        rw [reallocate_length, hne]; rfl
      rw [List.length_eq_zero] at this
      rw [this] at ht
      simp at ht
    · rw [forall_mem_iff_allocAt, reallocate_min, reallocate_length]
      exact (reallocate_spec s hc hcap hmr0 hne).2
  · intro hne2
    have hne : s.threads_ ≠ [] := by
      intro h
      apply hne2
      have : (reallocateRegisters s).threads_.length = 0 := by
        rw [reallocate_length, h]; rfl
      exact List.length_eq_zero.mp this
    rw [reallocate_total]
    exact (reallocate_spec s hc hcap hmr0 hne).1

theorem wellFormed_construct {total mn mx : Int} {interval : Nat} {s : SMTRegisterAllocator}
    (h : construct total mn mx interval = some s) (hint : total < 2 ^ 31) : WellFormed s := by
  unfold construct at h
  split_ifs at h with hc
  obtain ⟨c1, c2, c3, c4⟩ := hc
  have hs := Option.some.inj h
  subst hs
  refine ⟨⟨c1, c2, c3, c4, hint⟩, ?_, ?_, ?_, ?_, ⟨?_, ?_, ?_⟩⟩
  · simpa using le_of_lt c3
  · intro t ht; simp at ht
  · intro t ht; simp at ht
  · intro hne; exact absurd rfl hne
  · simp
  · intro k i hmem; simp at hmem
  · intro i k hi; simp [threadIds] at hi

/-! ### `addThread` -/

theorem addThread_fail_left {s : SMTRegisterAllocator} {id : Int}
    (h : (mapFind s.thread_id_to_index_ id).isSome = true) : addThread s id = (false, s) := by
  simp [addThread, h]

theorem addThread_fail_right {s : SMTRegisterAllocator} {id : Int}
    (h : s.max_threads_ ≤ (s.threads_.length : Int)) : addThread s id = (false, s) := by
  unfold addThread
  split_ifs <;> rfl

theorem addThread_success {s : SMTRegisterAllocator} {id : Int}
    (h1 : mapFind s.thread_id_to_index_ id = none)
    (h2 : (s.threads_.length : Int) < s.max_threads_) :
    addThread s id = (true, reallocateRegisters
      { s with
        thread_id_to_index_ := s.thread_id_to_index_ ++ [(id, s.threads_.length)]
        threads_ := s.threads_ ++
          [{ ThreadMetrics.init id with allocated_registers := s.min_registers_per_thread_ }] }) := by
  unfold addThread
  rw [h1, mapSet_of_none _ h1]
  simp only [Option.isSome_none, Bool.false_eq_true, if_false]
  rw [if_neg (by omega)]

theorem indexConsistent_append {s : SMTRegisterAllocator} {id : Int} (t : ThreadMetrics)
    (ht : t.thread_id = id) (hidx : IndexConsistent s)
    (h1 : mapFind s.thread_id_to_index_ id = none) :
    IndexConsistent
      { s with
        thread_id_to_index_ := s.thread_id_to_index_ ++ [(id, s.threads_.length)]
        threads_ := s.threads_ ++ [t] } := by
  obtain ⟨a1, a2, a3⟩ := hidx
  have hlen : (threadIds s).length = s.threads_.length := by simp [threadIds]
  have hids : threadIds { s with
        thread_id_to_index_ := s.thread_id_to_index_ ++ [(id, s.threads_.length)]
        threads_ := s.threads_ ++ [t] } = threadIds s ++ [id] := by
    simp [threadIds, ht]
  refine ⟨?_, ?_, ?_⟩
  · simp only [List.map_append, List.map_cons, List.map_nil]
    rw [List.nodup_append]
    refine ⟨a1, by simp, ?_⟩
    intro a ha hb
    have : a = id := by simpa using hb
    subst this
    exact (mapFind_eq_none_iff _ _).mp h1 ha
  · intro k i hmem
    rw [hids]
    simp only [List.mem_append, List.mem_singleton] at hmem
    rcases hmem with hmem | heq
    · have := a2 k i hmem
      rw [List.getElem?_append_left ((List.getElem?_eq_some.mp this).1)]
      exact this
    · obtain ⟨rfl, rfl⟩ := Prod.mk.inj heq
      rw [List.getElem?_append_right (by omega)]
      simp [hlen]
  · intro i k hi
    rw [hids] at hi
    simp only [List.mem_append, List.mem_singleton]
    by_cases hlt : i < (threadIds s).length
    · rw [List.getElem?_append_left hlt] at hi
      exact Or.inl (a3 i k hi)
    · rw [List.getElem?_append_right (by omega)] at hi
      have hi0 : i - (threadIds s).length = 0 := by
        by_contra hne
        have : ([id] : List Int)[i - (threadIds s).length]? = none := by
          apply List.getElem?_eq_none
          simp
          omega
        rw [this] at hi
        exact Option.noConfusion hi
      rw [hi0] at hi
      have hk : k = id := by simpa using hi.symm
      right
      rw [hk]
      congr 1
      omega

theorem wellFormed_addThread {s : SMTRegisterAllocator} (h : WellFormed s) (id : Int) :
    WellFormed (addThread s id).2 := by
  by_cases h1 : (mapFind s.thread_id_to_index_ id).isSome = true
  · rw [addThread_fail_left h1]; exact h
  · by_cases h2 : s.max_threads_ ≤ (s.threads_.length : Int)
    · rw [addThread_fail_right h2]; exact h
    · have h1n : mapFind s.thread_id_to_index_ id = none := by
        cases hf : mapFind s.thread_id_to_index_ id with
        | none => rfl
        | some j => rw [hf] at h1; exact absurd rfl h1
      rw [addThread_success h1n (by omega)]
      apply wellFormed_reallocate
      · exact h.config
      · simp only [List.length_append, List.length_singleton]
        push_cast
        omega
      · intro t ht
        simp only [List.mem_append, List.mem_singleton] at ht
        rcases ht with ht | rfl
        · exact h.miss_dbl t ht
        · exact isDbl_zero
      · exact indexConsistent_append _ rfl h.index h1n

/-! ### `removeThread` -/

theorem dropLast_set_last {α : Type} (l : List α) (a : α) :
    (l.set (l.length - 1) a).dropLast = l.dropLast := by
  apply List.ext_getElem?
  intro j
  rw [List.getElem?_dropLast, List.getElem?_dropLast, List.length_set]
  split_ifs with h
  · rw [List.getElem?_set_ne (by omega)]
  · rfl

/-- A successful `removeThread` compacts the vector and then redistributes. -/
theorem removeThread_eq {s : SMTRegisterAllocator} {id : Int} {index : Nat}
    {removed last : ThreadMetrics}
    (hfind : mapFind s.thread_id_to_index_ id = some index)
    (hrem : s.threads_[index]? = some removed) (hlast : s.threads_.getLast? = some last) :
    removeThread s id = (true, finishRemove (removeThreadPre s id index last)) := by
  unfold removeThread removeThreadPre
  simp only [hfind, hrem, hlast]
  by_cases hc : index + 1 < s.threads_.length
  · have hc2 : (index : Int) < (s.threads_.length : Int) - 1 := by omega
    simp only [hc, hc2, if_true]
    have := dropLast_set_last (s.threads_.set index last) removed
    rw [List.length_set] at this
    simp only [this]
  · have hc2 : ¬ (index : Int) < (s.threads_.length : Int) - 1 := by omega
    simp only [hc, hc2, if_false]

theorem removeThread_fail {s : SMTRegisterAllocator} {id : Int}
    (h : mapFind s.thread_id_to_index_ id = none) : removeThread s id = (false, s) := by
  simp [removeThread, h]

theorem getElem?_threadIds (s : SMTRegisterAllocator) (i : Nat) :
    (threadIds s)[i]? = (s.threads_[i]?).map (fun t => t.thread_id) := by
  simp [threadIds]

/-- A successful lookup yields a record with the requested id. -/
theorem record_of_mapFind {s : SMTRegisterAllocator} (hidx : IndexConsistent s) {id : Int}
    {index : Nat} (hfind : mapFind s.thread_id_to_index_ id = some index) :
    ∃ t, s.threads_[index]? = some t ∧ t.thread_id = id := by
  have h1 := hidx.entry_ok id index (mem_of_mapFind_eq_some hfind)
  rw [getElem?_threadIds] at h1
  cases h2 : s.threads_[index]? with
  | none => rw [h2] at h1; exact Option.noConfusion h1
  | some t =>
    rw [h2] at h1
    exact ⟨t, rfl, Option.some.inj h1⟩

theorem getLast?_of_ne_nil {α : Type} {l : List α} (h : l ≠ []) :
    ∃ a, l.getLast? = some a ∧ l[l.length - 1]? = some a := by
  have hlen : 0 < l.length := List.length_pos.mpr h
  refine ⟨l[l.length - 1], ?_, ?_⟩
  · rw [List.getLast?_eq_getElem?]
    exact List.getElem?_eq_getElem (by omega)
  · exact List.getElem?_eq_getElem (by omega)

theorem mem_of_mem_dropLast {α : Type} {l : List α} {a : α} (h : a ∈ l.dropLast) : a ∈ l :=
  (List.dropLast_sublist l).subset h

/-- The state before redistribution in a successful `removeThread` keeps the
allocation-independent part of the invariant. -/
theorem removeThread_pre {s : SMTRegisterAllocator} (h : WellFormed s) {id : Int} {index : Nat}
    {last : ThreadMetrics}
    (hfind : mapFind s.thread_id_to_index_ id = some index)
    (hlast : s.threads_.getLast? = some last) :
    ValidConfig (removeThreadPre s id index last) ∧
      ((removeThreadPre s id index last).threads_.length : Int)
        ≤ (removeThreadPre s id index last).max_threads_ ∧
      (∀ t ∈ (removeThreadPre s id index last).threads_, IsDbl t.miss_rate) ∧
      IndexConsistent (removeThreadPre s id index last) ∧
      (removeThreadPre s id index last).threads_.length = s.threads_.length - 1 := by
  set s1 := removeThreadPre s id index last with hs1
  have hlastmem : last ∈ s.threads_ := by
    rw [List.getLast?_eq_getElem?] at hlast
    exact List.getElem?_mem hlast
  have hlen1 : s1.threads_.length = s.threads_.length - 1 := by
    show ((if index + 1 < s.threads_.length then s.threads_.set index last
                else s.threads_).dropLast).length = _
    split_ifs <;> simp
  refine ⟨h.config, ?_, ?_, ?_, hlen1⟩
  · have := h.capacity
    show (s1.threads_.length : Int) ≤ s.max_threads_
    rw [hlen1]
    omega
  · intro t ht
    have ht2 : t ∈ (if index + 1 < s.threads_.length then s.threads_.set index last
                else s.threads_) := mem_of_mem_dropLast ht
    split_ifs at ht2
    · rcases List.mem_or_eq_of_mem_set ht2 with h1 | h1
      · exact h.miss_dbl t h1
      · rw [h1]; exact h.miss_dbl last hlastmem
    · exact h.miss_dbl t ht2
  · have hlastidx : (threadIds s)[(threadIds s).length - 1]? = some last.thread_id := by
      rw [getElem?_threadIds]
      have : (threadIds s).length = s.threads_.length := by simp [threadIds]
      rw [this, ← List.getLast?_eq_getElem?, hlast]
      rfl
    have hlen : (threadIds s).length = s.threads_.length := by simp [threadIds]
    obtain ⟨r1, r2, r3⟩ := index_remove s.thread_id_to_index_ (threadIds s) id last.thread_id
      index h.index.keys_nodup h.index.entry_ok h.index.record_ok
      (mem_of_mapFind_eq_some hfind) hlastidx
    rw [hlen] at r1 r2 r3
    have hids : threadIds s1 = (if index + 1 < s.threads_.length
        then (threadIds s).set index last.thread_id else threadIds s).dropLast := by
      show List.map (fun t => t.thread_id) ((if index + 1 < s.threads_.length
        then s.threads_.set index last else s.threads_).dropLast) = _
      rw [List.map_dropLast]
      split_ifs
      · rw [List.map_set]; rfl
      · rfl
    refine ⟨r1, ?_, ?_⟩
    · intro k i hmem; rw [hids]; exact r2 k i hmem
    · intro i k hi; rw [hids] at hi; exact r3 i k hi

theorem wellFormed_of_empty {s : SMTRegisterAllocator} (hc : ValidConfig s)
    (hidx : IndexConsistent s) (he : s.threads_ = []) : WellFormed s := by
  refine ⟨hc, ?_, ?_, ?_, ?_, hidx⟩
  · rw [he]; simpa using le_of_lt hc.2.2.1
  · intro t ht; rw [he] at ht; simp at ht
  · intro t ht; rw [he] at ht; simp at ht
  · intro hne; exact absurd he hne

theorem wellFormed_finish {s : SMTRegisterAllocator} (hc : ValidConfig s)
    (hcap : (s.threads_.length : Int) ≤ s.max_threads_)
    (hmr : ∀ t ∈ s.threads_, IsDbl t.miss_rate) (hidx : IndexConsistent s) :
    WellFormed (finishRemove s) := by
  unfold finishRemove
  split_ifs with hemp
  · exact wellFormed_of_empty hc hidx (List.isEmpty_iff.mp hemp)
  · exact wellFormed_reallocate hc hcap hmr hidx

theorem wellFormed_removeThread {s : SMTRegisterAllocator} (h : WellFormed s) (id : Int) :
    WellFormed (removeThread s id).2 := by
  cases hfind : mapFind s.thread_id_to_index_ id with
  | none => rw [removeThread_fail hfind]; exact h
  | some index =>
    obtain ⟨removed, hrem, _⟩ := record_of_mapFind h.index hfind
    have hne : s.threads_ ≠ [] := List.ne_nil_of_mem (List.getElem?_mem hrem)
    obtain ⟨last, hlast, _⟩ := getLast?_of_ne_nil hne
    rw [removeThread_eq hfind hrem hlast]
    obtain ⟨p1, p2, p3, p4, _⟩ := removeThread_pre h hfind hlast
    exact wellFormed_finish p1 p2 p3 p4

/-! ### `updateThreadMetrics`, `forceReallocation`, `advanceCycle` -/

theorem updateThreadMetrics_eq {s : SMTRegisterAllocator} {id : Int} {index : Nat}
    {t : ThreadMetrics} (m n : Nat)
    (hfind : mapFind s.thread_id_to_index_ id = some index)
    (ht : s.threads_[index]? = some t) :
    updateThreadMetrics s id m n
      = { s with threads_ := s.threads_.set index (recordMetrics t m n) } := by
  simp [updateThreadMetrics, hfind, ht]

theorem updateThreadMetrics_none {s : SMTRegisterAllocator} {id : Int} (m n : Nat)
    (hfind : mapFind s.thread_id_to_index_ id = none) : updateThreadMetrics s id m n = s := by
  simp [updateThreadMetrics, hfind]

theorem map_set_same {α β : Type} (f : α → β) {l : List α} {i : Nat} {t u : α}
    (ht : l[i]? = some t) (hu : f u = f t) : (l.set i u).map f = l.map f := by
  apply List.ext_getElem?
  intro j
  rw [List.map_set, List.getElem?_set]
  split_ifs with h1 h2
  · subst h1; simp [ht, hu]
  · subst h1
    rw [List.length_map] at h2
    exact absurd (List.getElem?_eq_some.mp ht).1 h2
  · rfl

theorem allocatedSum_set_same {ts : List ThreadMetrics} {i : Nat} {t u : ThreadMetrics}
    (ht : ts[i]? = some t) (hu : u.allocated_registers = t.allocated_registers) :
    allocatedSum (ts.set i u) = allocatedSum ts := by
  unfold allocatedSum
  rw [map_set_same (fun t => t.allocated_registers) ht hu]

theorem isDbl_missRate (t : ThreadMetrics) (m n : Nat) :
    IsDbl (recordMetrics t m n).miss_rate := by
  unfold recordMetrics
  simp only
  split_ifs
  · exact isDbl_fdiv (rnd_nonneg (Nat.cast_nonneg m)) (rnd_nonneg (Nat.cast_nonneg n))
  · exact isDbl_zero

theorem wellFormed_updateThreadMetrics {s : SMTRegisterAllocator} (h : WellFormed s) (id : Int)
    (m n : Nat) : WellFormed (updateThreadMetrics s id m n) := by
  cases hfind : mapFind s.thread_id_to_index_ id with
  | none => rw [updateThreadMetrics_none m n hfind]; exact h
  | some index =>
    obtain ⟨t, ht, hid⟩ := record_of_mapFind h.index hfind
    rw [updateThreadMetrics_eq m n hfind ht]
    have hmem : ∀ u ∈ s.threads_.set index (recordMetrics t m n),
        u ∈ s.threads_ ∨ u = recordMetrics t m n :=
      fun u hu => List.mem_or_eq_of_mem_set hu
    have hids : threadIds { s with threads_ := s.threads_.set index (recordMetrics t m n) }
        = threadIds s :=
      map_set_same (fun t : ThreadMetrics => t.thread_id) (u := recordMetrics t m n) ht rfl
    refine ⟨h.config, ?_, ?_, ?_, ?_, ⟨h.index.keys_nodup, ?_, ?_⟩⟩
    · simpa using h.capacity
    · intro u hu
      rcases hmem u hu with h1 | h1
      · exact h.miss_dbl u h1
      · rw [h1]; exact isDbl_missRate t m n
    · intro u hu
      rcases hmem u hu with h1 | h1
      · exact h.caps u h1
      · rw [h1]; exact h.caps t (List.getElem?_mem ht)
    · intro hne
      simp only
      rw [allocatedSum_set_same (u := recordMetrics t m n) ht rfl]
      apply h.conserved
      intro he
      rw [he] at ht
      simp at ht
    · intro k i hmem2
      rw [hids]
      exact h.index.entry_ok k i hmem2
    · intro i k hi
      rw [hids] at hi
      exact h.index.record_ok i k hi

theorem wellFormed_setCycles {s : SMTRegisterAllocator} (h : WellFormed s) (c : Nat) :
    WellFormed { s with allocation_cycles_ := c } :=
  ⟨h.config, h.capacity, h.miss_dbl, h.caps, h.conserved,
    ⟨h.index.keys_nodup, h.index.entry_ok, h.index.record_ok⟩⟩

theorem wellFormed_forceReallocation {s : SMTRegisterAllocator} (h : WellFormed s) :
    WellFormed (forceReallocation s) := by
  unfold forceReallocation calculateMissRates
  exact wellFormed_setCycles (wellFormed_reallocate h.config h.capacity h.miss_dbl h.index) 0

theorem wellFormed_advanceCycle {s : SMTRegisterAllocator} (h : WellFormed s) :
    WellFormed (advanceCycle s) := by
  unfold advanceCycle calculateMissRates
  simp only
  have h1 := wellFormed_setCycles h ((s.allocation_cycles_ + 1) % 2 ^ 64)
  split_ifs
  · exact wellFormed_setCycles
      (wellFormed_reallocate h1.config h1.capacity h1.miss_dbl h1.index) 0
  · exact h1

theorem wellFormed_step {s : SMTRegisterAllocator} (h : WellFormed s) (op : Op) :
    WellFormed (step s op) := by
  cases op with
  | addThread id => exact wellFormed_addThread h id
  | removeThread id => exact wellFormed_removeThread h id
  | updateThreadMetrics id m n => exact wellFormed_updateThreadMetrics h id m n
  | advanceCycle => exact wellFormed_advanceCycle h
  | forceReallocation => exact wellFormed_forceReallocation h

/-- Every reachable state satisfies the invariant. -/
theorem wellFormed_of_reachable {s : SMTRegisterAllocator} (h : Reachable s) : WellFormed s := by
  induction h with
  | init total mn mx interval s hint _ hc => exact wellFormed_construct hc hint
  | step s op _ _ ih => exact wellFormed_step ih op

/-! ## Reachability -/

theorem reachable_run {s : SMTRegisterAllocator} (hs : Reachable s) (ops : List Op)
    (hops : ∀ op ∈ ops, op.WellTyped) : Reachable (run s ops) := by
  induction ops generalizing s with
  | nil => exact hs
  | cons op ops ih =>
    have h1 : Reachable (step s op) :=
      Reachable.step s op hs (hops op (List.mem_cons_self _ _))
    exact ih h1 (fun o ho => hops o (List.mem_cons_of_mem _ ho))

theorem reachable_testAllocator : Reachable testAllocator :=
  Reachable.init 64 8 4 1000 testAllocator (by norm_num) (by norm_num) (by decide)

/-! ## Lookups in a consistent state -/

theorem foldl_add_eq_allocatedSum (ts : List ThreadMetrics) (a : Int) :
    ts.foldl (fun allocated t => allocated + t.allocated_registers) a = a + allocatedSum ts := by
  induction ts generalizing a with
  | nil => simp [allocatedSum]
  | cons t ts ih => rw [List.foldl_cons, ih, allocatedSum_cons]; ring

theorem getUtilizationStats_eq (s : SMTRegisterAllocator) :
    getUtilizationStats s = (allocatedSum s.threads_, s.total_registers_) := by
  unfold getUtilizationStats
  rw [foldl_add_eq_allocatedSum]
  simp

theorem isActive_iff_mapFind {s : SMTRegisterAllocator} (hidx : IndexConsistent s) (id : Int) :
    IsActive s id ↔ (mapFind s.thread_id_to_index_ id).isSome = true := by
  constructor
  · rintro ⟨t, ht, hid⟩
    obtain ⟨i, hi⟩ := List.mem_iff_getElem?.mp ht
    have h1 : (threadIds s)[i]? = some id := by
      rw [getElem?_threadIds, hi, ← hid]; rfl
    rw [mapFind_eq_some_of_mem hidx.keys_nodup (hidx.record_ok i id h1)]
    rfl
  · intro h
    cases hf : mapFind s.thread_id_to_index_ id with
    | none => rw [hf] at h; exact absurd h (by simp)
    | some index =>
      obtain ⟨t, ht, hid⟩ := record_of_mapFind hidx hf
      exact ⟨t, List.getElem?_mem ht, hid⟩

theorem not_isActive_iff_mapFind {s : SMTRegisterAllocator} (hidx : IndexConsistent s)
    (id : Int) : ¬ IsActive s id ↔ mapFind s.thread_id_to_index_ id = none := by
  rw [isActive_iff_mapFind hidx]
  cases mapFind s.thread_id_to_index_ id <;> simp

theorem getThreadAllocation_of_mem {s : SMTRegisterAllocator} (hidx : IndexConsistent s)
    {t : ThreadMetrics} (ht : t ∈ s.threads_) :
    getThreadAllocation s t.thread_id = t.allocated_registers := by
  obtain ⟨i, hi⟩ := List.mem_iff_getElem?.mp ht
  have h1 : (threadIds s)[i]? = some t.thread_id := by
    rw [getElem?_threadIds, hi]; rfl
  have h2 := mapFind_eq_some_of_mem hidx.keys_nodup (hidx.record_ok i _ h1)
  simp [getThreadAllocation, h2, hi]

theorem getThreadAllocation_eq_allocAt {s : SMTRegisterAllocator} {id : Int} {index : Nat}
    (h : mapFind s.thread_id_to_index_ id = some index) :
    getThreadAllocation s id = allocAt s.threads_ index := by
  unfold getThreadAllocation allocAt
  rw [h]

theorem validateMinimumCaps_iff (s : SMTRegisterAllocator) :
    validateMinimumCaps s = true
      ↔ ∀ t ∈ s.threads_, s.min_registers_per_thread_ ≤ t.allocated_registers := by
  simp [validateMinimumCaps]

/-! ## Conservation and minimum caps (C1, C2) -/

theorem reachable_scenarioD : Reachable scenarioD :=
  reachable_run
    (Reachable.init 32 4 4 1000 _ (by norm_num) (by norm_num) (by decide)) _ (by decide)

theorem reachable_twoThreads : Reachable twoThreads :=
  reachable_run reachable_testAllocator _ (by decide)

/-- C1 (conservation). In every state reachable from a validly constructed
allocator by the public operations, if at least one context is active then the
allocations of the active contexts sum to `total_registers`, and
`getUtilizationStats` reports the pair `(total, total)`. -/
theorem conservation (s : SMTRegisterAllocator) (hs : Reachable s)
    (hactive : 0 < getActiveThreadCount s) :
    allocatedSum s.threads_ = s.total_registers_ ∧
      getUtilizationStats s = (s.total_registers_, s.total_registers_) := by
  have hne : s.threads_ ≠ [] := by
    intro h
    unfold getActiveThreadCount at hactive
    rw [h] at hactive
    simp at hactive
  have h1 := (wellFormed_of_reachable hs).conserved hne
  exact ⟨h1, by rw [getUtilizationStats_eq, h1]⟩

/-- Scenario D: four contexts in a pool of 32 registers; the pool is fully
assigned. -/
theorem conservation_witness :
    Reachable scenarioD ∧ 0 < getActiveThreadCount scenarioD ∧
      scenarioD.total_registers_ = 32 ∧
      (allocatedSum scenarioD.threads_ = scenarioD.total_registers_ ∧
        getUtilizationStats scenarioD
          = (scenarioD.total_registers_, scenarioD.total_registers_)) :=
  ⟨reachable_scenarioD, by decide!, by decide!,
    conservation scenarioD reachable_scenarioD (by decide!)⟩

/-- C2 (minimum caps). In every reachable state every active context holds at
least `min_registers_per_thread` registers, so `validateMinimumCaps` is true. -/
theorem minimum_caps (s : SMTRegisterAllocator) (hs : Reachable s) :
    (∀ c, IsActive s c → s.min_registers_per_thread_ ≤ getThreadAllocation s c) ∧
      validateMinimumCaps s = true := by
  have hw := wellFormed_of_reachable hs
  constructor
  · rintro c ⟨t, ht, rfl⟩
    rw [getThreadAllocation_of_mem hw.index ht]
    exact hw.caps t ht
  · exact (validateMinimumCaps_iff s).mpr hw.caps

/-- Scenario D: the worst-performing context still holds its minimum. -/
theorem minimum_caps_witness :
    Reachable scenarioD ∧
      ((∀ c, IsActive scenarioD c →
          scenarioD.min_registers_per_thread_ ≤ getThreadAllocation scenarioD c) ∧
        validateMinimumCaps scenarioD = true) :=
  ⟨reachable_scenarioD, minimum_caps scenarioD reachable_scenarioD⟩

/-! ## Idempotence of the forced redistribution (C4) -/

theorem reallocate_eta (s : SMTRegisterAllocator) :
    reallocateRegisters s = { s with threads_ := (reallocateRegisters s).threads_ } := by
  unfold reallocateRegisters
  simp only
  split_ifs <;> rfl

theorem map_reset_eq_of_frame {ts us : List ThreadMetrics} (m : Int)
    (h : us.map ThreadMetrics.frame = ts.map ThreadMetrics.frame) :
    us.map (fun t => ({ t with allocated_registers := m } : ThreadMetrics))
      = ts.map (fun t => ({ t with allocated_registers := m } : ThreadMetrics)) := by
  have h1 : ∀ l : List ThreadMetrics,
      l.map (fun t => ({ t with allocated_registers := m } : ThreadMetrics))
        = (l.map ThreadMetrics.frame).map
            (fun t => ({ t with allocated_registers := m } : ThreadMetrics)) := by
    intro l; rw [List.map_map]; rfl
  rw [h1 us, h1 ts, h]

/-- Redistribution reads the records only through the fields it never writes. -/
theorem reallocate_congr (s : SMTRegisterAllocator) (us : List ThreadMetrics)
    (h : us.map ThreadMetrics.frame = s.threads_.map ThreadMetrics.frame) :
    reallocateRegisters { s with threads_ := us } = reallocateRegisters s := by
  have hlen : us.length = s.threads_.length := length_of_map_frame h
  have hreset := map_reset_eq_of_frame s.min_registers_per_thread_ h
  by_cases he : s.threads_ = []
  · have hu : us = [] := List.length_eq_zero.mp (by rw [hlen, he]; rfl)
    subst hu
    unfold reallocateRegisters
    simp only [he, List.isEmpty_nil, if_true]
    cases s
    simp only at he
    subst he
    rfl
  · have hu : us ≠ [] := by
      intro h2
      rw [h2] at hlen
      exact he (List.length_eq_zero.mp hlen.symm)
    have e1 : us.isEmpty = false := by
      cases us with
      | nil => exact absurd rfl hu
      | cons _ _ => rfl
    have e2 : s.threads_.isEmpty = false := by
      cases h3 : s.threads_ with
      | nil => exact absurd h3 he
      | cons _ _ => rfl
    unfold reallocateRegisters
    simp only [e1, e2, hlen, hreset, Bool.false_eq_true, if_false]

theorem reallocate_idem (s : SMTRegisterAllocator) :
    reallocateRegisters (reallocateRegisters s) = reallocateRegisters s :=
  (congrArg reallocateRegisters (reallocate_eta s)).trans
    (reallocate_congr s _ (reallocate_frame s))

theorem reallocate_setCycles (s : SMTRegisterAllocator) (c : Nat) :
    reallocateRegisters { s with allocation_cycles_ := c }
      = { reallocateRegisters s with allocation_cycles_ := c } := by
  unfold reallocateRegisters
  simp only
  split_ifs <;> rfl

/-- C4 (idempotence of force). For every state, a second `forceReallocation`
right after the first changes nothing: the whole state, and so the allocation
of every context, is the same after the second call as after the first. -/
theorem forceReallocation_idempotent (s : SMTRegisterAllocator) :
    forceReallocation (forceReallocation s) = forceReallocation s ∧
      ∀ c, getThreadAllocation (forceReallocation (forceReallocation s)) c
        = getThreadAllocation (forceReallocation s) c := by
  have h : forceReallocation (forceReallocation s) = forceReallocation s := by
    unfold forceReallocation calculateMissRates
    rw [reallocate_setCycles, reallocate_idem]
  exact ⟨h, fun c => by rw [h]⟩

/-! ## Registration (C5, C6) -/

/-- C5 (failed registration). In a reachable state `addThread id` returns false
exactly when `id` is already active or the active count has reached
`max_threads`, and then the state is unchanged. -/
theorem addThread_failure (s : SMTRegisterAllocator) (hs : Reachable s) (id : Int) :
    ((addThread s id).1 = false
        ↔ (IsActive s id ∨ s.max_threads_ ≤ getActiveThreadCount s)) ∧
      ((addThread s id).1 = false → (addThread s id).2 = s) := by
  have hw := wellFormed_of_reachable hs
  unfold getActiveThreadCount
  by_cases h1 : (mapFind s.thread_id_to_index_ id).isSome = true
  · rw [addThread_fail_left h1]
    exact ⟨⟨fun _ => Or.inl ((isActive_iff_mapFind hw.index id).mpr h1), fun _ => rfl⟩,
      fun _ => rfl⟩
  · by_cases h2 : s.max_threads_ ≤ (s.threads_.length : Int)
    · rw [addThread_fail_right h2]
      exact ⟨⟨fun _ => Or.inr h2, fun _ => rfl⟩, fun _ => rfl⟩
    · have h1n : mapFind s.thread_id_to_index_ id = none := by
        cases hf : mapFind s.thread_id_to_index_ id with
        | none => rfl
        | some j => rw [hf] at h1; exact absurd rfl h1
      rw [addThread_success h1n (by omega)]
      refine ⟨⟨fun h => Bool.noConfusion h, ?_⟩, fun h => Bool.noConfusion h⟩
      rintro (h | h)
      · exact absurd ((isActive_iff_mapFind hw.index id).mp h) h1
      · exact absurd h h2

/-- A duplicate registration in the test allocator fails and changes nothing. -/
theorem addThread_failure_witness :
    Reachable twoThreads ∧
      (((addThread twoThreads 1).1 = false
          ↔ (IsActive twoThreads 1 ∨ twoThreads.max_threads_ ≤ getActiveThreadCount twoThreads)) ∧
        ((addThread twoThreads 1).1 = false → (addThread twoThreads 1).2 = twoThreads)) :=
  ⟨reachable_twoThreads, addThread_failure twoThreads reachable_twoThreads 1⟩

/-- C6 (successful registration). When `id` is not active and the active count
is below `max_threads`, `addThread id` returns true, the count grows by one, the
records keep their ids, counters, miss rates and positions with a fresh record
(zero counters, zero miss rate) appended last, and the new context holds at
least the minimum. -/
theorem addThread_success_contract (s : SMTRegisterAllocator) (hs : Reachable s) (id : Int)
    (hnew : ¬ IsActive s id) (hroom : getActiveThreadCount s < s.max_threads_) :
    (addThread s id).1 = true ∧
      getActiveThreadCount (addThread s id).2 = getActiveThreadCount s + 1 ∧
      (addThread s id).2.threads_.map ThreadMetrics.frame
        = s.threads_.map ThreadMetrics.frame ++ [ThreadMetrics.init id] ∧
      s.min_registers_per_thread_ ≤ getThreadAllocation (addThread s id).2 id := by
  have hw := wellFormed_of_reachable hs
  have h1n := (not_isActive_iff_mapFind hw.index id).mp hnew
  unfold getActiveThreadCount at hroom ⊢
  have hw2 := wellFormed_addThread hw id
  have hmin : (addThread s id).2.min_registers_per_thread_ = s.min_registers_per_thread_ := by
    rw [addThread_success h1n hroom]
    exact reallocate_min _
  have hframe : (addThread s id).2.threads_.map ThreadMetrics.frame
      = s.threads_.map ThreadMetrics.frame ++ [ThreadMetrics.init id] := by
    rw [addThread_success h1n hroom]
    simp only [reallocate_frame, List.map_append, List.map_cons, List.map_nil]
    rfl
  refine ⟨by rw [addThread_success h1n hroom], ?_, hframe, ?_⟩
  · have : (addThread s id).2.threads_.map ThreadMetrics.frame
        = (s.threads_ ++ [ThreadMetrics.init id]).map ThreadMetrics.frame := by
      rw [hframe]; simp [ThreadMetrics.frame, ThreadMetrics.init]
    have := length_of_map_frame this
    rw [this]
    simp
  · have hmem : (ThreadMetrics.init id).frame
        ∈ (addThread s id).2.threads_.map ThreadMetrics.frame := by
      rw [hframe]; simp [ThreadMetrics.frame, ThreadMetrics.init]
    obtain ⟨u, hu, hfu⟩ := List.mem_map.mp hmem
    have hid : u.thread_id = id := by
      have := congrArg ThreadMetrics.thread_id hfu
      simpa [ThreadMetrics.frame, ThreadMetrics.init] using this
    have := getThreadAllocation_of_mem hw2.index hu
    rw [hid] at this
    rw [this, ← hmin]
    exact hw2.caps u hu

/-- Registering a third context in the test allocator. -/
theorem addThread_success_contract_witness :
    Reachable twoThreads ∧ ¬ IsActive twoThreads 3 ∧
      getActiveThreadCount twoThreads < twoThreads.max_threads_ ∧
      ((addThread twoThreads 3).1 = true ∧
        getActiveThreadCount (addThread twoThreads 3).2 = getActiveThreadCount twoThreads + 1 ∧
        (addThread twoThreads 3).2.threads_.map ThreadMetrics.frame
          = twoThreads.threads_.map ThreadMetrics.frame ++ [ThreadMetrics.init 3] ∧
        twoThreads.min_registers_per_thread_ ≤ getThreadAllocation (addThread twoThreads 3).2 3) :=
  have h1 : ¬ IsActive twoThreads 3 := by
    rw [not_isActive_iff_mapFind (wellFormed_of_reachable reachable_twoThreads).index]
    decide!
  have h2 : getActiveThreadCount twoThreads < twoThreads.max_threads_ := by decide!
  ⟨reachable_twoThreads, h1, h2, addThread_success_contract twoThreads reachable_twoThreads 3 h1 h2⟩

/-! ## Deregistration (C7) -/

theorem mapFind_mapErase_self (m : List (Int × Nat)) (k : Int) :
    mapFind (mapErase m k) k = none :=
  (mapFind_eq_none_iff _ _).mpr (not_mem_keys_mapErase m k)

theorem finish_map (s : SMTRegisterAllocator) :
    (finishRemove s).thread_id_to_index_ = s.thread_id_to_index_ := by
  unfold finishRemove
  split_ifs
  · rfl
  · exact reallocate_map s

theorem finish_frame (s : SMTRegisterAllocator) :
    (finishRemove s).threads_.map ThreadMetrics.frame = s.threads_.map ThreadMetrics.frame := by
  unfold finishRemove
  split_ifs
  · rfl
  · exact reallocate_frame s

theorem finish_of_nil {s : SMTRegisterAllocator} (h : s.threads_ = []) :
    finishRemove s = s := by
  unfold finishRemove
  rw [h]; rfl

/-- The records other than the removed one survive the compaction. -/
theorem mem_compact_of_mem {ts : List ThreadMetrics} {index : Nat} {removed last t : ThreadMetrics}
    (hrem : ts[index]? = some removed) (hlast : ts[ts.length - 1]? = some last)
    (ht : t ∈ ts) (hne : t ≠ removed) :
    t ∈ (if index + 1 < ts.length then ts.set index last else ts).dropLast := by
  obtain ⟨j, hj⟩ := List.mem_iff_getElem?.mp ht
  have hjlt : j < ts.length := (List.getElem?_eq_some.mp hj).1
  have hilt : index < ts.length := (List.getElem?_eq_some.mp hrem).1
  have hji : j ≠ index := by
    intro h; rw [h, hrem] at hj; exact hne (Option.some.inj hj).symm
  by_cases hc : index + 1 < ts.length
  · simp only [hc, if_true]
    by_cases hjl : j = ts.length - 1
    · have htl : t = last := by
        rw [hjl, hlast] at hj; exact (Option.some.inj hj).symm
      apply List.mem_iff_getElem?.mpr
      refine ⟨index, ?_⟩
      rw [List.getElem?_dropLast, List.length_set, if_pos (by omega), List.getElem?_set,
        if_pos rfl, if_pos hilt, htl]
    · apply List.mem_iff_getElem?.mpr
      refine ⟨j, ?_⟩
      rw [List.getElem?_dropLast, List.length_set, if_pos (by omega),
        List.getElem?_set_ne (Ne.symm hji)]
      exact hj
  · simp only [hc, if_false]
    apply List.mem_iff_getElem?.mpr
    refine ⟨j, ?_⟩
    rw [List.getElem?_dropLast, if_pos (by omega)]
    exact hj

/-- C7 (deregistration). In a reachable state `removeThread id` returns false
exactly when `id` is not active, and then the state is unchanged. When it
returns true, `id` is no longer found, the active count drops by one, and every
other context is still active with its id, counters and miss rate; removing the
only context leaves an empty allocator with utilization `(0, total)`. -/
theorem removeThread_contract (s : SMTRegisterAllocator) (hs : Reachable s) (id : Int) :
    ((removeThread s id).1 = false ↔ ¬ IsActive s id) ∧
      ((removeThread s id).1 = false → (removeThread s id).2 = s) ∧
      ((removeThread s id).1 = true →
        getThreadAllocation (removeThread s id).2 id = -1 ∧
        getActiveThreadCount (removeThread s id).2 = getActiveThreadCount s - 1 ∧
        (∀ t ∈ s.threads_, t.thread_id ≠ id →
          ∃ u ∈ (removeThread s id).2.threads_, u.frame = t.frame) ∧
        (getActiveThreadCount s = 1 →
          getActiveThreadCount (removeThread s id).2 = 0 ∧
          getUtilizationStats (removeThread s id).2 = (0, s.total_registers_))) := by
  have hw := wellFormed_of_reachable hs
  cases hfind : mapFind s.thread_id_to_index_ id with
  | none =>
    rw [removeThread_fail hfind]
    exact ⟨⟨fun _ => (not_isActive_iff_mapFind hw.index id).mpr hfind, fun _ => rfl⟩,
      fun _ => rfl, fun h => Bool.noConfusion h⟩
  | some index =>
    obtain ⟨removed, hrem, hremid⟩ := record_of_mapFind hw.index hfind
    have hne : s.threads_ ≠ [] := List.ne_nil_of_mem (List.getElem?_mem hrem)
    obtain ⟨last, hlast, hlast2⟩ := getLast?_of_ne_nil hne
    obtain ⟨_, _, _, _, plen⟩ := removeThread_pre hw hfind hlast
    have hpos : 0 < s.threads_.length := List.length_pos.mpr hne
    rw [removeThread_eq hfind hrem hlast]
    refine ⟨⟨fun h => Bool.noConfusion h, ?_⟩, fun h => Bool.noConfusion h, fun _ => ?_⟩
    · intro hna
      rw [(not_isActive_iff_mapFind hw.index id).mp hna] at hfind
      exact Option.noConfusion hfind
    · simp only
      have hpremap : mapFind (removeThreadPre s id index last).thread_id_to_index_ id = none :=
        mapFind_mapErase_self _ _
      have hpretotal : (removeThreadPre s id index last).total_registers_ = s.total_registers_ :=
        rfl
      refine ⟨?_, ?_, ?_, ?_⟩
      · unfold getThreadAllocation
        rw [finish_map, hpremap]
      · unfold getActiveThreadCount
        rw [length_of_map_frame (finish_frame _), plen]
        omega
      · intro t ht htid
        have hne2 : t ≠ removed := by
          intro h; rw [h] at htid; exact htid hremid
        have hmem : t ∈ (removeThreadPre s id index last).threads_ :=
          mem_compact_of_mem hrem hlast2 ht hne2
        obtain ⟨u, hu, hfu⟩ := mem_of_map_frame (finish_frame _).symm hmem
        exact ⟨u, hu, hfu⟩
      · intro hone
        unfold getActiveThreadCount at hone
        have hlen1 : s.threads_.length = 1 := by exact_mod_cast hone
        rw [hlen1] at plen
        have hnil := List.length_eq_zero.mp plen
        rw [finish_of_nil hnil, getUtilizationStats_eq, hpretotal]
        unfold getActiveThreadCount
        rw [hnil]
        simp [allocatedSum]

/-- Removing context 1 from the two registered contexts, as in
`testBasicAllocation`. -/
theorem removeThread_contract_witness :
    Reachable twoThreads ∧
      (((removeThread twoThreads 1).1 = false ↔ ¬ IsActive twoThreads 1) ∧
      ((removeThread twoThreads 1).1 = false → (removeThread twoThreads 1).2 = twoThreads) ∧
      ((removeThread twoThreads 1).1 = true →
        getThreadAllocation (removeThread twoThreads 1).2 1 = -1 ∧
        getActiveThreadCount (removeThread twoThreads 1).2 = getActiveThreadCount twoThreads - 1 ∧
        (∀ t ∈ twoThreads.threads_, t.thread_id ≠ 1 →
          ∃ u ∈ (removeThread twoThreads 1).2.threads_, u.frame = t.frame) ∧
        (getActiveThreadCount twoThreads = 1 →
          getActiveThreadCount (removeThread twoThreads 1).2 = 0 ∧
          getUtilizationStats (removeThread twoThreads 1).2
            = (0, twoThreads.total_registers_)))) :=
  ⟨reachable_twoThreads, removeThread_contract twoThreads reachable_twoThreads 1⟩

/-! ## Index consistency (C8) -/

theorem threadIds_nodup {s : SMTRegisterAllocator} (hidx : IndexConsistent s) :
    (threadIds s).Nodup := by
  rw [List.nodup_iff_getElem?_ne_getElem?]
  intro i j hij hj heq
  have h1 : (threadIds s)[j]? = some (threadIds s)[j] := List.getElem?_eq_getElem hj
  rw [h1] at heq
  have := unique_of_nodup_keys hidx.keys_nodup (hidx.record_ok i _ heq) (hidx.record_ok j _ h1)
  omega

theorem map_length_eq {s : SMTRegisterAllocator} (hidx : IndexConsistent s) :
    s.thread_id_to_index_.length = s.threads_.length := by
  have hnd : s.thread_id_to_index_.Nodup := List.Nodup.of_map Prod.fst hidx.keys_nodup
  have hnd2 : (s.thread_id_to_index_.map Prod.snd).Nodup := by
    apply List.Nodup.map_on _ hnd
    rintro ⟨k1, i1⟩ h1 ⟨k2, i2⟩ h2 heq
    simp only at heq
    subst heq
    have e1 := hidx.entry_ok k1 i1 h1
    have e2 := hidx.entry_ok k2 i1 h2
    rw [e1] at e2
    rw [Option.some.inj e2]
  have hperm : (s.thread_id_to_index_.map Prod.snd).Perm (List.range s.threads_.length) := by
    rw [List.perm_ext_iff_of_nodup hnd2 (List.nodup_range _)]
    intro i
    rw [List.mem_range]
    constructor
    · intro hi
      obtain ⟨⟨k, i2⟩, hmem, rfl⟩ := List.mem_map.mp hi
      have := (List.getElem?_eq_some.mp (hidx.entry_ok k i2 hmem)).1
      simpa [threadIds] using this
    · intro hi
      have hi2 : i < (threadIds s).length := by simpa [threadIds] using hi
      have h1 : (threadIds s)[i]? = some (threadIds s)[i] := List.getElem?_eq_getElem hi2
      exact List.mem_map.mpr ⟨(_, i), hidx.record_ok i _ h1, rfl⟩
  have := hperm.length_eq
  simpa using this

/-- C8 (index consistency). In every reachable state the id-to-index map has
pairwise distinct keys, every entry points at an in-range record carrying that
id, every record has its entry, the map has as many entries as there are
records, and the active ids are pairwise distinct; every public operation
(in particular `removeThread` of a record that is not the last) leads to a
state with the same property. -/
theorem index_consistency (s : SMTRegisterAllocator) (hs : Reachable s) :
    IndexConsistent s ∧ s.thread_id_to_index_.length = s.threads_.length ∧
      (threadIds s).Nodup ∧ ∀ op, IndexConsistent (step s op) := by
  have hw := wellFormed_of_reachable hs
  exact ⟨hw.index, map_length_eq hw.index, threadIds_nodup hw.index,
    fun op => (wellFormed_step hw op).index⟩

/-- Index consistency in the state with two registered contexts. -/
theorem index_consistency_witness :
    Reachable twoThreads ∧
      (IndexConsistent twoThreads ∧
        twoThreads.thread_id_to_index_.length = twoThreads.threads_.length ∧
        (threadIds twoThreads).Nodup ∧ ∀ op, IndexConsistent (step twoThreads op)) :=
  ⟨reachable_twoThreads, index_consistency twoThreads reachable_twoThreads⟩

/-! ## Lookups (C9, C10) -/

/-- C9 (allocation lookup). In every reachable state `getThreadAllocation id`
is `-1` exactly when `id` is not active, and for an active id it is the
`allocated_registers` of that context's record. The lookup is a pure function
of the state. -/
theorem getThreadAllocation_contract (s : SMTRegisterAllocator) (hs : Reachable s) (id : Int) :
    (getThreadAllocation s id = -1 ↔ ¬ IsActive s id) ∧
      ∀ t ∈ s.threads_, t.thread_id = id → getThreadAllocation s id = t.allocated_registers := by
  have hw := wellFormed_of_reachable hs
  have hsome : ∀ t ∈ s.threads_, t.thread_id = id →
      getThreadAllocation s id = t.allocated_registers := by
    intro t ht hid
    rw [← hid]
    exact getThreadAllocation_of_mem hw.index ht
  refine ⟨⟨?_, ?_⟩, hsome⟩
  · rintro h ⟨t, ht, hid⟩
    have h1 := hsome t ht hid
    have h2 := hw.caps t ht
    have h3 := hw.config.2.1
    omega
  · intro h
    have := (not_isActive_iff_mapFind hw.index id).mp h
    simp [getThreadAllocation, this]

/-- Looking up an unknown id and a known id in the test allocator. -/
theorem getThreadAllocation_contract_witness :
    Reachable twoThreads ∧
      ((getThreadAllocation twoThreads 999 = -1 ↔ ¬ IsActive twoThreads 999) ∧
        ∀ t ∈ twoThreads.threads_, t.thread_id = 999 →
          getThreadAllocation twoThreads 999 = t.allocated_registers) :=
  ⟨reachable_twoThreads, getThreadAllocation_contract twoThreads reachable_twoThreads 999⟩

/-- C10 (metrics for an unknown id). In a reachable state
`updateThreadMetrics` with an id that is not active returns the state
unchanged: records, index and counter are the same. -/
theorem updateThreadMetrics_unknown (s : SMTRegisterAllocator) (hs : Reachable s) (id : Int)
    (m n : Nat) (hunknown : ¬ IsActive s id) : updateThreadMetrics s id m n = s :=
  updateThreadMetrics_none m n
    ((not_isActive_iff_mapFind (wellFormed_of_reachable hs).index id).mp hunknown)

/-- Reporting metrics for the unregistered id 999 changes nothing. -/
theorem updateThreadMetrics_unknown_witness :
    Reachable twoThreads ∧ ¬ IsActive twoThreads 999 ∧
      updateThreadMetrics twoThreads 999 5 100 = twoThreads :=
  have h1 : ¬ IsActive twoThreads 999 := by
    rw [not_isActive_iff_mapFind (wellFormed_of_reachable reachable_twoThreads).index]
    decide!
  ⟨reachable_twoThreads, h1,
    updateThreadMetrics_unknown twoThreads reachable_twoThreads 999 5 100 h1⟩

/-! ## Fairness along the sorted order (C3) -/

/-- Along the proportional loop, a record that comes earlier in a descending
list of scores gains at least as much as any later one; no record gains more
than the first grant computed from the current pool. -/
theorem distribute_sorted (T : ℚ) (hT : 0 < T) (perfs : List (ℚ × Nat)) :
    ∀ (ts : List ThreadMetrics) (rem : Int),
      (∀ p ∈ perfs, 0 ≤ p.1 ∧ p.1 ≤ T ∧ p.2 < ts.length) → 0 ≤ rem → rem < 2 ^ 53 →
      (perfs.map Prod.snd).Nodup → perfs.Pairwise (fun a b => b.1 ≤ a.1) →
      (∀ j, j ∉ perfs.map Prod.snd → allocAt (distribute T perfs ts rem).1 j = allocAt ts j) ∧
      (∀ p ∈ perfs, allocAt (distribute T perfs ts rem).1 p.2 - allocAt ts p.2
          ≤ truncToInt (fmul (ofInt32 rem) (fdiv p.1 T))) ∧
      perfs.Pairwise (fun a b =>
        allocAt (distribute T perfs ts rem).1 b.2 - allocAt ts b.2
          ≤ allocAt (distribute T perfs ts rem).1 a.2 - allocAt ts a.2) := by
  induction perfs with
  | nil => intro ts rem _ _ _ _ _; simp
  | cons x rest ih =>
    intro ts rem hp h0 h53 hnd hsorted
    obtain ⟨hx0, hxT, hxi⟩ := hp x (List.mem_cons_self _ _)
    rw [List.map_cons, List.nodup_cons] at hnd
    rw [List.pairwise_cons] at hsorted
    have hr0 : 0 ≤ fdiv x.1 T := fdiv_nonneg hx0 (le_of_lt hT)
    have hr1 : fdiv x.1 T ≤ 1 := fdiv_le_one hx0 hT hxT
    have he0 := extra_nonneg (r := fdiv x.1 T) h0 hr0
    have he1 := extra_le h0 h53 hr0 hr1
    rw [distribute_cons]
    set e := truncToInt (fmul (ofInt32 rem) (fdiv x.1 T)) with he
    have hp2 : ∀ p ∈ rest, 0 ≤ p.1 ∧ p.1 ≤ T ∧ p.2 < (addRegisters ts x.2 e).length := by
      intro p hp2
      obtain ⟨a, b, c⟩ := hp p (List.mem_cons_of_mem _ hp2)
      exact ⟨a, b, by simpa using c⟩
    obtain ⟨i1, i2, i3⟩ := ih (addRegisters ts x.2 e) (rem - e) hp2 (by omega) (by omega)
      hnd.2 hsorted.2
    have hne : ∀ p ∈ rest, p.2 ≠ x.2 := by
      intro p hp3 heq
      exact hnd.1 (heq ▸ List.mem_map_of_mem Prod.snd hp3)
    have hhead : allocAt (distribute T rest (addRegisters ts x.2 e) (rem - e)).1 x.2
        = allocAt ts x.2 + e := by
      rw [i1 x.2 hnd.1, allocAt_addRegisters_self ts _ e hxi]
    have hrest : ∀ p ∈ rest,
        allocAt (distribute T rest (addRegisters ts x.2 e) (rem - e)).1 p.2 - allocAt ts p.2
          ≤ truncToInt (fmul (ofInt32 (rem - e)) (fdiv p.1 T)) := by
      intro p hp3
      have := i2 p hp3
      rwa [allocAt_addRegisters_ne ts x.2 p.2 e (hne p hp3)] at this
    refine ⟨?_, ?_, ?_⟩
    · intro j hj
      rw [List.map_cons, List.mem_cons, not_or] at hj
      rw [i1 j hj.2, allocAt_addRegisters_ne ts x.2 j e hj.1]
    · intro p hp3
      rcases List.mem_cons.mp hp3 with rfl | hp3
      · rw [hhead]; omega
      · refine le_trans (hrest p hp3) ?_
        have hp0 := (hp2 p hp3).1
        exact extra_mono (by omega) (by omega) (fdiv_nonneg hp0 (le_of_lt hT)) (le_refl _)
    · rw [List.pairwise_cons]
      constructor
      · intro b hb
        rw [hhead]
        have hb0 := (hp2 b hb).1
        have h1 := hrest b hb
        have h2 : truncToInt (fmul (ofInt32 (rem - e)) (fdiv b.1 T)) ≤ e :=
          extra_mono (by omega) (by omega) (fdiv_nonneg hb0 (le_of_lt hT))
            (fdiv_mono_left hb0 hT (hsorted.1 b hb))
        omega
      · refine i3.imp_of_mem ?_
        intro a b ha hb h
        rwa [allocAt_addRegisters_ne ts x.2 a.2 e (hne a ha),
          allocAt_addRegisters_ne ts x.2 b.2 e (hne b hb)] at h

/-- After the proportional branch, allocations are non-increasing along the
sorted order when all records start from the same allocation. -/
theorem proportionalShare_sorted (perfs : List (ℚ × Nat)) (ts : List ThreadMetrics)
    (avail : Int) (hT : 0 < totalPerformance perfs)
    (hp : ∀ p ∈ perfs, 0 ≤ p.1 ∧ p.1 ≤ totalPerformance perfs ∧ p.2 < ts.length)
    (h0 : 0 ≤ avail) (h53 : avail < 2 ^ 53) (hnd : (perfs.map Prod.snd).Nodup)
    (hsorted : perfs.Pairwise (fun a b => b.1 ≤ a.1))
    (heq : ∀ p ∈ perfs, ∀ q ∈ perfs, allocAt ts p.2 = allocAt ts q.2) :
    perfs.Pairwise (fun a b =>
      allocAt (proportionalShare perfs ts avail) b.2
        ≤ allocAt (proportionalShare perfs ts avail) a.2) := by
  obtain ⟨_, _, d3⟩ :=
    distribute_sorted (totalPerformance perfs) hT perfs ts avail hp h0 h53 hnd hsorted
  have d4 : perfs.Pairwise (fun a b =>
      allocAt (distribute (totalPerformance perfs) perfs ts avail).1 b.2
        ≤ allocAt (distribute (totalPerformance perfs) perfs ts avail).1 a.2) := by
    refine d3.imp_of_mem ?_
    intro a b ha hb h
    have := heq a ha b hb
    omega
  unfold proportionalShare
  cases perfs with
  | nil => exact List.Pairwise.nil
  | cons best rest =>
    simp only
    split_ifs with hpos
    · have hb : best.2 < (distribute (totalPerformance (best :: rest)) (best :: rest) ts
          avail).1.length := by
        rw [length_distribute]
        exact (hp best (List.mem_cons_self _ _)).2.2
      rw [List.map_cons, List.nodup_cons] at hnd
      have hne : ∀ p ∈ rest, p.2 ≠ best.2 := by
        intro p hp3 heq2
        exact hnd.1 (heq2 ▸ List.mem_map_of_mem Prod.snd hp3)
      rw [List.pairwise_cons] at d4 ⊢
      constructor
      · intro b hb2
        rw [allocAt_addRegisters_self _ _ _ hb, allocAt_addRegisters_ne _ _ _ _ (hne b hb2)]
        have := d4.1 b hb2
        omega
      · refine d4.2.imp_of_mem ?_
        intro a b ha hb2 h
        rwa [allocAt_addRegisters_ne _ _ _ _ (hne a ha),
          allocAt_addRegisters_ne _ _ _ _ (hne b hb2)]
    · exact d4

/-- Redistribution is fair with respect to the computed scores: the record with
the strictly greater score ends with at least as many registers. -/
theorem reallocate_fair (s : SMTRegisterAllocator) (hc : ValidConfig s)
    (hmr : ∀ t ∈ s.threads_, 0 ≤ t.miss_rate) (i j : Nat) (A B : ThreadMetrics)
    (hA : s.threads_[i]? = some A) (hB : s.threads_[j]? = some B)
    (hperf : performance B < performance A) :
    allocAt (reallocateRegisters s).threads_ j ≤ allocAt (reallocateRegisters s).threads_ i := by
  obtain ⟨c1, c2, c3, c4, c5⟩ := hc
  have hne : s.threads_ ≠ [] := List.ne_nil_of_mem (List.getElem?_mem hA)
  have hi : i < s.threads_.length := (List.getElem?_eq_some.mp hA).1
  have hj : j < s.threads_.length := (List.getElem?_eq_some.mp hB).1
  have hn : 0 < (s.threads_.length : Int) := by
    have : 0 < s.threads_.length := List.length_pos.mpr hne
    exact_mod_cast this
  have hprod : 0 ≤ (s.threads_.length : Int) * s.min_registers_per_thread_ :=
    mul_nonneg (le_of_lt hn) (le_of_lt c2)
  set ts := s.threads_.map
    (fun t => ({ t with allocated_registers := s.min_registers_per_thread_ } : ThreadMetrics))
    with hts
  have htslen : ts.length = s.threads_.length := by simp [hts]
  have hmr2 : ∀ t ∈ ts, 0 ≤ t.miss_rate := by
    intro t ht
    rw [hts] at ht
    obtain ⟨u, hu, rfl⟩ := List.mem_map.mp ht
    exact hmr u hu
  have hempty : s.threads_.isEmpty = false := by
    cases h : s.threads_ with
    | nil => exact absurd h hne
    | cons _ _ => rfl
  have hAmem : (performance A, i) ∈ sortDesc (threadPerformance ts) := by
    rw [(sortDesc_perm _).mem_iff, mem_threadPerformance]
    refine ⟨{ A with allocated_registers := s.min_registers_per_thread_ }, ?_, rfl⟩
    simp [hts, List.getElem?_map, hA]
  have hBmem : (performance B, j) ∈ sortDesc (threadPerformance ts) := by
    rw [(sortDesc_perm _).mem_iff, mem_threadPerformance]
    refine ⟨{ B with allocated_registers := s.min_registers_per_thread_ }, ?_, rfl⟩
    simp [hts, List.getElem?_map, hB]
  have hok := sorted_scores_ok ts hmr2
  unfold reallocateRegisters
  simp only [hempty, Bool.false_eq_true, if_false, ← hts]
  split_ifs with h1 h2
  · simp only [hts, allocAt_reset _ _ i hi, allocAt_reset _ _ j hj, le_refl]
  · have hnd : ((sortDesc (threadPerformance ts)).map Prod.snd).Nodup := by
      have hperm := (sortDesc_perm (threadPerformance ts)).map Prod.snd
      rw [hperm.nodup_iff, map_snd_threadPerformance]
      exact List.nodup_range _
    have hpair := proportionalShare_sorted _ ts
      (s.total_registers_ - (s.threads_.length : Int) * s.min_registers_per_thread_)
      h2 hok (by omega) (by omega) hnd (sortDesc_sorted _)
      (by
        intro p hp q hq
        rw [hts, allocAt_reset _ _ p.2 (by rw [← htslen]; exact (hok p hp).2.2),
          allocAt_reset _ _ q.2 (by rw [← htslen]; exact (hok q hq).2.2)])
    have hboth := (sortDesc_sorted (threadPerformance ts)).and hpair
    have hsym : (sortDesc (threadPerformance ts)).Pairwise (fun a b : ℚ × Nat =>
        (b.1 ≤ a.1 ∧ allocAt (proportionalShare (sortDesc (threadPerformance ts)) ts
            (s.total_registers_ - (s.threads_.length : Int) * s.min_registers_per_thread_)) b.2
          ≤ allocAt (proportionalShare (sortDesc (threadPerformance ts)) ts
            (s.total_registers_ - (s.threads_.length : Int) * s.min_registers_per_thread_)) a.2)
        ∨ (a.1 ≤ b.1 ∧ allocAt (proportionalShare (sortDesc (threadPerformance ts)) ts
            (s.total_registers_ - (s.threads_.length : Int) * s.min_registers_per_thread_)) a.2
          ≤ allocAt (proportionalShare (sortDesc (threadPerformance ts)) ts
            (s.total_registers_ - (s.threads_.length : Int) * s.min_registers_per_thread_)) b.2)) :=
      hboth.imp (fun h => Or.inl h)
    have hne2 : (performance A, i) ≠ (performance B, j) := by
      intro h
      have := (Prod.mk.inj h).1
      rw [this] at hperf
      exact lt_irrefl _ hperf
    rcases hsym.forall (fun a b h => h.symm) hAmem hBmem hne2 with h | h
    · exact h.2
    · exact absurd h.1 (not_le.mpr hperf)
  · exfalso
    have hA2 := (hok _ hAmem).2.1
    have hB2 := (hok _ hBmem).1
    simp only at hA2 hB2
    have : 0 < totalPerformance (sortDesc (threadPerformance ts)) := by linarith
    exact h2 this

theorem epsilon_pos : 0 < epsilon := by decide!

theorem isDbl_epsilon : IsDbl epsilon := isDbl_rnd (by norm_num)

/-- A lower miss rate never yields a lower score. -/
theorem performance_antitone {A B : ThreadMetrics} (hA : 0 ≤ A.miss_rate)
    (h : A.miss_rate ≤ B.miss_rate) : performance B ≤ performance A := by
  unfold performance fdiv fadd
  have h1 : epsilon ≤ rnd (A.miss_rate + epsilon) := by
    have := rnd_mono epsilon_nonneg (by linarith : epsilon ≤ A.miss_rate + epsilon)
    rwa [rnd_of_isDbl isDbl_epsilon] at this
  have h2 : rnd (A.miss_rate + epsilon) ≤ rnd (B.miss_rate + epsilon) :=
    rnd_mono (add_nonneg hA epsilon_nonneg) (by linarith)
  have h3 : 0 < rnd (A.miss_rate + epsilon) := lt_of_lt_of_le epsilon_pos h1
  have h4 : 1 / rnd (B.miss_rate + epsilon) ≤ 1 / rnd (A.miss_rate + epsilon) :=
    one_div_le_one_div_of_le h3 h2
  have h5 : 0 ≤ rnd (B.miss_rate + epsilon) := le_trans (le_of_lt h3) h2
  exact rnd_mono (div_nonneg zero_le_one h5) h4

theorem missRateOf_of_mem {s : SMTRegisterAllocator} (hidx : IndexConsistent s)
    {t : ThreadMetrics} (ht : t ∈ s.threads_) : missRateOf s t.thread_id = t.miss_rate := by
  obtain ⟨i, hi⟩ := List.mem_iff_getElem?.mp ht
  have h1 : (threadIds s)[i]? = some t.thread_id := by
    rw [getElem?_threadIds, hi]; rfl
  have h2 := mapFind_eq_some_of_mem hidx.keys_nodup (hidx.record_ok i _ h1)
  simp [missRateOf, h2, hi]

theorem scoreOf_of_mem {s : SMTRegisterAllocator} (hidx : IndexConsistent s)
    {t : ThreadMetrics} (ht : t ∈ s.threads_) : scoreOf s t.thread_id = performance t := by
  unfold scoreOf performance
  rw [missRateOf_of_mem hidx ht]

theorem forceReallocation_allocation {s : SMTRegisterAllocator} (hidx : IndexConsistent s)
    {t : ThreadMetrics} {i : Nat} (hi : s.threads_[i]? = some t) :
    getThreadAllocation (forceReallocation s) t.thread_id
      = allocAt (reallocateRegisters s).threads_ i := by
  have h1 : (threadIds s)[i]? = some t.thread_id := by
    rw [getElem?_threadIds, hi]; rfl
  have h2 := mapFind_eq_some_of_mem hidx.keys_nodup (hidx.record_ok i _ h1)
  have h3 : mapFind (forceReallocation s).thread_id_to_index_ t.thread_id = some i := by
    unfold forceReallocation calculateMissRates
    simp only
    rw [reallocate_map]
    exact h2
  rw [getThreadAllocation_eq_allocAt h3]
  rfl

/-- Fairness of a forced redistribution with respect to the computed scores. -/
theorem fair_forceReallocation (s : SMTRegisterAllocator) (hs : Reachable s) (a b : Int)
    (ha : IsActive s a) (hb : IsActive s b) (hlt : missRateOf s a < missRateOf s b)
    (hscore : scoreOf s a ≠ scoreOf s b) :
    getThreadAllocation (forceReallocation s) b ≤ getThreadAllocation (forceReallocation s) a := by
  have hw := wellFormed_of_reachable hs
  obtain ⟨A, hA, rfl⟩ := ha
  obtain ⟨B, hB, rfl⟩ := hb
  rw [missRateOf_of_mem hw.index hA, missRateOf_of_mem hw.index hB] at hlt
  rw [scoreOf_of_mem hw.index hA, scoreOf_of_mem hw.index hB] at hscore
  have hmr0 : ∀ t ∈ s.threads_, 0 ≤ t.miss_rate := fun t ht => isDbl_nonneg (hw.miss_dbl t ht)
  have hle := performance_antitone (hmr0 A hA) (le_of_lt hlt)
  have hperf : performance B < performance A := lt_of_le_of_ne hle (Ne.symm hscore)
  obtain ⟨i, hi⟩ := List.mem_iff_getElem?.mp hA
  obtain ⟨j, hj⟩ := List.mem_iff_getElem?.mp hB
  rw [forceReallocation_allocation hw.index hi, forceReallocation_allocation hw.index hj]
  exact reallocate_fair s hw.config hmr0 i j A B hi hj hperf

theorem reallocate_finishRemove (s : SMTRegisterAllocator) :
    reallocateRegisters (finishRemove s) = finishRemove s := by
  unfold finishRemove
  split_ifs with h
  · unfold reallocateRegisters
    simp [h]
  · exact reallocate_idem s

/-- The state after a call that redistributes is a fixed point of the
redistribution. -/
theorem reallocate_step_of_redistributes (s : SMTRegisterAllocator) (op : Op)
    (h : Redistributes s op) : reallocateRegisters (step s op) = step s op := by
  cases op with
  | addThread id =>
    simp only [Redistributes] at h
    simp only [step]
    by_cases h1 : (mapFind s.thread_id_to_index_ id).isSome = true
    · rw [addThread_fail_left h1] at h; exact absurd h (by simp)
    · by_cases h2 : s.max_threads_ ≤ (s.threads_.length : Int)
      · rw [addThread_fail_right h2] at h; exact absurd h (by simp)
      · have h1n : mapFind s.thread_id_to_index_ id = none := by
          cases hf : mapFind s.thread_id_to_index_ id with
          | none => rfl
          | some j => rw [hf] at h1; exact absurd rfl h1
        rw [addThread_success h1n (by omega)]
        exact reallocate_idem _
  | removeThread id =>
    simp only [Redistributes] at h
    simp only [step]
    cases hf : mapFind s.thread_id_to_index_ id with
    | none => rw [removeThread_fail hf] at h; exact absurd h (by simp)
    | some index =>
      unfold removeThread
      simp only [hf]
      exact reallocate_finishRemove _
  | updateThreadMetrics id m n => exact absurd h (by simp [Redistributes])
  | advanceCycle =>
    simp only [Redistributes] at h
    simp only [step]
    unfold advanceCycle calculateMissRates
    simp only [h, if_true]
    rw [reallocate_setCycles, reallocate_idem]
  | forceReallocation =>
    simp only [step]
    unfold forceReallocation calculateMissRates
    rw [reallocate_setCycles, reallocate_idem]

theorem getThreadAllocation_forceReallocation_of_fix {s : SMTRegisterAllocator}
    (h : reallocateRegisters s = s) (c : Int) :
    getThreadAllocation (forceReallocation s) c = getThreadAllocation s c := by
  unfold forceReallocation calculateMissRates
  rw [h]
  rfl

/-- C3, amended (monotonic fairness with respect to the computed scores). Let
a well-typed call in a reachable state run the redistribution (a successful
`addThread` or `removeThread`, an `advanceCycle` that reaches the interval, or
`forceReallocation`). If in the resulting state context `a` has a strictly
lower miss rate than context `b` and their scores `1.0 / (miss_rate + 1e-10)`,
as computed in double precision, differ, then `a` holds at least as many
registers as `b`. -/
theorem monotonic_fairness (s : SMTRegisterAllocator) (hs : Reachable s) (op : Op)
    (hop : op.WellTyped) (hrun : Redistributes s op) (a b : Int)
    (ha : IsActive (step s op) a) (hb : IsActive (step s op) b)
    (hlt : missRateOf (step s op) a < missRateOf (step s op) b)
    (hscore : scoreOf (step s op) a ≠ scoreOf (step s op) b) :
    getThreadAllocation (step s op) b ≤ getThreadAllocation (step s op) a := by
  have hfix := reallocate_step_of_redistributes s op hrun
  have h := fair_forceReallocation (step s op) (Reachable.step s op hs hop) a b ha hb hlt hscore
  rwa [getThreadAllocation_forceReallocation_of_fix hfix,
    getThreadAllocation_forceReallocation_of_fix hfix] at h

theorem reachable_scenarioA : Reachable scenarioA :=
  reachable_run reachable_testAllocator _ (by decide)

theorem reachable_nearTie : Reachable nearTie :=
  reachable_run reachable_testAllocator _ (by decide)

/-- Scenario A: after the forced redistribution context 1 (1% misses) holds at
least as many registers as context 2 (5% misses). -/
theorem monotonic_fairness_witness :
    Reachable scenarioA ∧ Op.forceReallocation.WellTyped ∧
      Redistributes scenarioA Op.forceReallocation ∧
      IsActive (step scenarioA Op.forceReallocation) 1 ∧
      IsActive (step scenarioA Op.forceReallocation) 2 ∧
      missRateOf (step scenarioA Op.forceReallocation) 1
        < missRateOf (step scenarioA Op.forceReallocation) 2 ∧
      scoreOf (step scenarioA Op.forceReallocation) 1
        ≠ scoreOf (step scenarioA Op.forceReallocation) 2 ∧
      getThreadAllocation (step scenarioA Op.forceReallocation) 2
        ≤ getThreadAllocation (step scenarioA Op.forceReallocation) 1 :=
  have h1 : IsActive (step scenarioA Op.forceReallocation) 1 := by unfold IsActive; decide!
  have h2 : IsActive (step scenarioA Op.forceReallocation) 2 := by unfold IsActive; decide!
  have h3 : missRateOf (step scenarioA Op.forceReallocation) 1
      < missRateOf (step scenarioA Op.forceReallocation) 2 := by decide!
  have h4 : scoreOf (step scenarioA Op.forceReallocation) 1
      ≠ scoreOf (step scenarioA Op.forceReallocation) 2 := by decide!
  ⟨reachable_scenarioA, trivial, trivial, h1, h2, h3, h4,
    monotonic_fairness scenarioA reachable_scenarioA Op.forceReallocation trivial trivial 1 2
      h1 h2 h3 h4⟩

/-- C3 as stated fails. In the reachable state `nearTie` context 2 has the
strictly lower miss rate, both scores round to the same double, and the forced
redistribution leaves context 2 with 20 registers and context 1 with 44. -/
theorem monotonic_fairness_counterexample :
    Reachable nearTie ∧ IsActive nearTie 1 ∧ IsActive nearTie 2 ∧
      missRateOf nearTie 2 < missRateOf nearTie 1 ∧
      scoreOf nearTie 2 = scoreOf nearTie 1 ∧
      getThreadAllocation (forceReallocation nearTie) 2 = 20 ∧
      getThreadAllocation (forceReallocation nearTie) 1 = 44 ∧
      ¬ (getThreadAllocation (forceReallocation nearTie) 1
          ≤ getThreadAllocation (forceReallocation nearTie) 2) :=
  ⟨reachable_nearTie, by unfold IsActive; decide!, by unfold IsActive; decide!, by decide!,
    by decide!, by decide!, by decide!, by decide!⟩

/-! ## The cycle scheduler (C12) -/

theorem advanceCycle_of_lt {s : SMTRegisterAllocator}
    (h : (s.allocation_cycles_ + 1) % 2 ^ 64 < s.reallocation_interval_) :
    advanceCycle s = { s with allocation_cycles_ := (s.allocation_cycles_ + 1) % 2 ^ 64 } := by
  unfold advanceCycle isReallocationNeeded
  simp only
  rw [if_neg]
  simp only [decide_eq_true_eq, not_le]
  exact h

theorem advanceCycle_of_not_lt {s : SMTRegisterAllocator}
    (h : ¬ (s.allocation_cycles_ + 1) % 2 ^ 64 < s.reallocation_interval_) :
    advanceCycle s = forceReallocation s := by
  unfold advanceCycle isReallocationNeeded forceReallocation calculateMissRates
  simp only
  rw [if_pos]
  · rw [reallocate_setCycles]
  · simp only [decide_eq_true_eq]
    omega

/-- C12 (step semantics of `advanceCycle`). For every state: if the incremented
counter is below `reallocation_interval`, the result is the same state with the
counter incremented and no record changed; otherwise the result is exactly the
state `forceReallocation` produces. The counter is a `uint64_t`, so "counter +
1" is the increment modulo `2 ^ 64`; below `2 ^ 64 - 1` it is the successor. -/
theorem advanceCycle_step (s : SMTRegisterAllocator) :
    ((s.allocation_cycles_ + 1) % 2 ^ 64 < s.reallocation_interval_ →
        advanceCycle s
          = { s with allocation_cycles_ := (s.allocation_cycles_ + 1) % 2 ^ 64 }) ∧
      (¬ (s.allocation_cycles_ + 1) % 2 ^ 64 < s.reallocation_interval_ →
        advanceCycle s = forceReallocation s) ∧
      (s.allocation_cycles_ + 1 < 2 ^ 64 →
        (s.allocation_cycles_ + 1 < s.reallocation_interval_ →
          advanceCycle s = { s with allocation_cycles_ := s.allocation_cycles_ + 1 }) ∧
        (¬ s.allocation_cycles_ + 1 < s.reallocation_interval_ →
          advanceCycle s = forceReallocation s)) := by
  refine ⟨advanceCycle_of_lt, advanceCycle_of_not_lt, ?_⟩
  intro hc
  have hmod : (s.allocation_cycles_ + 1) % 2 ^ 64 = s.allocation_cycles_ + 1 :=
    Nat.mod_eq_of_lt hc
  constructor
  · intro h
    have := advanceCycle_of_lt (s := s) (by rw [hmod]; exact h)
    rw [hmod] at this
    exact this
  · intro h
    exact advanceCycle_of_not_lt (by rw [hmod]; exact h)

/-- One tick of the test allocator with two contexts: the counter goes from 0
to 1 and nothing else changes. -/
theorem advanceCycle_step_witness :
    twoThreads.allocation_cycles_ + 1 < 2 ^ 64 ∧
      twoThreads.allocation_cycles_ + 1 < twoThreads.reallocation_interval_ ∧
      advanceCycle twoThreads
        = { twoThreads with allocation_cycles_ := twoThreads.allocation_cycles_ + 1 } :=
  have h1 : twoThreads.allocation_cycles_ + 1 < 2 ^ 64 := by decide!
  have h2 : twoThreads.allocation_cycles_ + 1 < twoThreads.reallocation_interval_ := by decide!
  ⟨h1, h2, ((advanceCycle_step twoThreads).2.2 h1).1 h2⟩

/-! ## Frame of the forced redistribution (C15) -/

/-- C15 (frame of redistribution). For every state, `forceReallocation` keeps
the records in place with their `thread_id`, `l2_misses`, `instructions` and
`miss_rate`, keeps the id-to-index map and the configuration, and sets the
counter to 0: only `allocated_registers` and the counter can change. -/
theorem forceReallocation_frame (s : SMTRegisterAllocator) :
    (forceReallocation s).threads_.map ThreadMetrics.frame
        = s.threads_.map ThreadMetrics.frame ∧
      (forceReallocation s).thread_id_to_index_ = s.thread_id_to_index_ ∧
      (forceReallocation s).total_registers_ = s.total_registers_ ∧
      (forceReallocation s).min_registers_per_thread_ = s.min_registers_per_thread_ ∧
      (forceReallocation s).max_threads_ = s.max_threads_ ∧
      (forceReallocation s).reallocation_interval_ = s.reallocation_interval_ ∧
      (forceReallocation s).allocation_cycles_ = 0 := by
  unfold forceReallocation calculateMissRates
  exact ⟨reallocate_frame s, reallocate_map s, reallocate_total s, reallocate_min s,
    reallocate_max s, reallocate_interval s, rfl⟩

/-! ## Introspection (C17, C18) -/

/-- C17 (utilization). For every state `getUtilizationStats` is the pair of the
sum of `allocated_registers` over the records and `total_registers` (a pure
function of the state); with no record it is `(0, total_registers)`; in every
reachable state the first component is at most the second. -/
theorem getUtilizationStats_contract (s : SMTRegisterAllocator) :
    getUtilizationStats s = (allocatedSum s.threads_, s.total_registers_) ∧
      (s.threads_ = [] → getUtilizationStats s = (0, s.total_registers_)) ∧
      (Reachable s → (getUtilizationStats s).1 ≤ (getUtilizationStats s).2) := by
  refine ⟨getUtilizationStats_eq s, ?_, ?_⟩
  · intro h
    rw [getUtilizationStats_eq, h]
    rfl
  · intro hs
    have hw := wellFormed_of_reachable hs
    rw [getUtilizationStats_eq]
    simp only
    by_cases h : s.threads_ = []
    · rw [h]
      have := hw.config.1
      simp [allocatedSum]
      omega
    · rw [hw.conserved h]

/-- The empty test allocator reports `(0, 64)`; Scenario D stays within its
pool. -/
theorem getUtilizationStats_contract_witness :
    (testAllocator.threads_ = [] ∧
        getUtilizationStats testAllocator = (0, testAllocator.total_registers_)) ∧
      (Reachable scenarioD ∧
        (getUtilizationStats scenarioD).1 ≤ (getUtilizationStats scenarioD).2) :=
  ⟨⟨rfl, (getUtilizationStats_contract testAllocator).2.1 rfl⟩,
    ⟨reachable_scenarioD, (getUtilizationStats_contract scenarioD).2.2 reachable_scenarioD⟩⟩

/-- C18 (`validateMinimumCaps`). For every state, reachable or not,
`validateMinimumCaps` is true exactly when every record holds at least
`min_registers_per_thread`; with no record it is true. -/
theorem validateMinimumCaps_contract (s : SMTRegisterAllocator) :
    (validateMinimumCaps s = true
        ↔ ∀ t ∈ s.threads_, s.min_registers_per_thread_ ≤ t.allocated_registers) ∧
      validateMinimumCaps { s with threads_ := [] } = true :=
  ⟨validateMinimumCaps_iff s, rfl⟩

/-! ## Metrics of an active context (C11) -/

/-- In a consistent state two records with the same id are the same record. -/
theorem record_unique {s : SMTRegisterAllocator} (hidx : IndexConsistent s)
    {t u : ThreadMetrics} (ht : t ∈ s.threads_) (hu : u ∈ s.threads_)
    (h : t.thread_id = u.thread_id) : t = u := by
  obtain ⟨i, hi⟩ := List.mem_iff_getElem?.mp ht
  obtain ⟨j, hj⟩ := List.mem_iff_getElem?.mp hu
  have h1 : (threadIds s)[i]? = some t.thread_id := by
    rw [getElem?_threadIds, hi]; rfl
  have h2 : (threadIds s)[j]? = some t.thread_id := by
    rw [getElem?_threadIds, hj, h]; rfl
  have hij := unique_of_nodup_keys hidx.keys_nodup (hidx.record_ok i _ h1)
    (hidx.record_ok j _ h2)
  rw [hij, hj] at hi
  exact (Option.some.inj hi).symm

theorem fdiv_ofUInt64_of_small {m n : Nat} (hm : m < 2 ^ 53) (hn : n < 2 ^ 53) :
    fdiv (ofUInt64 m) (ofUInt64 n) = rnd ((m : ℚ) / (n : ℚ)) := by
  unfold fdiv ofUInt64
  rw [rnd_of_isDbl (isDbl_natCast hm), rnd_of_isDbl (isDbl_natCast hn)]

/-- C11 (metrics of an active context). In a reachable state, for an active
`id`, `updateThreadMetrics id m n` leaves `id` active and its record has
`l2_misses = m`, `instructions = n` (whatever they were before) and `miss_rate`
equal to the double-precision quotient of `m` by `n` when `n > 0` and to `0`
when `n = 0`; for counters below `2 ^ 53` the quotient is the exact `m / n`
rounded once. After any report, `(0, 0)` included, `forceReallocation` returns
a state in which `validateMinimumCaps` is true. -/
theorem updateThreadMetrics_active (s : SMTRegisterAllocator) (hs : Reachable s) (id : Int)
    (m n : Nat) (hactive : IsActive s id) :
    IsActive (updateThreadMetrics s id m n) id ∧
      (∀ u ∈ (updateThreadMetrics s id m n).threads_, u.thread_id = id →
        u.l2_misses = m ∧ u.instructions = n ∧
        u.miss_rate = (if 0 < n then fdiv (ofUInt64 m) (ofUInt64 n) else 0) ∧
        (n = 0 → u.miss_rate = 0) ∧
        (0 < n → m < 2 ^ 53 → n < 2 ^ 53 → u.miss_rate = rnd ((m : ℚ) / (n : ℚ)))) ∧
      validateMinimumCaps (forceReallocation (updateThreadMetrics s id m n)) = true := by
  have hw := wellFormed_of_reachable hs
  have hw2 := wellFormed_updateThreadMetrics hw id m n
  have hfind : (mapFind s.thread_id_to_index_ id).isSome = true :=
    (isActive_iff_mapFind hw.index id).mp hactive
  cases hf : mapFind s.thread_id_to_index_ id with
  | none => rw [hf] at hfind; exact absurd hfind (by simp)
  | some index =>
    obtain ⟨t, ht, hid⟩ := record_of_mapFind hw.index hf
    have hlt : index < s.threads_.length := (List.getElem?_eq_some.mp ht).1
    have heq := updateThreadMetrics_eq m n hf ht
    have hmem : recordMetrics t m n ∈ (updateThreadMetrics s id m n).threads_ := by
      rw [heq]
      apply List.getElem?_mem (n := index)
      simp only
      rw [List.getElem?_set, if_pos rfl, if_pos hlt]
    have hrid : (recordMetrics t m n).thread_id = id := hid
    refine ⟨⟨_, hmem, hrid⟩, ?_, ?_⟩
    · intro u hu huid
      have hur : u = recordMetrics t m n :=
        record_unique hw2.index hu hmem (by rw [huid, hrid])
      subst hur
      refine ⟨rfl, rfl, rfl, ?_, ?_⟩
      · intro hn
        simp [recordMetrics, hn]
      · intro hn hm53 hn53
        simp only [recordMetrics, hn, if_true]
        exact fdiv_ofUInt64_of_small hm53 hn53
    · exact (validateMinimumCaps_iff _).mpr (wellFormed_forceReallocation hw2).caps

/-- Scenario B: reporting `(0, 0)` for context 1 of the test allocator. -/
theorem updateThreadMetrics_active_witness :
    Reachable twoThreads ∧ IsActive twoThreads 1 ∧
      (IsActive (updateThreadMetrics twoThreads 1 0 0) 1 ∧
      (∀ u ∈ (updateThreadMetrics twoThreads 1 0 0).threads_, u.thread_id = 1 →
        u.l2_misses = 0 ∧ u.instructions = 0 ∧
        u.miss_rate = (if 0 < 0 then fdiv (ofUInt64 0) (ofUInt64 0) else 0) ∧
        (0 = 0 → u.miss_rate = 0) ∧
        (0 < 0 → 0 < 2 ^ 53 → 0 < 2 ^ 53 → u.miss_rate = rnd (((0 : Nat) : ℚ) / ((0 : Nat) : ℚ)))) ∧
      validateMinimumCaps (forceReallocation (updateThreadMetrics twoThreads 1 0 0)) = true) :=
  have h1 : IsActive twoThreads 1 := by unfold IsActive; decide!
  ⟨reachable_twoThreads, h1, updateThreadMetrics_active twoThreads reachable_twoThreads 1 0 0 h1⟩

/-! ## Registry mutations and the counter (C14) -/

theorem addThread_cycles (s : SMTRegisterAllocator) (id : Int) :
    (addThread s id).2.allocation_cycles_ = s.allocation_cycles_ := by
  unfold addThread
  split_ifs
  · rfl
  · rfl
  · exact reallocate_cycles _

theorem finishRemove_cycles (s : SMTRegisterAllocator) :
    (finishRemove s).allocation_cycles_ = s.allocation_cycles_ := by
  unfold finishRemove
  split_ifs
  · rfl
  · exact reallocate_cycles _

theorem removeThread_cycles (s : SMTRegisterAllocator) (id : Int) :
    (removeThread s id).2.allocation_cycles_ = s.allocation_cycles_ := by
  unfold removeThread
  cases hf : mapFind s.thread_id_to_index_ id with
  | none => rfl
  | some index =>
    simp only
    rw [finishRemove_cycles]

/-- C14 (the code at the failing input). `addThread` and `removeThread` never
write the counter. In the test allocator after `addThread(1)` and one
`advanceCycle()` the counter is 1; a successful `addThread(2)` redistributes and
leaves it at 1, and so does the successful `removeThread(1)` that follows and
leaves context 2 active. -/
theorem registry_mutation_keeps_counter :
    (∀ s id, (addThread s id).2.allocation_cycles_ = s.allocation_cycles_) ∧
      (∀ s id, (removeThread s id).2.allocation_cycles_ = s.allocation_cycles_) ∧
      Reachable oneTick ∧ oneTick.allocation_cycles_ = 1 ∧
      (addThread oneTick 2).1 = true ∧
      (addThread oneTick 2).2.allocation_cycles_ = 1 ∧
      (removeThread (addThread oneTick 2).2 1).1 = true ∧
      getActiveThreadCount (removeThread (addThread oneTick 2).2 1).2 = 1 ∧
      (removeThread (addThread oneTick 2).2 1).2.allocation_cycles_ = 1 :=
  ⟨addThread_cycles, removeThread_cycles,
    reachable_run reachable_testAllocator _ (by decide),
    by decide!, by decide!, by decide!, by decide!, by decide!, by decide!⟩

/-! ## Construction (C16) -/

theorem construct_eq_some_iff (total mn mx : Int) (interval : Nat) (s : SMTRegisterAllocator) :
    construct total mn mx interval = some s ↔
      (0 < total ∧ 0 < mn ∧ 0 < mx ∧ mn * mx ≤ total) ∧
        s = { total_registers_ := total
              min_registers_per_thread_ := mn
              max_threads_ := mx
              threads_ := []
              thread_id_to_index_ := []
              allocation_cycles_ := 0
              reallocation_interval_ := interval } := by
  unfold construct
  split_ifs with h
  · simp only [Option.some.injEq]
    exact ⟨fun e => ⟨h, e.symm⟩, fun e => e.2.symm⟩
  · simp only [false_iff]
    exact fun e => h e.1

theorem construct_eq_none_iff (total mn mx : Int) (interval : Nat) :
    construct total mn mx interval = none ↔
      ¬ (0 < total ∧ 0 < mn ∧ 0 < mx ∧ mn * mx ≤ total) := by
  unfold construct
  split_ifs with h <;> simp [h]

theorem wrapInt32_of_inRange {x : Int} (h1 : -2 ^ 31 ≤ x) (h2 : x < 2 ^ 31) :
    wrapInt32 x = x := by
  unfold wrapInt32
  rw [Int.emod_eq_of_lt (by omega) (by omega)]
  omega

/-- When the product of the last assertion fits an `int`, the compiled
constructor is the constructor over the integers. -/
theorem constructCompiled_eq_construct (total mn mx : Int) (interval : Nat)
    (h1 : -2 ^ 31 ≤ mn * mx) (h2 : mn * mx < 2 ^ 31) :
    constructCompiled total mn mx interval = construct total mn mx interval := by
  unfold constructCompiled construct
  rw [wrapInt32_of_inRange h1 h2]

/-- C16 (the code at the failing input). For `total_registers = 1`,
`min_registers_per_thread = 65536`, `max_threads = 65536` the product `2 ^ 32`
does not fit an `int`; it wraps to `0`, the four assertions pass and an
allocator with `min * max > total` is constructed, although the condition
`min * max <= total` is false. -/
theorem constructor_overflow :
    ¬ ((65536 : Int) * 65536 ≤ 1) ∧
      wrapInt32 (65536 * 65536) = 0 ∧
      construct 1 65536 65536 1000 = none ∧
      constructCompiled 1 65536 65536 1000
        = some { total_registers_ := 1
                 min_registers_per_thread_ := 65536
                 max_threads_ := 65536
                 threads_ := []
                 thread_id_to_index_ := []
                 allocation_cycles_ := 0
                 reallocation_interval_ := 1000 } :=
  ⟨by decide, by decide, by decide, by decide⟩

/-! ## The proportional pass (C19, C20) -/

/-- The proportional branch of `reallocateRegisters`, in terms of the named
intermediate values. -/
theorem reallocate_eq_proportionalShare (s : SMTRegisterAllocator)
    (hne : s.threads_.isEmpty = false) (havail : 0 < availableRegisters s)
    (hT : 0 < totalPerformance (sortedPerformance s)) :
    (reallocateRegisters s).threads_
      = proportionalShare (sortedPerformance s) (resetToMinimum s) (availableRegisters s) := by
  unfold availableRegisters at havail
  unfold sortedPerformance resetToMinimum at hT
  unfold reallocateRegisters sortedPerformance resetToMinimum availableRegisters
  simp only [hne, Bool.false_eq_true, if_false]
  rw [if_neg (by omega), if_pos hT]

/-- The remainder step of `reallocateRegisters`, in terms of the state of the
proportional pass. -/
theorem proportionalShare_eq_pass (s : SMTRegisterAllocator) :
    proportionalShare (sortedPerformance s) (resetToMinimum s) (availableRegisters s)
      = match sortedPerformance s with
        | best :: _ =>
          if 0 < (proportionalPass s).2
          then addRegisters (proportionalPass s).1 best.2 (proportionalPass s).2
          else (proportionalPass s).1
        | [] => (proportionalPass s).1 := rfl

/-- C19 (the code at the failing input). With two registered contexts and no
metrics reported, `available_registers` is 48 before the loop and both scores
are equal, so the formula `floor(available * score / total_score)` gives 24 for
each context; the loop grants 24 to the first context and only 12 to the
second, because it computes the second grant from the 24 registers that are
left. -/
theorem proportional_formula_diverges :
    Reachable twoThreads ∧ availableRegisters twoThreads = 48 ∧
      (sortedPerformance twoThreads).map Prod.snd = [0, 1] ∧
      twoThreads.threads_.map (formulaShare twoThreads) = [24, 24] ∧
      (proportionalPass twoThreads).1.map
          (fun t => t.allocated_registers - twoThreads.min_registers_per_thread_) = [24, 12] ∧
      (reallocateRegisters twoThreads).threads_
        = proportionalShare (sortedPerformance twoThreads) (resetToMinimum twoThreads)
            (availableRegisters twoThreads) :=
  ⟨reachable_twoThreads, by decide!, by decide!, by decide!, by decide!,
    reallocate_eq_proportionalShare twoThreads (by decide!) (by decide!) (by decide!)⟩

/-- C20 (the code at the failing input). With two registered contexts and no
metrics reported, 12 registers are left when the proportional loop ends, which
is not less than the number of active contexts (2); the 12 registers go to the
first context of the sorted order, which ends with 44 against 20. -/
theorem rounding_remainder_diverges :
    Reachable twoThreads ∧ getActiveThreadCount twoThreads = 2 ∧
      (proportionalPass twoThreads).2 = 12 ∧
      ¬ ((proportionalPass twoThreads).2 < getActiveThreadCount twoThreads) ∧
      (proportionalPass twoThreads).1.map (fun t => t.allocated_registers) = [32, 20] ∧
      (reallocateRegisters twoThreads).threads_.map (fun t => t.allocated_registers)
        = [44, 20] :=
  ⟨reachable_twoThreads, by decide!, by decide!, by decide!, by decide!, by decide!⟩

/-! ## Scheduled redistribution (C13) -/

theorem addThread_interval (s : SMTRegisterAllocator) (id : Int) :
    (addThread s id).2.reallocation_interval_ = s.reallocation_interval_ := by
  unfold addThread
  split_ifs
  · rfl
  · rfl
  · exact reallocate_interval _

theorem finishRemove_interval (s : SMTRegisterAllocator) :
    (finishRemove s).reallocation_interval_ = s.reallocation_interval_ := by
  unfold finishRemove
  split_ifs
  · rfl
  · exact reallocate_interval _

theorem removeThread_interval (s : SMTRegisterAllocator) (id : Int) :
    (removeThread s id).2.reallocation_interval_ = s.reallocation_interval_ := by
  unfold removeThread
  cases hf : mapFind s.thread_id_to_index_ id with
  | none => rfl
  | some index =>
    simp only
    rw [finishRemove_interval]

theorem updateThreadMetrics_interval (s : SMTRegisterAllocator) (id : Int) (m n : Nat) :
    (updateThreadMetrics s id m n).reallocation_interval_ = s.reallocation_interval_ := by
  unfold updateThreadMetrics
  cases mapFind s.thread_id_to_index_ id with
  | none => rfl
  | some index =>
    simp only
    cases s.threads_[index]? <;> rfl

theorem forceReallocation_interval (s : SMTRegisterAllocator) :
    (forceReallocation s).reallocation_interval_ = s.reallocation_interval_ := by
  unfold forceReallocation calculateMissRates
  exact reallocate_interval _

theorem advanceCycle_interval (s : SMTRegisterAllocator) :
    (advanceCycle s).reallocation_interval_ = s.reallocation_interval_ := by
  by_cases h : (s.allocation_cycles_ + 1) % 2 ^ 64 < s.reallocation_interval_
  · rw [advanceCycle_of_lt h]
  · rw [advanceCycle_of_not_lt h, forceReallocation_interval]

theorem step_interval (s : SMTRegisterAllocator) (op : Op) :
    (step s op).reallocation_interval_ = s.reallocation_interval_ := by
  cases op with
  | addThread id => exact addThread_interval s id
  | removeThread id => exact removeThread_interval s id
  | updateThreadMetrics id m n => exact updateThreadMetrics_interval s id m n
  | advanceCycle => exact advanceCycle_interval s
  | forceReallocation => exact forceReallocation_interval s

/-- The interval of a reachable state fits a `uint64_t`. -/
theorem interval_lt_of_reachable {s : SMTRegisterAllocator} (h : Reachable s) :
    s.reallocation_interval_ < 2 ^ 64 := by
  induction h with
  | init total mn mx interval s hint hiv hc =>
    unfold construct at hc
    split_ifs at hc
    simp only [Option.some.injEq] at hc
    rw [← hc]
    exact hiv
  | step s op _ _ ih => rw [step_interval]; exact ih

/-- The method `updateThreadMetrics` keeps the map, the pairs of id and
allocation in the order of the records, and the counter. -/
theorem updateThreadMetrics_allocs (s : SMTRegisterAllocator) (id : Int) (m n : Nat) :
    (updateThreadMetrics s id m n).thread_id_to_index_ = s.thread_id_to_index_ ∧
      (updateThreadMetrics s id m n).threads_.map
          (fun t => (t.thread_id, t.allocated_registers))
        = s.threads_.map (fun t => (t.thread_id, t.allocated_registers)) ∧
      (updateThreadMetrics s id m n).allocation_cycles_ = s.allocation_cycles_ := by
  unfold updateThreadMetrics
  cases mapFind s.thread_id_to_index_ id with
  | none => exact ⟨rfl, rfl, rfl⟩
  | some index =>
    simp only
    cases ht : s.threads_[index]? with
    | none => exact ⟨rfl, rfl, rfl⟩
    | some t => exact ⟨rfl, map_set_same _ ht rfl, rfl⟩

theorem getThreadAllocation_of_allocs_eq {s1 s2 : SMTRegisterAllocator}
    (hmap : s1.thread_id_to_index_ = s2.thread_id_to_index_)
    (hts : s1.threads_.map (fun t => (t.thread_id, t.allocated_registers))
      = s2.threads_.map (fun t => (t.thread_id, t.allocated_registers))) (id : Int) :
    getThreadAllocation s1 id = getThreadAllocation s2 id := by
  unfold getThreadAllocation
  rw [hmap]
  cases mapFind s2.thread_id_to_index_ id with
  | none => rfl
  | some index =>
    simp only
    have h := congrArg (fun l => l[index]?) hts
    simp only [List.getElem?_map] at h
    cases h1 : s1.threads_[index]? with
    | none =>
      cases h2 : s2.threads_[index]? with
      | none => rfl
      | some t2 => rw [h1, h2] at h; simp at h
    | some t1 =>
      cases h2 : s2.threads_[index]? with
      | none => rw [h1, h2] at h; simp at h
      | some t2 =>
        rw [h1, h2] at h
        simp only [Option.map_some', Option.some.injEq, Prod.mk.injEq] at h
        exact h.2

/-- A run of `advanceCycle` and `updateThreadMetrics` calls that does not
reach the interval changes no allocation and counts the `advanceCycle` calls. -/
theorem run_below_interval (ops : List Op) :
    ∀ s : SMTRegisterAllocator, (∀ op ∈ ops, op.IsTickOrReport) →
      s.reallocation_interval_ ≤ 2 ^ 64 →
      s.allocation_cycles_ + tickCount ops < s.reallocation_interval_ →
      (run s ops).thread_id_to_index_ = s.thread_id_to_index_ ∧
        (run s ops).threads_.map (fun t => (t.thread_id, t.allocated_registers))
          = s.threads_.map (fun t => (t.thread_id, t.allocated_registers)) ∧
        (run s ops).allocation_cycles_ = s.allocation_cycles_ + tickCount ops ∧
        (run s ops).reallocation_interval_ = s.reallocation_interval_ := by
  induction ops with
  | nil => intro s _ _ _; exact ⟨rfl, rfl, rfl, rfl⟩
  | cons op ops ih =>
    intro s hops hiv hlt
    have hrest : ∀ o ∈ ops, o.IsTickOrReport := fun o ho => hops o (List.mem_cons_of_mem _ ho)
    have hop := hops op (List.mem_cons_self _ _)
    cases op with
    | addThread id => exact absurd hop (by unfold Op.IsTickOrReport; exact not_false)
    | removeThread id => exact absurd hop (by unfold Op.IsTickOrReport; exact not_false)
    | forceReallocation => exact absurd hop (by unfold Op.IsTickOrReport; exact not_false)
    | updateThreadMetrics id m n =>
      have hu := updateThreadMetrics_allocs s id m n
      have hi := updateThreadMetrics_interval s id m n
      have htc : tickCount (Op.updateThreadMetrics id m n :: ops) = tickCount ops := rfl
      rw [htc] at hlt ⊢
      have h := ih (updateThreadMetrics s id m n) hrest (by rw [hi]; exact hiv)
        (by rw [hi, hu.2.2]; exact hlt)
      have hrun : run s (Op.updateThreadMetrics id m n :: ops)
          = run (updateThreadMetrics s id m n) ops := rfl
      rw [hrun]
      exact ⟨h.1.trans hu.1, h.2.1.trans hu.2.1, by rw [h.2.2.1, hu.2.2],
        by rw [h.2.2.2, hi]⟩
    | advanceCycle =>
      have htc : tickCount (Op.advanceCycle :: ops) = tickCount ops + 1 := rfl
      rw [htc] at hlt ⊢
      have hmod : (s.allocation_cycles_ + 1) % 2 ^ 64 = s.allocation_cycles_ + 1 :=
        Nat.mod_eq_of_lt (by omega)
      have hstep : advanceCycle s
          = { s with allocation_cycles_ := s.allocation_cycles_ + 1 } := by
        rw [advanceCycle_of_lt (by rw [hmod]; omega), hmod]
      have hrun : run s (Op.advanceCycle :: ops) = run (advanceCycle s) ops := rfl
      rw [hrun, hstep]
      have h := ih { s with allocation_cycles_ := s.allocation_cycles_ + 1 } hrest hiv
        (by simp only; omega)
      exact ⟨h.1, h.2.1, by rw [h.2.2.1]; simp only; omega, h.2.2.2⟩

/-- C13, amended (scheduled redistribution, fairness with respect to the
computed scores). Let `s` be a reachable state whose counter is 0 and whose
`reallocation_interval` is `N >= 1`, and let `ops` be well-typed calls of
`advanceCycle` and `updateThreadMetrics` in any order. If `ops` holds fewer
than `N` calls of `advanceCycle`, every context keeps its allocation and the
counter is the number of `advanceCycle` calls. If `ops` holds exactly `N - 1`
of them, the next `advanceCycle` (the `N`-th) produces exactly the state of a
forced redistribution of the current records, leaves the counter at 0, and a
context with a strictly lower current miss rate whose double-precision score
differs from the other's ends with an allocation at least as large. -/
theorem scheduled_redistribution (s : SMTRegisterAllocator) (hs : Reachable s)
    (h0 : s.allocation_cycles_ = 0) (hN : 1 ≤ s.reallocation_interval_) (ops : List Op)
    (hops : ∀ op ∈ ops, op.IsTickOrReport ∧ op.WellTyped) :
    (tickCount ops < s.reallocation_interval_ →
        (run s ops).threads_.map (fun t => (t.thread_id, t.allocated_registers))
          = s.threads_.map (fun t => (t.thread_id, t.allocated_registers)) ∧
        (∀ id, getThreadAllocation (run s ops) id = getThreadAllocation s id) ∧
        (run s ops).allocation_cycles_ = tickCount ops) ∧
      (tickCount ops + 1 = s.reallocation_interval_ →
        advanceCycle (run s ops) = forceReallocation (run s ops) ∧
        (advanceCycle (run s ops)).allocation_cycles_ = 0 ∧
        ∀ a b, IsActive (run s ops) a → IsActive (run s ops) b →
          missRateOf (run s ops) a < missRateOf (run s ops) b →
          scoreOf (run s ops) a ≠ scoreOf (run s ops) b →
          getThreadAllocation (advanceCycle (run s ops)) b
            ≤ getThreadAllocation (advanceCycle (run s ops)) a) := by
  have hiv := interval_lt_of_reachable hs
  have hquiet : tickCount ops < s.reallocation_interval_ →
      (run s ops).thread_id_to_index_ = s.thread_id_to_index_ ∧
        (run s ops).threads_.map (fun t => (t.thread_id, t.allocated_registers))
          = s.threads_.map (fun t => (t.thread_id, t.allocated_registers)) ∧
        (run s ops).allocation_cycles_ = s.allocation_cycles_ + tickCount ops ∧
        (run s ops).reallocation_interval_ = s.reallocation_interval_ :=
    fun hlt => run_below_interval ops s (fun op hop => (hops op hop).1) (le_of_lt hiv)
      (by rw [h0]; omega)
  refine ⟨fun hlt => ?_, fun heq => ?_⟩
  · have h := hquiet hlt
    exact ⟨h.2.1, getThreadAllocation_of_allocs_eq h.1 h.2.1, by rw [h.2.2.1, h0]; omega⟩
  · have h := hquiet (by omega)
    have hr : Reachable (run s ops) := reachable_run hs ops (fun op hop => (hops op hop).2)
    have hnot : ¬ ((run s ops).allocation_cycles_ + 1) % 2 ^ 64
        < (run s ops).reallocation_interval_ := by
      rw [h.2.2.1, h.2.2.2, h0, Nat.mod_eq_of_lt (by omega)]
      omega
    have hadv := advanceCycle_of_not_lt hnot
    rw [hadv]
    refine ⟨rfl, rfl, fun a b ha hb hlt hscore => ?_⟩
    exact fair_forceReallocation (run s ops) hr a b ha hb hlt hscore

theorem reachable_scenarioC : Reachable scenarioC :=
  reachable_run
    (Reachable.init 64 8 4 10 _ (by norm_num) (by norm_num) (by decide)) _ (by decide)

/-- Scenario C: after the two reports and nine calls of `advanceCycle` the
allocations are those of the registration; the tenth call redistributes, and
context 1 (1% misses) then holds at least as many registers as context 2 (10%
misses). -/
theorem scheduled_redistribution_witness :
    Reachable scenarioC ∧ scenarioC.allocation_cycles_ = 0 ∧
      1 ≤ scenarioC.reallocation_interval_ ∧
      (∀ op ∈ scenarioCOps, op.IsTickOrReport ∧ op.WellTyped) ∧
      ((tickCount scenarioCOps < scenarioC.reallocation_interval_ →
          (run scenarioC scenarioCOps).threads_.map
              (fun t => (t.thread_id, t.allocated_registers))
            = scenarioC.threads_.map (fun t => (t.thread_id, t.allocated_registers)) ∧
          (∀ id, getThreadAllocation (run scenarioC scenarioCOps) id
            = getThreadAllocation scenarioC id) ∧
          (run scenarioC scenarioCOps).allocation_cycles_ = tickCount scenarioCOps) ∧
        (tickCount scenarioCOps + 1 = scenarioC.reallocation_interval_ →
          advanceCycle (run scenarioC scenarioCOps)
            = forceReallocation (run scenarioC scenarioCOps) ∧
          (advanceCycle (run scenarioC scenarioCOps)).allocation_cycles_ = 0 ∧
          ∀ a b, IsActive (run scenarioC scenarioCOps) a →
            IsActive (run scenarioC scenarioCOps) b →
            missRateOf (run scenarioC scenarioCOps) a
              < missRateOf (run scenarioC scenarioCOps) b →
            scoreOf (run scenarioC scenarioCOps) a ≠ scoreOf (run scenarioC scenarioCOps) b →
            getThreadAllocation (advanceCycle (run scenarioC scenarioCOps)) b
              ≤ getThreadAllocation (advanceCycle (run scenarioC scenarioCOps)) a)) :=
  have h0 : scenarioC.allocation_cycles_ = 0 := by decide!
  have hN : 1 ≤ scenarioC.reallocation_interval_ := by decide!
  have hops : ∀ op ∈ scenarioCOps, op.IsTickOrReport ∧ op.WellTyped := by decide
  ⟨reachable_scenarioC, h0, hN, hops,
    scheduled_redistribution scenarioC reachable_scenarioC h0 hN scenarioCOps hops⟩

/-- C13 as stated fails. In the reachable state `scenarioC` (counter 0,
interval 10) nine calls of `advanceCycle` are interleaved with two reports
after which context 2 has the strictly lower miss rate while both scores round
to the same double; the tenth `advanceCycle` redistributes and leaves context
2 with 20 registers and context 1 with 44. -/
theorem scheduled_redistribution_counterexample :
    Reachable scenarioC ∧ scenarioC.allocation_cycles_ = 0 ∧
      scenarioC.reallocation_interval_ = 10 ∧
      (∀ op ∈ nearTieOps, op.IsTickOrReport ∧ op.WellTyped) ∧
      tickCount nearTieOps = 9 ∧
      IsActive (run scenarioC nearTieOps) 1 ∧ IsActive (run scenarioC nearTieOps) 2 ∧
      missRateOf (run scenarioC nearTieOps) 2 < missRateOf (run scenarioC nearTieOps) 1 ∧
      (advanceCycle (run scenarioC nearTieOps)).allocation_cycles_ = 0 ∧
      getThreadAllocation (advanceCycle (run scenarioC nearTieOps)) 2 = 20 ∧
      getThreadAllocation (advanceCycle (run scenarioC nearTieOps)) 1 = 44 ∧
      ¬ (getThreadAllocation (advanceCycle (run scenarioC nearTieOps)) 1
          ≤ getThreadAllocation (advanceCycle (run scenarioC nearTieOps)) 2) :=
  ⟨reachable_scenarioC, by decide!, by decide!, by decide, by decide,
    by unfold IsActive; decide!, by unfold IsActive; decide!, by decide!, by decide!,
    by decide!, by decide!, by decide!⟩

/-! ## The exhausted pool (C21) -/

/-- The early exit of `reallocateRegisters`: with no register beyond the
minimum caps every record gets its minimum. -/
theorem reallocate_of_exhausted (s : SMTRegisterAllocator) (hne : s.threads_ ≠ [])
    (h : availableRegisters s ≤ 0) :
    (reallocateRegisters s).threads_ = resetToMinimum s := by
  have hempty : s.threads_.isEmpty = false := by
    cases h1 : s.threads_ with
    | nil => exact absurd h1 hne
    | cons _ _ => rfl
  unfold availableRegisters at h
  unfold reallocateRegisters resetToMinimum
  simp only [hempty, Bool.false_eq_true, if_false]
  rw [if_pos h]

theorem reserved_le_total {s : SMTRegisterAllocator} (hw : WellFormed s) :
    s.min_registers_per_thread_ * (s.threads_.length : Int) ≤ s.total_registers_ := by
  obtain ⟨_, c2, _, c4, _⟩ := hw.config
  have := mul_le_mul_of_nonneg_left hw.capacity (le_of_lt c2)
  omega

/-- C21 (exhausted pool). In every reachable state the pool beyond the minimum
caps, `total_registers - min_registers_per_thread * active_count`, is not
negative. If it is zero, a redistribution leaves every active context with
exactly `min_registers_per_thread` registers, whatever the miss rates, and the
allocations still sum to `total_registers`. -/
theorem exhausted_pool (s : SMTRegisterAllocator) (hs : Reachable s) :
    (s.min_registers_per_thread_ * getActiveThreadCount s = s.total_registers_ →
        (∀ t ∈ (forceReallocation s).threads_,
          t.allocated_registers = s.min_registers_per_thread_) ∧
        (∀ id, IsActive s id →
          getThreadAllocation (forceReallocation s) id = s.min_registers_per_thread_) ∧
        allocatedSum (forceReallocation s).threads_ = s.total_registers_) ∧
      0 ≤ s.total_registers_ - s.min_registers_per_thread_ * getActiveThreadCount s := by
  have hw := wellFormed_of_reachable hs
  have hle := reserved_le_total hw
  unfold getActiveThreadCount
  refine ⟨fun heq => ?_, by omega⟩
  have hne : s.threads_ ≠ [] := by
    intro h
    rw [h] at heq
    have := hw.config.1
    simp at heq
    omega
  have havail : availableRegisters s ≤ 0 := by
    unfold availableRegisters
    rw [mul_comm] at heq
    omega
  have hts : (forceReallocation s).threads_ = resetToMinimum s :=
    reallocate_of_exhausted s hne havail
  have hall : ∀ t ∈ (forceReallocation s).threads_,
      t.allocated_registers = s.min_registers_per_thread_ := by
    intro t ht
    rw [hts] at ht
    unfold resetToMinimum at ht
    obtain ⟨u, _, rfl⟩ := List.mem_map.mp ht
    rfl
  refine ⟨hall, ?_, ?_⟩
  · rintro id ⟨t, ht, rfl⟩
    have hframe : (forceReallocation s).threads_.map ThreadMetrics.frame
        = s.threads_.map ThreadMetrics.frame := reallocate_frame s
    obtain ⟨u, hu, hfu⟩ := mem_of_map_frame hframe.symm ht
    have hid : u.thread_id = t.thread_id := by
      have := congrArg ThreadMetrics.thread_id hfu
      simpa [ThreadMetrics.frame] using this
    rw [← hid, getThreadAllocation_of_mem (wellFormed_forceReallocation hw).index hu]
    exact hall u hu
  · rw [hts]
    unfold resetToMinimum
    rw [allocatedSum_reset, mul_comm]
    exact heq

theorem reachable_fullPool : Reachable fullPool :=
  reachable_run
    (Reachable.init 16 8 2 1000 _ (by norm_num) (by norm_num) (by decide)) _ (by decide)

/-- Two contexts with miss rates 1% and 50% in a pool of 16 registers with a
minimum of 8: the pool is exhausted and both contexts hold 8 registers after a
forced redistribution. -/
theorem exhausted_pool_witness :
    Reachable fullPool ∧
      fullPool.min_registers_per_thread_ * getActiveThreadCount fullPool
        = fullPool.total_registers_ ∧
      missRateOf fullPool 1 < missRateOf fullPool 2 ∧
      getThreadAllocation (forceReallocation fullPool) 1 = 8 ∧
      getThreadAllocation (forceReallocation fullPool) 2 = 8 ∧
      ((fullPool.min_registers_per_thread_ * getActiveThreadCount fullPool
          = fullPool.total_registers_ →
        (∀ t ∈ (forceReallocation fullPool).threads_,
          t.allocated_registers = fullPool.min_registers_per_thread_) ∧
        (∀ id, IsActive fullPool id →
          getThreadAllocation (forceReallocation fullPool) id
            = fullPool.min_registers_per_thread_) ∧
        allocatedSum (forceReallocation fullPool).threads_ = fullPool.total_registers_) ∧
      0 ≤ fullPool.total_registers_
        - fullPool.min_registers_per_thread_ * getActiveThreadCount fullPool) :=
  ⟨reachable_fullPool, by decide!, by decide!, by decide!, by decide!,
    exhausted_pool fullPool reachable_fullPool⟩

/-! ## The scheduler between operations (C25) -/

/-- C25 (the scheduler is idle between operations). In every state reachable
from a freshly constructed allocator whose `reallocation_interval` is at least
1, the counter is below the interval. -/
theorem scheduler_idle (s : SMTRegisterAllocator) (hs : Reachable s)
    (hN : 1 ≤ s.reallocation_interval_) :
    s.allocation_cycles_ < s.reallocation_interval_ := by
  induction hs with
  | init total mn mx interval s hint hiv hc =>
    unfold construct at hc
    split_ifs at hc
    simp only [Option.some.injEq] at hc
    rw [← hc] at hN ⊢
    exact hN
  | step s op _ _ ih =>
    rw [step_interval] at hN ⊢
    have h := ih hN
    cases op with
    | addThread id => show (addThread s id).2.allocation_cycles_ < _; rw [addThread_cycles]; exact h
    | removeThread id =>
      show (removeThread s id).2.allocation_cycles_ < _
      rw [removeThread_cycles]; exact h
    | updateThreadMetrics id m n =>
      show (updateThreadMetrics s id m n).allocation_cycles_ < _
      rw [(updateThreadMetrics_allocs s id m n).2.2]; exact h
    | advanceCycle =>
      show (advanceCycle s).allocation_cycles_ < _
      by_cases hlt : (s.allocation_cycles_ + 1) % 2 ^ 64 < s.reallocation_interval_
      · rw [advanceCycle_of_lt hlt]; exact hlt
      · rw [advanceCycle_of_not_lt hlt]; exact hN
    | forceReallocation => exact hN

/-- Scenario C after the two reports and nine calls of `advanceCycle`: the
counter is 9, below the interval 10; after the tenth call it is 0. -/
theorem scheduler_idle_witness :
    Reachable (run scenarioC scenarioCOps) ∧
      1 ≤ (run scenarioC scenarioCOps).reallocation_interval_ ∧
      (run scenarioC scenarioCOps).allocation_cycles_ = 9 ∧
      (run scenarioC scenarioCOps).reallocation_interval_ = 10 ∧
      (advanceCycle (run scenarioC scenarioCOps)).allocation_cycles_ = 0 ∧
      (run scenarioC scenarioCOps).allocation_cycles_
        < (run scenarioC scenarioCOps).reallocation_interval_ :=
  have hr : Reachable (run scenarioC scenarioCOps) :=
    reachable_run reachable_scenarioC _ (by decide)
  have hN : 1 ≤ (run scenarioC scenarioCOps).reallocation_interval_ := by decide!
  ⟨hr, hN, by decide!, by decide!, by decide!, scheduler_idle _ hr hN⟩

/-! ## The capacity bound (C26) -/

theorem mem_threadIds_iff (s : SMTRegisterAllocator) (id : Int) :
    id ∈ threadIds s ↔ IsActive s id := by
  unfold threadIds IsActive
  rw [List.mem_map]

theorem getThreadAllocation_ne_iff {s : SMTRegisterAllocator} (hw : WellFormed s) (id : Int) :
    getThreadAllocation s id ≠ -1 ↔ IsActive s id := by
  constructor
  · intro h
    by_contra hna
    apply h
    unfold getThreadAllocation
    rw [(not_isActive_iff_mapFind hw.index id).mp hna]
  · rintro ⟨t, ht, rfl⟩
    rw [getThreadAllocation_of_mem hw.index ht]
    have h1 := hw.caps t ht
    have h2 := hw.config.2.1
    omega

/-- C26 (capacity bound). In every reachable state the active count lies
between 0 and `max_threads`, and it is the number of distinct ids for which
`getThreadAllocation` does not return -1: these ids are exactly the ids of the
records, which are pairwise distinct. -/
theorem capacity_bound (s : SMTRegisterAllocator) (hs : Reachable s) :
    0 ≤ getActiveThreadCount s ∧ getActiveThreadCount s ≤ s.max_threads_ ∧
      (threadIds s).Nodup ∧ ((threadIds s).length : Int) = getActiveThreadCount s ∧
      (∀ id, id ∈ threadIds s ↔ getThreadAllocation s id ≠ -1) ∧
      (Set.ncard {id : Int | getThreadAllocation s id ≠ -1} : Int)
        = getActiveThreadCount s := by
  have hw := wellFormed_of_reachable hs
  have hnd := threadIds_nodup hw.index
  have hlen : ((threadIds s).length : Int) = getActiveThreadCount s := by
    unfold threadIds getActiveThreadCount
    rw [List.length_map]
  have hiff : ∀ id, id ∈ threadIds s ↔ getThreadAllocation s id ≠ -1 :=
    fun id => (mem_threadIds_iff s id).trans (getThreadAllocation_ne_iff hw id).symm
  refine ⟨?_, hw.capacity, hnd, hlen, hiff, ?_⟩
  · unfold getActiveThreadCount
    exact Int.natCast_nonneg _
  · have hset : {id : Int | getThreadAllocation s id ≠ -1} = ↑(threadIds s).toFinset := by
      ext id
      simp only [Set.mem_setOf_eq, Finset.mem_coe, List.mem_toFinset]
      exact (hiff id).symm
    rw [hset, Set.ncard_coe_Finset, List.toFinset_card_of_nodup hnd]
    exact hlen

/-- Scenario D, an allocator filled to its capacity of four contexts: the
active count is 4 and exactly the ids 1 to 4 have an allocation. -/
theorem capacity_bound_witness :
    Reachable scenarioD ∧ getActiveThreadCount scenarioD = 4 ∧
      threadIds scenarioD = [1, 2, 3, 4] ∧
      (0 ≤ getActiveThreadCount scenarioD ∧
        getActiveThreadCount scenarioD ≤ scenarioD.max_threads_ ∧
        (threadIds scenarioD).Nodup ∧
        ((threadIds scenarioD).length : Int) = getActiveThreadCount scenarioD ∧
        (∀ id, id ∈ threadIds scenarioD ↔ getThreadAllocation scenarioD id ≠ -1) ∧
        (Set.ncard {id : Int | getThreadAllocation scenarioD id ≠ -1} : Int)
          = getActiveThreadCount scenarioD) :=
  ⟨reachable_scenarioD, by decide!, by decide!, capacity_bound scenarioD reachable_scenarioD⟩

/-! ## Equal performance (C28) -/

/-- C28 (equal performance is not split evenly). There is a reachable state in
which two contexts with equal miss rates hold allocations that differ by more
than the active count: in the allocator (64, 8, 4) after `addThread(1)` and
`addThread(2)` with no metrics reported, context 1 holds 44 registers and
context 2 holds 20. Both scores are equal; the first context of the sorted
order takes `floor(48 * score / total_score) = 24` of the 48 registers beyond
the minimum caps, the second takes `floor(24 * score / total_score) = 12` of
the 24 that are left, and the 12 left after the loop go to the first. -/
theorem equal_performance_uneven :
    (∃ s a b, Reachable s ∧ IsActive s a ∧ IsActive s b ∧
        missRateOf s a = missRateOf s b ∧
        getActiveThreadCount s < getThreadAllocation s a - getThreadAllocation s b) ∧
      twoThreads = (addThread (addThread testAllocator 1).2 2).2 ∧
      missRateOf twoThreads 1 = 0 ∧ missRateOf twoThreads 2 = 0 ∧
      scoreOf twoThreads 1 = scoreOf twoThreads 2 ∧
      getThreadAllocation twoThreads 1 = 44 ∧ getThreadAllocation twoThreads 2 = 20 ∧
      getActiveThreadCount twoThreads = 2 ∧
      availableRegisters twoThreads = 48 ∧
      (sortedPerformance twoThreads).map Prod.snd = [0, 1] ∧
      (∀ p ∈ sortedPerformance twoThreads,
        truncToInt (fmul (ofInt32 48)
            (fdiv p.1 (totalPerformance (sortedPerformance twoThreads)))) = 24 ∧
          truncToInt (fmul (ofInt32 (48 - 24))
            (fdiv p.1 (totalPerformance (sortedPerformance twoThreads)))) = 12) ∧
      proportionalPass twoThreads
        = (addRegisters (addRegisters (resetToMinimum twoThreads) 0 24) 1 12, 12) ∧
      (reallocateRegisters twoThreads).threads_
        = addRegisters (proportionalPass twoThreads).1 0 12 ∧
      reallocateRegisters twoThreads = twoThreads :=
  have h1 : IsActive twoThreads 1 := by unfold IsActive; decide!
  have h2 : IsActive twoThreads 2 := by unfold IsActive; decide!
  ⟨⟨twoThreads, 1, 2, reachable_twoThreads, h1, h2, by decide!, by decide!⟩,
    rfl, by decide!, by decide!, by decide!, by decide!, by decide!, by decide!, by decide!,
    by decide!, by decide!, by decide!, by decide!, by decide!⟩

/-! ## The order of the records after a removal (C23) -/

theorem getElem?_map_of_map_eq {α β : Type} (f : α → β) {l1 l2 : List α}
    (h : l1.map f = l2.map f) (j : Nat) : (l1[j]?).map f = (l2[j]?).map f := by
  have := congrArg (fun l => l[j]?) h
  simpa only [List.getElem?_map] using this

theorem mapFind_of_getElem? {s : SMTRegisterAllocator} (hidx : IndexConsistent s) {i : Nat}
    {t : ThreadMetrics} (ht : s.threads_[i]? = some t) :
    mapFind s.thread_id_to_index_ t.thread_id = some i := by
  have h1 : (threadIds s)[i]? = some t.thread_id := by
    rw [getElem?_threadIds, ht]; rfl
  exact mapFind_eq_some_of_mem hidx.keys_nodup (hidx.record_ok i _ h1)

/-- C23 (remove-and-compact order). Let the record of context `id` sit at
position `i` of the record vector of a reachable state. Then `removeThread id`
succeeds and the vector is one shorter. If `i` is not the last position, the
record that was last sits at position `i` afterwards and every other remaining
record keeps its position; if `i` is the last position, all remaining records
keep their positions. Records are compared in every field but
`allocated_registers`, which the redistribution at the end of the call
rewrites. -/
theorem removeThread_compaction (s : SMTRegisterAllocator) (hs : Reachable s) (id : Int)
    (i : Nat) (t : ThreadMetrics) (ht : (getThreadMetrics s)[i]? = some t)
    (hid : t.thread_id = id) :
    (removeThread s id).1 = true ∧
      (getThreadMetrics (removeThread s id).2).length + 1 = (getThreadMetrics s).length ∧
      (i + 1 < (getThreadMetrics s).length →
        ((getThreadMetrics (removeThread s id).2)[i]?).map ThreadMetrics.frame
            = ((getThreadMetrics s).getLast?).map ThreadMetrics.frame ∧
          ∀ j, j + 1 < (getThreadMetrics s).length → j ≠ i →
            ((getThreadMetrics (removeThread s id).2)[j]?).map ThreadMetrics.frame
              = ((getThreadMetrics s)[j]?).map ThreadMetrics.frame) ∧
      (i + 1 = (getThreadMetrics s).length →
        ∀ j, j + 1 < (getThreadMetrics s).length →
          ((getThreadMetrics (removeThread s id).2)[j]?).map ThreadMetrics.frame
            = ((getThreadMetrics s)[j]?).map ThreadMetrics.frame) := by
  unfold getThreadMetrics at ht ⊢
  have hw := wellFormed_of_reachable hs
  have hfind : mapFind s.thread_id_to_index_ id = some i := by
    rw [← hid]; exact mapFind_of_getElem? hw.index ht
  have hne : s.threads_ ≠ [] := List.ne_nil_of_mem (List.getElem?_mem ht)
  obtain ⟨last, hlast, hlast2⟩ := getLast?_of_ne_nil hne
  obtain ⟨_, _, _, _, plen⟩ := removeThread_pre hw hfind hlast
  have hpos : 0 < s.threads_.length := List.length_pos.mpr hne
  have hilt : i < s.threads_.length := (List.getElem?_eq_some.mp ht).1
  rw [removeThread_eq hfind ht hlast]
  simp only
  have hframe := finish_frame (removeThreadPre s id i last)
  have hpre : (removeThreadPre s id i last).threads_
      = (if i + 1 < s.threads_.length then s.threads_.set i last else s.threads_).dropLast :=
    rfl
  refine ⟨trivial, ?_, fun hi => ⟨?_, fun j hj hji => ?_⟩, fun hi j hj => ?_⟩
  · rw [length_of_map_frame hframe, plen]
    omega
  · rw [getElem?_map_of_map_eq _ hframe i, hpre, if_pos hi, List.getElem?_dropLast,
      List.length_set, if_pos (by omega), List.getElem?_set, if_pos rfl, if_pos hilt, hlast]
  · rw [getElem?_map_of_map_eq _ hframe j, hpre, if_pos hi, List.getElem?_dropLast,
      List.length_set, if_pos (by omega), List.getElem?_set_ne (Ne.symm hji)]
  · rw [getElem?_map_of_map_eq _ hframe j, hpre, if_neg (by omega), List.getElem?_dropLast,
      if_pos (by omega)]

/-- Scenario D holds the records of the contexts 1, 2, 3, 4 in this order;
removing context 2 (position 1) moves the record of context 4 to position 1 and
leaves the contexts 1 and 3 in place. -/
theorem removeThread_compaction_witness :
    Reachable scenarioD ∧
      (getThreadMetrics scenarioD).map (fun t => t.thread_id) = [1, 2, 3, 4] ∧
      (getThreadMetrics (removeThread scenarioD 2).2).map (fun t => t.thread_id) = [1, 4, 3] ∧
      ∃ t, (getThreadMetrics scenarioD)[1]? = some t ∧ t.thread_id = 2 ∧
        ((removeThread scenarioD 2).1 = true ∧
          (getThreadMetrics (removeThread scenarioD 2).2).length + 1
            = (getThreadMetrics scenarioD).length ∧
          (1 + 1 < (getThreadMetrics scenarioD).length →
            ((getThreadMetrics (removeThread scenarioD 2).2)[1]?).map ThreadMetrics.frame
                = ((getThreadMetrics scenarioD).getLast?).map ThreadMetrics.frame ∧
              ∀ j, j + 1 < (getThreadMetrics scenarioD).length → j ≠ 1 →
                ((getThreadMetrics (removeThread scenarioD 2).2)[j]?).map ThreadMetrics.frame
                  = ((getThreadMetrics scenarioD)[j]?).map ThreadMetrics.frame) ∧
          (1 + 1 = (getThreadMetrics scenarioD).length →
            ∀ j, j + 1 < (getThreadMetrics scenarioD).length →
              ((getThreadMetrics (removeThread scenarioD 2).2)[j]?).map ThreadMetrics.frame
                = ((getThreadMetrics scenarioD)[j]?).map ThreadMetrics.frame)) :=
  have h : (getThreadMetrics scenarioD)[1]?
      = some { l2_misses := 10, instructions := 10000,
               miss_rate := fdiv (ofUInt64 10) (ofUInt64 10000),
               allocated_registers := 4, thread_id := 2 } := by decide!
  ⟨reachable_scenarioD, by decide!, by decide!, _, h, rfl,
    removeThread_compaction scenarioD reachable_scenarioD 2 1 _ h rfl⟩

/-! ## Frame of the metrics update (C24) -/

theorem validateMinimumCaps_congr {s1 s2 : SMTRegisterAllocator}
    (hmin : s1.min_registers_per_thread_ = s2.min_registers_per_thread_)
    (h : s1.threads_.map (fun t => t.allocated_registers)
      = s2.threads_.map (fun t => t.allocated_registers)) :
    validateMinimumCaps s1 = validateMinimumCaps s2 := by
  have key : ∀ s : SMTRegisterAllocator, validateMinimumCaps s
      = (s.threads_.map (fun t => t.allocated_registers)).all
          (fun a => !decide (a < s.min_registers_per_thread_)) := by
    intro s
    unfold validateMinimumCaps
    induction s.threads_ with
    | nil => rfl
    | cons t ts ih => simp only [List.all_cons, List.map_cons, ih]
  rw [key s1, key s2, h, hmin]

/-- C24 (frame of the metrics update). In a reachable state
`updateThreadMetrics id m n` changes no `allocated_registers` field, no record
of a context other than `id`, and neither the order of the records, the active
count, the counter, the id-to-index map nor the configuration; so it changes no
result of `getThreadAllocation`, `getUtilizationStats` or
`validateMinimumCaps`. -/
theorem updateThreadMetrics_frame (s : SMTRegisterAllocator) (hs : Reachable s) (id : Int)
    (m n : Nat) :
    (updateThreadMetrics s id m n).threads_.map (fun t => t.allocated_registers)
        = s.threads_.map (fun t => t.allocated_registers) ∧
      (updateThreadMetrics s id m n).threads_.map (fun t => t.thread_id)
        = s.threads_.map (fun t => t.thread_id) ∧
      (∀ (i : Nat) (t : ThreadMetrics), s.threads_[i]? = some t → t.thread_id ≠ id →
        (updateThreadMetrics s id m n).threads_[i]? = some t) ∧
      getActiveThreadCount (updateThreadMetrics s id m n) = getActiveThreadCount s ∧
      (updateThreadMetrics s id m n).allocation_cycles_ = s.allocation_cycles_ ∧
      (updateThreadMetrics s id m n).thread_id_to_index_ = s.thread_id_to_index_ ∧
      (updateThreadMetrics s id m n).total_registers_ = s.total_registers_ ∧
      (updateThreadMetrics s id m n).min_registers_per_thread_ = s.min_registers_per_thread_ ∧
      (updateThreadMetrics s id m n).max_threads_ = s.max_threads_ ∧
      (updateThreadMetrics s id m n).reallocation_interval_ = s.reallocation_interval_ ∧
      (∀ c, getThreadAllocation (updateThreadMetrics s id m n) c = getThreadAllocation s c) ∧
      getUtilizationStats (updateThreadMetrics s id m n) = getUtilizationStats s ∧
      validateMinimumCaps (updateThreadMetrics s id m n) = validateMinimumCaps s := by
  have hw := wellFormed_of_reachable hs
  cases hfind : mapFind s.thread_id_to_index_ id with
  | none =>
    rw [updateThreadMetrics_none m n hfind]
    exact ⟨rfl, rfl, fun _ _ h _ => h, rfl, rfl, rfl, rfl, rfl, rfl, rfl, fun _ => rfl, rfl, rfl⟩
  | some index =>
    obtain ⟨t0, ht0, hid0⟩ := record_of_mapFind hw.index hfind
    rw [updateThreadMetrics_eq m n hfind ht0]
    have halloc : (s.threads_.set index (recordMetrics t0 m n)).map
        (fun t => t.allocated_registers) = s.threads_.map (fun t => t.allocated_registers) :=
      map_set_same _ ht0 rfl
    have hids : (s.threads_.set index (recordMetrics t0 m n)).map (fun t => t.thread_id)
        = s.threads_.map (fun t => t.thread_id) := map_set_same _ ht0 rfl
    have hpair : (s.threads_.set index (recordMetrics t0 m n)).map
        (fun t => (t.thread_id, t.allocated_registers))
        = s.threads_.map (fun t => (t.thread_id, t.allocated_registers)) :=
      map_set_same _ ht0 rfl
    refine ⟨halloc, hids, ?_, ?_, rfl, rfl, rfl, rfl, rfl, rfl, ?_, ?_, ?_⟩
    · intro i t hti hne
      have hne2 : index ≠ i := by
        intro h
        rw [← h, ht0] at hti
        exact hne (by rw [← Option.some.inj hti]; exact hid0)
      simp only
      rw [List.getElem?_set_ne hne2]
      exact hti
    · unfold getActiveThreadCount
      simp only [List.length_set]
    · exact fun c => @getThreadAllocation_of_allocs_eq
        { s with threads_ := s.threads_.set index (recordMetrics t0 m n) } s rfl hpair c
    · rw [getUtilizationStats_eq, getUtilizationStats_eq]
      simp only
      rw [allocatedSum_set_same (u := recordMetrics t0 m n) ht0 rfl]
    · exact validateMinimumCaps_congr rfl halloc

/-- The first report of `testCycleBasedReallocation`: the allocations 44 and
20 of the two contexts are the same before and after the report. -/
theorem updateThreadMetrics_frame_witness :
    Reachable scenarioC ∧
      getThreadAllocation scenarioC 1 = 44 ∧ getThreadAllocation scenarioC 2 = 20 ∧
      missRateOf scenarioC 1 ≠ missRateOf (updateThreadMetrics scenarioC 1 100 10000) 1 ∧
      ((updateThreadMetrics scenarioC 1 100 10000).threads_.map (fun t => t.allocated_registers)
          = scenarioC.threads_.map (fun t => t.allocated_registers) ∧
        (updateThreadMetrics scenarioC 1 100 10000).threads_.map (fun t => t.thread_id)
          = scenarioC.threads_.map (fun t => t.thread_id) ∧
        (∀ (i : Nat) (t : ThreadMetrics), scenarioC.threads_[i]? = some t → t.thread_id ≠ 1 →
          (updateThreadMetrics scenarioC 1 100 10000).threads_[i]? = some t) ∧
        getActiveThreadCount (updateThreadMetrics scenarioC 1 100 10000)
          = getActiveThreadCount scenarioC ∧
        (updateThreadMetrics scenarioC 1 100 10000).allocation_cycles_
          = scenarioC.allocation_cycles_ ∧
        (updateThreadMetrics scenarioC 1 100 10000).thread_id_to_index_
          = scenarioC.thread_id_to_index_ ∧
        (updateThreadMetrics scenarioC 1 100 10000).total_registers_
          = scenarioC.total_registers_ ∧
        (updateThreadMetrics scenarioC 1 100 10000).min_registers_per_thread_
          = scenarioC.min_registers_per_thread_ ∧
        (updateThreadMetrics scenarioC 1 100 10000).max_threads_ = scenarioC.max_threads_ ∧
        (updateThreadMetrics scenarioC 1 100 10000).reallocation_interval_
          = scenarioC.reallocation_interval_ ∧
        (∀ c, getThreadAllocation (updateThreadMetrics scenarioC 1 100 10000) c
          = getThreadAllocation scenarioC c) ∧
        getUtilizationStats (updateThreadMetrics scenarioC 1 100 10000)
          = getUtilizationStats scenarioC ∧
        validateMinimumCaps (updateThreadMetrics scenarioC 1 100 10000)
          = validateMinimumCaps scenarioC) :=
  ⟨reachable_scenarioC, by decide!, by decide!, by decide!,
    updateThreadMetrics_frame scenarioC reachable_scenarioC 1 100 10000⟩

/-! ## Redistribution forgets history (C27) -/

/-- The branches of `reallocateRegisters`, in terms of the named intermediate
values. -/
theorem reallocate_threads (s : SMTRegisterAllocator) :
    (reallocateRegisters s).threads_
      = if s.threads_.isEmpty then s.threads_
        else if availableRegisters s ≤ 0 then resetToMinimum s
        else if 0 < totalPerformance (sortedPerformance s) then
          proportionalShare (sortedPerformance s) (resetToMinimum s) (availableRegisters s)
        else equalShare (resetToMinimum s) (availableRegisters s) := by
  unfold reallocateRegisters sortedPerformance resetToMinimum availableRegisters
  simp only
  split_ifs <;> rfl

theorem threadPerformance_eq (ts : List ThreadMetrics) :
    threadPerformance ts
      = ((ts.map (fun t => t.miss_rate)).enum).map
          (fun p => (fdiv 1 (fadd p.2 epsilon), p.1)) := by
  unfold threadPerformance
  rw [List.enum_map, List.map_map]
  rfl

theorem map_alloc_addRegisters {A B : List ThreadMetrics}
    (h : A.map (fun t => t.allocated_registers) = B.map (fun t => t.allocated_registers))
    (i : Nat) (x : Int) :
    (addRegisters A i x).map (fun t => t.allocated_registers)
      = (addRegisters B i x).map (fun t => t.allocated_registers) := by
  have hi := getElem?_map_of_map_eq (fun t : ThreadMetrics => t.allocated_registers) h i
  unfold addRegisters
  cases hA : A[i]? with
  | none =>
    cases hB : B[i]? with
    | none => exact h
    | some b => rw [hA, hB] at hi; simp at hi
  | some a =>
    cases hB : B[i]? with
    | none => rw [hA, hB] at hi; simp at hi
    | some b =>
      rw [hA, hB] at hi
      simp only [Option.map_some', Option.some.injEq] at hi
      simp only [List.map_set, h, hi]

theorem map_alloc_distribute (T : ℚ) (perfs : List (ℚ × Nat)) :
    ∀ (A B : List ThreadMetrics) (a : Int),
      A.map (fun t => t.allocated_registers) = B.map (fun t => t.allocated_registers) →
      (distribute T perfs A a).1.map (fun t => t.allocated_registers)
          = (distribute T perfs B a).1.map (fun t => t.allocated_registers) ∧
        (distribute T perfs A a).2 = (distribute T perfs B a).2 := by
  induction perfs with
  | nil => intro A B a h; exact ⟨h, rfl⟩
  | cons p perfs ih =>
    intro A B a h
    rw [distribute_cons, distribute_cons]
    exact ih _ _ _ (map_alloc_addRegisters h _ _)

theorem map_alloc_proportionalShare (perfs : List (ℚ × Nat)) {A B : List ThreadMetrics}
    (a : Int)
    (h : A.map (fun t => t.allocated_registers) = B.map (fun t => t.allocated_registers)) :
    (proportionalShare perfs A a).map (fun t => t.allocated_registers)
      = (proportionalShare perfs B a).map (fun t => t.allocated_registers) := by
  obtain ⟨h1, h2⟩ := map_alloc_distribute (totalPerformance perfs) perfs A B a h
  unfold proportionalShare
  simp only
  cases perfs with
  | nil => exact h1
  | cons best rest =>
    simp only
    rw [h2]
    split_ifs
    · exact map_alloc_addRegisters h1 _ _
    · exact h1

theorem map_alloc_equalShare {A B : List ThreadMetrics} (a : Int)
    (h : A.map (fun t => t.allocated_registers) = B.map (fun t => t.allocated_registers)) :
    (equalShare A a).map (fun t => t.allocated_registers)
      = (equalShare B a).map (fun t => t.allocated_registers) := by
  have hlen : A.length = B.length := by
    have := congrArg List.length h
    simpa using this
  have key : ∀ ts : List ThreadMetrics,
      (equalShare ts a).map (fun t => t.allocated_registers)
        = ((ts.map (fun t => t.allocated_registers)).enum).map
            (fun p => p.2 + a / ((ts.map (fun t => t.allocated_registers)).length : Int)
              + (if (p.1 : Int)
                  < a % ((ts.map (fun t => t.allocated_registers)).length : Int)
                then 1 else 0)) := by
    intro ts
    unfold equalShare
    rw [List.enum_map, List.map_map, List.map_map, List.length_map]
    rfl
  rw [key A, key B, h]

theorem map_missRate_reset (ts : List ThreadMetrics) (m : Int) :
    (ts.map (fun t => ({ t with allocated_registers := m } : ThreadMetrics))).map
        (fun t => t.miss_rate) = ts.map (fun t => t.miss_rate) := by
  rw [List.map_map]
  rfl

theorem map_alloc_reset (ts : List ThreadMetrics) (m : Int) :
    (ts.map (fun t => ({ t with allocated_registers := m } : ThreadMetrics))).map
        (fun t => t.allocated_registers) = List.replicate ts.length m := by
  induction ts with
  | nil => rfl
  | cons t ts ih => simp only [List.map_cons, List.length_cons, List.replicate_succ, ih]

/-- C27 (redistribution forgets history). The allocations that
`reallocateRegisters` produces are a function of `total_registers`,
`min_registers_per_thread` and the list of the records' miss rates in vector
order: two states that agree on these produce the same list of allocations,
whatever their previous allocations, their counters, or any other field. -/
theorem reallocate_forgets_history (s1 s2 : SMTRegisterAllocator)
    (htotal : s1.total_registers_ = s2.total_registers_)
    (hmin : s1.min_registers_per_thread_ = s2.min_registers_per_thread_)
    (hrates : s1.threads_.map (fun t => t.miss_rate) = s2.threads_.map (fun t => t.miss_rate)) :
    (reallocateRegisters s1).threads_.map (fun t => t.allocated_registers)
        = (reallocateRegisters s2).threads_.map (fun t => t.allocated_registers) ∧
      (forceReallocation s1).threads_.map (fun t => t.allocated_registers)
        = (forceReallocation s2).threads_.map (fun t => t.allocated_registers) := by
  have hlen : s1.threads_.length = s2.threads_.length := by
    have := congrArg List.length hrates
    simpa using this
  have hreset : (resetToMinimum s1).map (fun t => t.allocated_registers)
      = (resetToMinimum s2).map (fun t => t.allocated_registers) := by
    unfold resetToMinimum
    rw [map_alloc_reset, map_alloc_reset, hlen, hmin]
  have hperf : sortedPerformance s1 = sortedPerformance s2 := by
    unfold sortedPerformance resetToMinimum
    rw [threadPerformance_eq, threadPerformance_eq, map_missRate_reset, map_missRate_reset,
      hrates]
  have havail : availableRegisters s1 = availableRegisters s2 := by
    unfold availableRegisters
    rw [htotal, hmin, hlen]
  have hempty : s1.threads_.isEmpty = s2.threads_.isEmpty := by
    cases h1 : s1.threads_ with
    | nil =>
      rw [h1] at hlen
      rw [List.length_eq_zero.mp hlen.symm]
    | cons a l =>
      cases h2 : s2.threads_ with
      | nil => rw [h1, h2] at hlen; simp at hlen
      | cons b k => rfl
  have hmain : (reallocateRegisters s1).threads_.map (fun t => t.allocated_registers)
      = (reallocateRegisters s2).threads_.map (fun t => t.allocated_registers) := by
    rw [reallocate_threads, reallocate_threads, hempty, havail, hperf]
    split_ifs with c1 c2 c3
    · rw [List.isEmpty_iff] at c1
      have c0 : s1.threads_ = [] := by
        rw [c1] at hlen
        exact List.length_eq_zero.mp hlen
      rw [c0, c1]
    · exact hreset
    · exact map_alloc_proportionalShare _ _ hreset
    · exact map_alloc_equalShare _ hreset
  exact ⟨hmain, hmain⟩

theorem reachable_staleAllocation : Reachable staleAllocation :=
  reachable_run reachable_testAllocator _ (by decide)

/-- Two reachable states of the test allocator whose two contexts have miss
rate 0: one holds the allocations 44 and 20 with counter 0, the other the
allocations 56 and 8 with counter 1. A redistribution gives 44 and 20 in
both. -/
theorem reallocate_forgets_history_witness :
    Reachable twoThreads ∧ Reachable staleAllocation ∧
      twoThreads.threads_.map (fun t => t.allocated_registers) = [44, 20] ∧
      staleAllocation.threads_.map (fun t => t.allocated_registers) = [56, 8] ∧
      twoThreads.allocation_cycles_ = 0 ∧ staleAllocation.allocation_cycles_ = 1 ∧
      twoThreads.total_registers_ = staleAllocation.total_registers_ ∧
      twoThreads.min_registers_per_thread_ = staleAllocation.min_registers_per_thread_ ∧
      twoThreads.threads_.map (fun t => t.miss_rate)
        = staleAllocation.threads_.map (fun t => t.miss_rate) ∧
      (reallocateRegisters staleAllocation).threads_.map (fun t => t.allocated_registers)
        = [44, 20] ∧
      ((reallocateRegisters twoThreads).threads_.map (fun t => t.allocated_registers)
          = (reallocateRegisters staleAllocation).threads_.map
              (fun t => t.allocated_registers) ∧
        (forceReallocation twoThreads).threads_.map (fun t => t.allocated_registers)
          = (forceReallocation staleAllocation).threads_.map
              (fun t => t.allocated_registers)) :=
  have h1 : twoThreads.total_registers_ = staleAllocation.total_registers_ := by decide!
  have h2 : twoThreads.min_registers_per_thread_ = staleAllocation.min_registers_per_thread_ := by
    decide!
  have h3 : twoThreads.threads_.map (fun t => t.miss_rate)
      = staleAllocation.threads_.map (fun t => t.miss_rate) := by decide!
  ⟨reachable_twoThreads, reachable_staleAllocation, by decide!, by decide!, by decide!,
    by decide!, h1, h2, h3, by decide!,
    reallocate_forgets_history twoThreads staleAllocation h1 h2 h3⟩

/-! ## Positive scores (C22) -/

theorem isDbl_two_pow (k : Nat) : IsDbl ((2 : ℚ) ^ k) :=
  ⟨1, (k : Int), by omega, by norm_num, by simp⟩

theorem epsilon_le_one : epsilon ≤ 1 := by decide!

theorem epsilon_lower : 1 / (2 : ℚ) ^ 34 ≤ epsilon := by decide!

theorem isDbl_inv_two_pow_65 : IsDbl (1 / (2 : ℚ) ^ 65) :=
  ⟨1, -65, by norm_num, by norm_num, by norm_num⟩

/-- A reported miss rate is at most `2 ^ 64`. -/
theorem missRate_le (t : ThreadMetrics) (m n : Nat) (hm : m < 2 ^ 64) :
    (recordMetrics t m n).miss_rate ≤ 2 ^ 64 := by
  unfold recordMetrics
  simp only
  split_ifs with hn
  · unfold fdiv ofUInt64
    have h64 : rnd ((2 : ℚ) ^ 64) = 2 ^ 64 := rnd_of_isDbl (isDbl_two_pow 64)
    have hmq : (m : ℚ) ≤ 2 ^ 64 := by exact_mod_cast le_of_lt hm
    have h1 : rnd (m : ℚ) ≤ 2 ^ 64 := by
      have := rnd_mono (Nat.cast_nonneg m) hmq
      rwa [h64] at this
    have h2 : 1 ≤ rnd (n : ℚ) := by
      have hnq : (1 : ℚ) ≤ (n : ℚ) := by exact_mod_cast hn
      have := rnd_mono (by norm_num : (0 : ℚ) ≤ 1) hnq
      rwa [rnd_of_isDbl isDbl_one] at this
    have h0 : 0 ≤ rnd (m : ℚ) := rnd_nonneg (Nat.cast_nonneg m)
    have hq : rnd (m : ℚ) / rnd (n : ℚ) ≤ 2 ^ 64 := by
      rw [div_le_iff₀ (by linarith)]
      calc rnd (m : ℚ) ≤ 2 ^ 64 := h1
        _ = 2 ^ 64 * 1 := by ring
        _ ≤ 2 ^ 64 * rnd (n : ℚ) := by
          apply mul_le_mul_of_nonneg_left h2
          positivity
    have := rnd_mono (div_nonneg h0 (by linarith)) hq
    rwa [h64] at this
  · positivity

/-- The divisor and the score of a record whose miss rate is a double that is
at most `2 ^ 64`. -/
theorem performance_bounds (t : ThreadMetrics) (h1 : IsDbl t.miss_rate)
    (h2 : t.miss_rate ≤ 2 ^ 64) :
    0 < fadd t.miss_rate epsilon ∧ 0 < performance t ∧ performance t ≤ 2 ^ 34 := by
  have h0 := isDbl_nonneg h1
  have hx1 : epsilon ≤ fadd t.miss_rate epsilon := by
    have := rnd_mono epsilon_nonneg (by linarith : epsilon ≤ t.miss_rate + epsilon)
    rwa [rnd_of_isDbl isDbl_epsilon] at this
  have hx2 : fadd t.miss_rate epsilon ≤ 2 ^ 65 := by
    have hle : t.miss_rate + epsilon ≤ 2 ^ 65 := by
      have := epsilon_le_one
      have e : (2 : ℚ) ^ 65 = 2 ^ 64 + 2 ^ 64 := by ring
      have e2 : (1 : ℚ) ≤ 2 ^ 64 := one_le_pow₀ (by norm_num)
      linarith
    have := rnd_mono (add_nonneg h0 epsilon_nonneg) hle
    rwa [rnd_of_isDbl (isDbl_two_pow 65)] at this
  have hxpos : 0 < fadd t.miss_rate epsilon := lt_of_lt_of_le epsilon_pos hx1
  refine ⟨hxpos, ?_, ?_⟩
  · have hle : 1 / (2 : ℚ) ^ 65 ≤ 1 / fadd t.miss_rate epsilon :=
      one_div_le_one_div_of_le hxpos hx2
    have := rnd_mono (by positivity) hle
    rw [rnd_of_isDbl isDbl_inv_two_pow_65] at this
    exact lt_of_lt_of_le (by positivity) this
  · have hle : 1 / fadd t.miss_rate epsilon ≤ 2 ^ 34 := by
      have h3 : 1 / fadd t.miss_rate epsilon ≤ 1 / epsilon :=
        one_div_le_one_div_of_le epsilon_pos hx1
      have h4 : 1 / epsilon ≤ 1 / (1 / (2 : ℚ) ^ 34) :=
        one_div_le_one_div_of_le (by positivity) epsilon_lower
      rw [one_div_one_div] at h4
      exact le_trans h3 h4
    have := rnd_mono (le_of_lt (one_div_pos.mpr hxpos)) hle
    rwa [rnd_of_isDbl (isDbl_two_pow 34)] at this

/-- With at least one record, all of whose miss rates are doubles that are at
most `2 ^ 64`, the accumulated `total_performance` is positive. -/
theorem totalPerformance_pos (s : SMTRegisterAllocator)
    (h : ∀ t ∈ s.threads_, IsDbl t.miss_rate ∧ t.miss_rate ≤ 2 ^ 64) (hne : s.threads_ ≠ []) :
    0 < totalPerformance (sortedPerformance s) := by
  have hmem : ∀ t ∈ resetToMinimum s, IsDbl t.miss_rate ∧ t.miss_rate ≤ 2 ^ 64 := by
    intro t ht
    unfold resetToMinimum at ht
    obtain ⟨u, hu, rfl⟩ := List.mem_map.mp ht
    exact h u hu
  have hok := sorted_scores_ok (resetToMinimum s) (fun t ht => isDbl_nonneg (hmem t ht).1)
  have hlen : (sortedPerformance s).length = s.threads_.length := by
    unfold sortedPerformance
    rw [(sortDesc_perm _).length_eq, length_threadPerformance]
    unfold resetToMinimum
    rw [List.length_map]
  cases hsp : sortedPerformance s with
  | nil =>
    rw [hsp] at hlen
    exact absurd (List.length_eq_zero.mp hlen.symm) hne
  | cons p rest =>
    have hp : p ∈ sortedPerformance s := by rw [hsp]; exact List.mem_cons_self _ _
    rw [← hsp]
    have hp2 : p ∈ threadPerformance (resetToMinimum s) := by
      unfold sortedPerformance at hp
      exact (sortDesc_perm _).mem_iff.mp hp
    obtain ⟨t, ht, hpt⟩ := mem_threadPerformance.mp hp2
    have htm := hmem t (List.getElem?_mem ht)
    have hpos := (performance_bounds t htm.1 htm.2).2.1
    have hle := (hok p hp).2.1
    unfold sortedPerformance
    rw [hpt] at hle
    exact lt_of_lt_of_le hpos hle

/-- With a positive `total_performance` the equal-split branch is not taken. -/
theorem reallocate_threads_of_pos (s : SMTRegisterAllocator)
    (h : s.threads_ ≠ [] → 0 < totalPerformance (sortedPerformance s)) :
    (reallocateRegisters s).threads_
      = if s.threads_.isEmpty then s.threads_
        else if availableRegisters s ≤ 0 then resetToMinimum s
        else proportionalShare (sortedPerformance s) (resetToMinimum s)
          (availableRegisters s) := by
  rw [reallocate_threads]
  split_ifs with c1 c2 c3
  · rfl
  · rfl
  · rfl
  · exact absurd (h (fun h0 => c1 (by rw [h0]; rfl))) c3

theorem mem_removeThreadPre {s : SMTRegisterAllocator} {id : Int} {index : Nat}
    {last t : ThreadMetrics} (hlast : last ∈ s.threads_)
    (ht : t ∈ (removeThreadPre s id index last).threads_) : t ∈ s.threads_ := by
  have ht2 : t ∈ (if index + 1 < s.threads_.length then s.threads_.set index last
      else s.threads_) := mem_of_mem_dropLast ht
  split_ifs at ht2
  · rcases List.mem_or_eq_of_mem_set ht2 with h1 | h1
    · exact h1
    · rw [h1]; exact hlast
  · exact ht2

theorem mem_getLast? {α : Type} {l : List α} {a : α} (h : l.getLast? = some a) : a ∈ l := by
  rw [List.getLast?_eq_getElem?] at h
  exact List.getElem?_mem h

theorem reallocationInput_addThread (s : SMTRegisterAllocator) (id : Int) :
    reallocationInput s (Op.addThread id)
      = if (mapFind s.thread_id_to_index_ id).isSome then none
        else if s.max_threads_ ≤ (s.threads_.length : Int) then none
        else some { s with
          thread_id_to_index_ := mapSet s.thread_id_to_index_ id s.threads_.length
          threads_ := s.threads_ ++
            [{ ThreadMetrics.init id with allocated_registers := s.min_registers_per_thread_ }] } :=
  rfl

theorem reallocationInput_removeThread (s : SMTRegisterAllocator) (id : Int) :
    reallocationInput s (Op.removeThread id)
      = match mapFind s.thread_id_to_index_ id, s.threads_.getLast? with
        | some index, some last =>
          if (removeThreadPre s id index last).threads_.isEmpty then none
          else some (removeThreadPre s id index last)
        | _, _ => none := rfl

theorem reallocationInput_advanceCycle (s : SMTRegisterAllocator) :
    reallocationInput s Op.advanceCycle
      = if isReallocationNeeded
            { s with allocation_cycles_ := (s.allocation_cycles_ + 1) % 2 ^ 64 } then
          some { s with allocation_cycles_ := (s.allocation_cycles_ + 1) % 2 ^ 64 }
        else none := rfl

theorem reallocationInput_forceReallocation (s : SMTRegisterAllocator) :
    reallocationInput s Op.forceReallocation = some s := rfl

/-- The records handed to `reallocateRegisters` are records of the state
before the call, or the fresh record of `addThread`, whose miss rate is 0. -/
theorem mem_reallocationInput {s x : SMTRegisterAllocator} {op : Op}
    (hx : reallocationInput s op = some x) :
    ∀ t ∈ x.threads_, t ∈ s.threads_ ∨ t.miss_rate = 0 := by
  intro t ht
  cases op with
  | addThread id =>
    rw [reallocationInput_addThread] at hx
    split_ifs at hx
    simp only [Option.some.injEq] at hx
    rw [← hx] at ht
    simp only [List.mem_append, List.mem_singleton] at ht
    rcases ht with ht | rfl
    · exact Or.inl ht
    · exact Or.inr rfl
  | removeThread id =>
    rw [reallocationInput_removeThread] at hx
    cases hf : mapFind s.thread_id_to_index_ id with
    | none => rw [hf] at hx; exact Option.noConfusion hx
    | some index =>
      cases hl : s.threads_.getLast? with
      | none => rw [hf, hl] at hx; exact Option.noConfusion hx
      | some last =>
        rw [hf, hl] at hx
        simp only at hx
        split_ifs at hx
        simp only [Option.some.injEq] at hx
        rw [← hx] at ht
        exact Or.inl (mem_removeThreadPre (mem_getLast? hl) ht)
  | updateThreadMetrics id m n => exact Option.noConfusion hx
  | advanceCycle =>
    rw [reallocationInput_advanceCycle] at hx
    split_ifs at hx
    simp only [Option.some.injEq] at hx
    rw [← hx] at ht
    exact Or.inl ht
  | forceReallocation =>
    rw [reallocationInput_forceReallocation] at hx
    simp only [Option.some.injEq] at hx
    rw [← hx] at ht
    exact Or.inl ht

/-- The records after the call are those that `reallocateRegisters` returns
for its input. -/
theorem step_of_reallocationInput {s x : SMTRegisterAllocator} (hw : WellFormed s) {op : Op}
    (hx : reallocationInput s op = some x) :
    (step s op).threads_ = (reallocateRegisters x).threads_ := by
  cases op with
  | addThread id =>
    rw [reallocationInput_addThread] at hx
    split_ifs at hx with h1 h2
    simp only [Option.some.injEq] at hx
    show (addThread s id).2.threads_ = _
    unfold addThread
    rw [if_neg h1, if_neg h2, ← hx]
  | removeThread id =>
    rw [reallocationInput_removeThread] at hx
    cases hf : mapFind s.thread_id_to_index_ id with
    | none => rw [hf] at hx; exact Option.noConfusion hx
    | some index =>
      cases hl : s.threads_.getLast? with
      | none => rw [hf, hl] at hx; exact Option.noConfusion hx
      | some last =>
        rw [hf, hl] at hx
        simp only at hx
        split_ifs at hx with hemp
        simp only [Option.some.injEq] at hx
        obtain ⟨removed, hrem, _⟩ := record_of_mapFind hw.index hf
        show (removeThread s id).2.threads_ = _
        rw [removeThread_eq hf hrem hl, ← hx]
        simp only
        unfold finishRemove
        rw [if_neg hemp]
  | updateThreadMetrics id m n => exact Option.noConfusion hx
  | advanceCycle =>
    rw [reallocationInput_advanceCycle] at hx
    split_ifs at hx with hdue
    simp only [Option.some.injEq] at hx
    show (advanceCycle s).threads_ = _
    unfold advanceCycle calculateMissRates
    simp only
    rw [if_pos hdue, ← hx]
  | forceReallocation =>
    rw [reallocationInput_forceReallocation] at hx
    simp only [Option.some.injEq] at hx
    rw [← hx]
    rfl

theorem rates_of_frame {ts us : List ThreadMetrics}
    (h : ts.map ThreadMetrics.frame = us.map ThreadMetrics.frame)
    (hus : ∀ u ∈ us, u.miss_rate ≤ 2 ^ 64) : ∀ t ∈ ts, t.miss_rate ≤ 2 ^ 64 := by
  intro t ht
  obtain ⟨u, hu, hfu⟩ := mem_of_map_frame h ht
  rw [← miss_rate_of_frame hfu]
  exact hus u hu

/-- In every reachable state every miss rate is at most `2 ^ 64`. -/
theorem rates_le_of_reachable {s : SMTRegisterAllocator} (hs : Reachable s) :
    ∀ t ∈ s.threads_, t.miss_rate ≤ 2 ^ 64 := by
  induction hs with
  | init total mn mx interval s hint hiv hc =>
    unfold construct at hc
    split_ifs at hc
    simp only [Option.some.injEq] at hc
    rw [← hc]
    intro t ht
    simp at ht
  | step s op hs hop ih =>
    have hw := wellFormed_of_reachable hs
    cases hx : reallocationInput s op with
    | some x =>
      rw [step_of_reallocationInput hw hx]
      apply rates_of_frame (reallocate_frame x)
      intro u hu
      rcases mem_reallocationInput hx u hu with h1 | h1
      · exact ih u h1
      · rw [h1]; positivity
    | none =>
      cases op with
      | addThread id =>
        show ∀ t ∈ (addThread s id).2.threads_, _
        rw [reallocationInput_addThread] at hx
        split_ifs at hx with h1 h2
        · rw [addThread_fail_left h1]; exact ih
        · rw [addThread_fail_right h2]; exact ih
      | removeThread id =>
        show ∀ t ∈ (removeThread s id).2.threads_, _
        cases hf : mapFind s.thread_id_to_index_ id with
        | none => rw [removeThread_fail hf]; exact ih
        | some index =>
          obtain ⟨removed, hrem, _⟩ := record_of_mapFind hw.index hf
          have hne : s.threads_ ≠ [] := List.ne_nil_of_mem (List.getElem?_mem hrem)
          obtain ⟨last, hlast, _⟩ := getLast?_of_ne_nil hne
          rw [removeThread_eq hf hrem hlast]
          simp only
          apply rates_of_frame (finish_frame _)
          intro u hu
          exact ih u (mem_removeThreadPre (mem_getLast? hlast) hu)
      | updateThreadMetrics id m n =>
        show ∀ t ∈ (updateThreadMetrics s id m n).threads_, _
        cases hf : mapFind s.thread_id_to_index_ id with
        | none => rw [updateThreadMetrics_none m n hf]; exact ih
        | some index =>
          obtain ⟨t0, ht0, _⟩ := record_of_mapFind hw.index hf
          rw [updateThreadMetrics_eq m n hf ht0]
          intro u hu
          rcases List.mem_or_eq_of_mem_set hu with h1 | h1
          · exact ih u h1
          · rw [h1]; exact missRate_le t0 m n hop.2.1
      | advanceCycle =>
        show ∀ t ∈ (advanceCycle s).threads_, _
        rw [reallocationInput_advanceCycle] at hx
        split_ifs at hx with hdue
        unfold advanceCycle
        simp only
        rw [if_neg hdue]
        exact ih
      | forceReallocation => exact Option.noConfusion hx

theorem ofUInt64_pos {n : Nat} (hn : 0 < n) : 0 < ofUInt64 n := by
  unfold ofUInt64
  have hnq : (1 : ℚ) ≤ (n : ℚ) := by exact_mod_cast hn
  have := rnd_mono (by norm_num : (0 : ℚ) ≤ 1) hnq
  rw [rnd_of_isDbl isDbl_one] at this
  linarith

/-- C22 (positive total score). In every reachable state every miss rate lies
between 0 and `2 ^ 64`, every divisor `miss_rate + 1e-10` is positive, every
score `1.0 / (miss_rate + 1e-10)` is positive and at most `2 ^ 34`, and
`total_performance` is positive when a context is active. The same holds for
every state on which a public call invokes `reallocateRegisters`, so the call
returns the records of the reset, or of the proportional branch, never those of
the equal-split branch. The divisor of `updateThreadMetrics` is positive
whenever the division is executed. -/
theorem positive_total_score (s : SMTRegisterAllocator) (hs : Reachable s) :
    (∀ t ∈ s.threads_, 0 ≤ t.miss_rate ∧ t.miss_rate ≤ 2 ^ 64 ∧
        0 < fadd t.miss_rate epsilon ∧ 0 < performance t ∧ performance t ≤ 2 ^ 34) ∧
      (s.threads_ ≠ [] → 0 < totalPerformance (sortedPerformance s)) ∧
      (∀ op x, reallocationInput s op = some x →
        (step s op).threads_ = (reallocateRegisters x).threads_ ∧
        (∀ t ∈ x.threads_, 0 ≤ t.miss_rate ∧ t.miss_rate ≤ 2 ^ 64 ∧
          0 < fadd t.miss_rate epsilon ∧ 0 < performance t ∧ performance t ≤ 2 ^ 34) ∧
        (x.threads_ ≠ [] → 0 < totalPerformance (sortedPerformance x)) ∧
        (reallocateRegisters x).threads_
          = (if x.threads_.isEmpty then x.threads_
            else if availableRegisters x ≤ 0 then resetToMinimum x
            else proportionalShare (sortedPerformance x) (resetToMinimum x)
              (availableRegisters x))) ∧
      (∀ n : Nat, 0 < n → 0 < ofUInt64 n) := by
  have hw := wellFormed_of_reachable hs
  have hle := rates_le_of_reachable hs
  have hrec : ∀ x : SMTRegisterAllocator,
      (∀ t ∈ x.threads_, IsDbl t.miss_rate ∧ t.miss_rate ≤ 2 ^ 64) →
      (∀ t ∈ x.threads_, 0 ≤ t.miss_rate ∧ t.miss_rate ≤ 2 ^ 64 ∧
        0 < fadd t.miss_rate epsilon ∧ 0 < performance t ∧ performance t ≤ 2 ^ 34) := by
    intro x hx t ht
    obtain ⟨h1, h2⟩ := hx t ht
    exact ⟨isDbl_nonneg h1, h2, performance_bounds t h1 h2⟩
  have hs0 : ∀ t ∈ s.threads_, IsDbl t.miss_rate ∧ t.miss_rate ≤ 2 ^ 64 :=
    fun t ht => ⟨hw.miss_dbl t ht, hle t ht⟩
  refine ⟨hrec s hs0, totalPerformance_pos s hs0, ?_, fun n hn => ofUInt64_pos hn⟩
  intro op x hx
  have hx0 : ∀ t ∈ x.threads_, IsDbl t.miss_rate ∧ t.miss_rate ≤ 2 ^ 64 := by
    intro t ht
    rcases mem_reallocationInput hx t ht with h1 | h1
    · exact hs0 t h1
    · rw [h1]; exact ⟨isDbl_zero, by positivity⟩
  exact ⟨step_of_reallocationInput hw hx, hrec x hx0, totalPerformance_pos x hx0,
    reallocate_threads_of_pos x (totalPerformance_pos x hx0)⟩

/-- Scenario A (miss rates 1%, 5% and 10%): every score is positive, and the
forced redistribution runs on a state with a positive `total_performance`. -/
theorem positive_total_score_witness :
    Reachable scenarioA ∧
      reallocationInput scenarioA Op.forceReallocation = some scenarioA ∧
      ((∀ t ∈ scenarioA.threads_, 0 ≤ t.miss_rate ∧ t.miss_rate ≤ 2 ^ 64 ∧
          0 < fadd t.miss_rate epsilon ∧ 0 < performance t ∧ performance t ≤ 2 ^ 34) ∧
        (scenarioA.threads_ ≠ [] → 0 < totalPerformance (sortedPerformance scenarioA)) ∧
        (∀ op x, reallocationInput scenarioA op = some x →
          (step scenarioA op).threads_ = (reallocateRegisters x).threads_ ∧
          (∀ t ∈ x.threads_, 0 ≤ t.miss_rate ∧ t.miss_rate ≤ 2 ^ 64 ∧
            0 < fadd t.miss_rate epsilon ∧ 0 < performance t ∧ performance t ≤ 2 ^ 34) ∧
          (x.threads_ ≠ [] → 0 < totalPerformance (sortedPerformance x)) ∧
          (reallocateRegisters x).threads_
            = (if x.threads_.isEmpty then x.threads_
              else if availableRegisters x ≤ 0 then resetToMinimum x
              else proportionalShare (sortedPerformance x) (resetToMinimum x)
                (availableRegisters x))) ∧
        (∀ n : Nat, 0 < n → 0 < ofUInt64 n)) :=
  ⟨reachable_scenarioA, rfl, positive_total_score scenarioA reachable_scenarioA⟩

end SMT
